import Mathlib

/-!
Verification of the multi-source collection and deduplication pipeline of the
CE48_Final repository (src/rss_collector.py, src/api_collector.py,
src/scrape_collector.py, src/scholar_collector.py, src/build_raw_dataset.py).

The Python code is shallowly embedded: pure helpers become Lean functions,
the mutable `seen_hashes` set becomes an explicit ledger value threaded
through the collectors, and network fetches become environment data passed
into the collectors together with a log of attempted fetches.  External
libraries used by the code (hashlib, urllib.parse, dateutil) are embedded
faithfully where their behaviour matters to the claims: SHA-256 is
implemented in full, and the relevant fragment of urllib.parse
(urlparse / parse_qs / urlencode / urlunparse) is implemented below.
-/

set_option maxRecDepth 100000

namespace CE48

/-! ## Python string primitives -/

/-- Python `str.lower()` restricted to the character data (ASCII-faithful). -/
def lowerS (s : String) : String := ⟨s.data.map Char.toLower⟩

/-- Python `str.strip()`: remove leading and trailing whitespace. -/
def pyStrip (s : String) : String :=
  ⟨((s.data.dropWhile Char.isWhitespace).reverse.dropWhile Char.isWhitespace).reverse⟩

/-- Python slicing `s[:n]`. -/
def pyTake (n : Nat) (s : String) : String := ⟨s.data.take n⟩

/-- Python `s.startswith(p)` on character lists. -/
def startsWithL (p s : List Char) : Bool := p.isPrefixOf s

/-- Python `s.rstrip('/')`: drop every trailing `'/'`. -/
def rstripSlashes (s : List Char) : List Char :=
  (s.reverse.dropWhile (· = '/')).reverse

/-- UTF-8 encoding of one code point (Python `str.encode()` per character). -/
def utf8Bytes1 (n : Nat) : List Nat :=
  if n < 0x80 then [n]
  else if n < 0x800 then [0xC0 + n / 0x40, 0x80 + n % 0x40]
  else if n < 0x10000 then
    [0xE0 + n / 0x1000, 0x80 + (n / 0x40) % 0x40, 0x80 + n % 0x40]
  else
    [0xF0 + n / 0x40000, 0x80 + (n / 0x1000) % 0x40,
     0x80 + (n / 0x40) % 0x40, 0x80 + n % 0x40]

/-- Python `str.encode()` (UTF-8 bytes of a string). -/
def utf8Encode (s : String) : List Nat := (s.data.map (fun c => utf8Bytes1 c.toNat)).flatten

/-! ## SHA-256 (hashlib.sha256, bytes → hex digest)

Machine words are `Nat` reduced mod `2^32` after every arithmetic step. -/

def m32 : Nat := 4294967296

def rotr (n x : Nat) : Nat := ((x >>> n) ||| (x <<< (32 - n))) % m32

def shaCh (x y z : Nat) : Nat := (x &&& y) ^^^ ((x ^^^ 0xFFFFFFFF) &&& z)

def shaMaj (x y z : Nat) : Nat := (x &&& y) ^^^ (x &&& z) ^^^ (y &&& z)

def bigSigma0 (x : Nat) : Nat := rotr 2 x ^^^ rotr 13 x ^^^ rotr 22 x

def bigSigma1 (x : Nat) : Nat := rotr 6 x ^^^ rotr 11 x ^^^ rotr 25 x

def smallSigma0 (x : Nat) : Nat := rotr 7 x ^^^ rotr 18 x ^^^ (x >>> 3)

def smallSigma1 (x : Nat) : Nat := rotr 17 x ^^^ rotr 19 x ^^^ (x >>> 10)

def shaK : List Nat :=
  [1116352408, 1899447441, 3049323471, 3921009573, 961987163, 1508970993,
   2453635748, 2870763221, 3624381080, 310598401, 607225278, 1426881987,
   1925078388, 2162078206, 2614888103, 3248222580, 3835390401, 4022224774,
   264347078, 604807628, 770255983, 1249150122, 1555081692, 1996064986,
   2554220882, 2821834349, 2952996808, 3210313671, 3336571891, 3584528711,
   113926993, 338241895, 666307205, 773529912, 1294757372, 1396182291,
   1695183700, 1986661051, 2177026350, 2456956037, 2730485921, 2820302411,
   3259730800, 3345764771, 3516065817, 3600352804, 4094571909, 275423344,
   430227734, 506948616, 659060556, 883997877, 958139571, 1322822218,
   1537002063, 1747873779, 1955562222, 2024104815, 2227730452, 2361852424,
   2428436474, 2756734187, 3204031479, 3329325298]

def shaH0 : List Nat :=
  [1779033703, 3144134277, 1013904242, 2773480762,
   1359893119, 2600822924, 528734635, 1541459225]

/-- Big-endian byte rendering of `n` on `k` bytes. -/
def natToBytesBE : Nat → Nat → List Nat
  | 0, _ => []
  | k + 1, n => natToBytesBE k (n / 256) ++ [n % 256]

/-- SHA-256 message padding: append `0x80`, zeros, then the 64-bit bit length. -/
def shaPad (msg : List Nat) : List Nat :=
  let padLen := (64 + 55 - msg.length % 64) % 64
  msg ++ 0x80 :: List.replicate padLen 0 ++ natToBytesBE 8 (msg.length * 8)

def chunksAux (k : Nat) : List α → List α → List (List α)
  | [], acc => if acc.isEmpty then [] else [acc.reverse]
  | a :: t, acc =>
    let acc' := a :: acc
    if acc'.length = k then acc'.reverse :: chunksAux k t [] else chunksAux k t acc'

/-- Split a list into consecutive chunks of `k` elements (last may be short). -/
def chunksOf (k : Nat) (l : List α) : List (List α) := chunksAux k l []

/-- Groups of 4 bytes into big-endian 32-bit words. -/
def bytesToWords (l : List Nat) : List Nat :=
  (chunksOf 4 l).map (fun c => c.foldl (fun acc b => acc * 256 + b) 0)

/-- Extend the 16 message words to 64 schedule words. -/
def extendW : Nat → List Nat → List Nat
  | 0, w => w
  | n + 1, w =>
    let l := w.length
    let nw := (smallSigma1 (w.getD (l - 2) 0) + w.getD (l - 7) 0 +
               smallSigma0 (w.getD (l - 15) 0) + w.getD (l - 16) 0) % m32
    extendW n (w ++ [nw])

def compressStep (st : List Nat) (kw : Nat × Nat) : List Nat :=
  let a := st.getD 0 0
  let b := st.getD 1 0
  let c := st.getD 2 0
  let d := st.getD 3 0
  let e := st.getD 4 0
  let f := st.getD 5 0
  let g := st.getD 6 0
  let h := st.getD 7 0
  let t1 := (h + bigSigma1 e + shaCh e f g + kw.1 + kw.2) % m32
  let t2 := (bigSigma0 a + shaMaj a b c) % m32
  [(t1 + t2) % m32, a, b, c, (d + t1) % m32, e, f, g]

def shaBlock (h : List Nat) (block : List Nat) : List Nat :=
  let w := extendW 48 (bytesToWords block)
  let st := (shaK.zip w).foldl compressStep h
  (h.zip st).map (fun p => (p.1 + p.2) % m32)

def sha256Words (msg : List Nat) : List Nat :=
  (chunksOf 64 (shaPad msg)).foldl shaBlock shaH0

def hexDigit (n : Nat) : Char :=
  if n < 10 then Char.ofNat (48 + n) else Char.ofNat (87 + n)

def word32Hex (n : Nat) : List Char :=
  (List.range 8).map (fun i => hexDigit ((n >>> ((7 - i) * 4)) &&& 15))

/-- `hashlib.sha256(s.encode()).hexdigest()`. -/
def sha256hex (s : String) : String :=
  ⟨((sha256Words (utf8Encode s)).map word32Hex).flatten⟩

-- FIPS 180-4 test vectors.
example : sha256hex "" =
    "e3b0c44298fc1c149afbf4c8996fb92427ae41e4649b934ca495991b7852b855" := by decide
example : sha256hex "abc" =
    "ba7816bf8f01cfea414140de5dae2223b00361a396177a9cb410ff61f20015ad" := by decide

/-! ## urllib.parse embedding

The fragment of Python's `urllib.parse` used by `normalize_url`:
`urlparse`, `parse_qs`, `urlencode(..., doseq=True)`, `urlunparse`.
The splitting logic follows CPython's `urlsplit`: scheme at the first `':'`
(if the candidate scheme is well-formed), netloc after a leading `"//"` up to
the first of `'/'`, `'?'`, `'#'`, then fragment at the first `'#'` and query
at the first `'?'`; `urlparse` additionally splits `';'`-params off the last
path segment.  Percent decoding is implemented for single-byte (ASCII)
escapes; the collectors only ever hash and rebuild URLs, and every theorem
below applies these functions to percent-free inputs. -/

/-- Split a character list at the first occurrence of `c` (Python `split(c, 1)`). -/
def breakAtFirst (c : Char) : List Char → Option (List Char × List Char)
  | [] => none
  | a :: t =>
    if a = c then some ([], t)
    else (breakAtFirst c t).map (fun p => (a :: p.1, p.2))

def splitOnCharAux (c : Char) : List Char → List Char → List (List Char)
  | [], acc => [acc.reverse]
  | a :: t, acc =>
    if a = c then acc.reverse :: splitOnCharAux c t []
    else splitOnCharAux c t (a :: acc)

/-- Python `str.split(c)` (keeps empty fields). -/
def splitOnChar (c : Char) (l : List Char) : List (List Char) :=
  splitOnCharAux c l []

/-- Characters legal in a URL scheme after the first (CPython `scheme_chars`). -/
def schemeChar (c : Char) : Bool :=
  c.isAlpha || c.isDigit || c = '+' || c = '-' || c = '.'

/-- CPython `urlsplit` scheme detection: the text before the first `':'`,
lowercased, provided it is nonempty, starts with a letter and contains only
scheme characters. -/
def splitScheme (u : List Char) : List Char × List Char :=
  match breakAtFirst ':' u with
  | none => ([], u)
  | some (before, after) =>
    match before with
    | [] => ([], u)
    | c :: _ =>
      if c.isAlpha && before.all schemeChar then (before.map Char.toLower, after)
      else ([], u)

def netlocDelim (c : Char) : Bool := c = '/' || c = '?' || c = '#'

/-- CPython `_splitnetloc`: after a leading `"//"`, the netloc runs to the
first of `'/'`, `'?'`, `'#'`. -/
def splitNetloc (u : List Char) : List Char × List Char :=
  if startsWithL ['/', '/'] u then
    let rest := u.drop 2
    (rest.takeWhile (fun c => !netlocDelim c), rest.dropWhile (fun c => !netlocDelim c))
  else ([], u)

/-- CPython `_splitparams`: `';'`-params of the last path segment (only
invoked when a `';'` is present). -/
def splitParams (u : List Char) : List Char × List Char :=
  if u.contains ';' then
    if u.contains '/' then
      let seg := (u.reverse.takeWhile (· ≠ '/')).reverse
      let pre := u.take (u.length - seg.length)
      match breakAtFirst ';' seg with
      | none => (u, [])
      | some (a, b) => (pre ++ a, b)
    else
      match breakAtFirst ';' u with
      | none => (u, [])
      | some (a, b) => (a, b)
  else (u, [])

structure ParseResult where
  scheme : List Char
  netloc : List Char
  path : List Char
  params : List Char
  query : List Char
  fragment : List Char
  deriving Repr, DecidableEq

/-- `urllib.parse.urlparse` (allow_fragments=True). -/
def urlparseChars (u : List Char) : ParseResult :=
  let (scheme, u1) := splitScheme u
  let (netloc, u2) := splitNetloc u1
  let (u3, fragment) := match breakAtFirst '#' u2 with
    | none => (u2, [])
    | some (a, b) => (a, b)
  let (rest, query) := match breakAtFirst '?' u3 with
    | none => (u3, [])
    | some (a, b) => (a, b)
  let (path, params) := splitParams rest
  ⟨scheme, netloc, path, params, query, fragment⟩

def isHexDig (c : Char) : Bool :=
  c.isDigit || ('a' ≤ c && c ≤ 'f') || ('A' ≤ c && c ≤ 'F')

def hexVal (c : Char) : Nat :=
  if c.isDigit then c.toNat - 48
  else if 'a' ≤ c && c ≤ 'f' then c.toNat - 87
  else c.toNat - 55

/-- ASCII fragment of `urllib.parse.unquote`: decode `%XX` single-byte escapes
(non-ASCII byte values decode to U+FFFD). -/
def pctDecode : List Char → List Char
  | [] => []
  | '%' :: a :: b :: t =>
    if isHexDig a && isHexDig b then
      let byte := 16 * hexVal a + hexVal b
      (if byte < 128 then Char.ofNat byte else '�') :: pctDecode t
    else '%' :: pctDecode (a :: b :: t)
  | c :: t => c :: pctDecode t

/-- `unquote(s.replace('+', ' '))` as applied by `parse_qsl`. -/
def unquotePlus (l : List Char) : List Char :=
  pctDecode (l.map (fun c => if c = '+' then ' ' else c))

/-- `urllib.parse.parse_qsl` with default arguments (separator `'&'`,
`keep_blank_values=False`): empty fields, fields without `'='` and fields
with an empty value are dropped. -/
def parseQsl (qs : List Char) : List (List Char × List Char) :=
  (splitOnChar '&' qs).filterMap fun pair =>
    if pair.isEmpty then none
    else match breakAtFirst '=' pair with
      | none => none
      | some (n, v) =>
        if v.isEmpty then none else some (unquotePlus n, unquotePlus v)

def addToGroups (g : List (List Char × List (List Char))) (kv : List Char × List Char) :
    List (List Char × List (List Char)) :=
  if g.any (fun e => e.1 = kv.1) then
    g.map (fun e => if e.1 = kv.1 then (e.1, e.2 ++ [kv.2]) else e)
  else g ++ [(kv.1, [kv.2])]

/-- `urllib.parse.parse_qs`: group `parse_qsl` pairs into an insertion-ordered
dict of value lists. -/
def parseQs (qs : List Char) : List (List Char × List (List Char)) :=
  (parseQsl qs).foldl addToGroups []

def quoteSafe (c : Char) : Bool :=
  c.isAlpha || c.isDigit || c = '_' || c = '.' || c = '-' || c = '~'

def hexDigitU (n : Nat) : Char :=
  if n < 10 then Char.ofNat (48 + n) else Char.ofNat (55 + n)

/-- `urllib.parse.quote_plus`: space to `'+'`, unsafe characters to
percent-encoded UTF-8 bytes. -/
def quotePlus (l : List Char) : List Char :=
  (l.map (fun c =>
    if c = ' ' then ['+']
    else if quoteSafe c then [c]
    else (utf8Bytes1 c.toNat).map
      (fun b => ['%', hexDigitU (b / 16), hexDigitU (b % 16)]) |>.flatten)).flatten

/-- `urllib.parse.urlencode(d, doseq=True)` on a parsed-query dict. -/
def urlencodeSeq (g : List (List Char × List (List Char))) : List Char :=
  List.intercalate ['&']
    (g.map (fun e => e.2.map (fun v => quotePlus e.1 ++ '=' :: quotePlus v)) |>.flatten)

/-- `urllib.parse.urlunparse` (via `urlunsplit`). -/
def urlunparseChars (scheme netloc path params query fragment : List Char) : List Char :=
  let url := if params.isEmpty then path else path ++ ';' :: params
  let url :=
    if !netloc.isEmpty || startsWithL ['/', '/'] url then
      let url' := if !url.isEmpty && !startsWithL ['/'] url then '/' :: url else url
      '/' :: '/' :: (netloc ++ url')
    else url
  let url := if scheme.isEmpty then url else scheme ++ ':' :: url
  let url := if query.isEmpty then url else url ++ '?' :: query
  if fragment.isEmpty then url else url ++ '#' :: fragment

/-! ## normalize_url (src/rss_collector.py lines 30-66)

The api_collector copy is character-identical in effect; the scrape_collector
copy differs only in using `netloc.lower().replace('www.', '')` (replace all
occurrences) instead of dropping the first four characters, and is embedded
separately below. -/

def tracking_params : List (List Char) :=
  ["utm_source".data, "utm_medium".data, "utm_campaign".data, "utm_term".data,
   "utm_content".data, "fbclid".data, "gclid".data, "ref".data, "source".data]

def filterTracking (g : List (List Char × List (List Char))) :
    List (List Char × List (List Char)) :=
  g.filter (fun kv => !tracking_params.contains kv.1)

/-- Drop the first `"www."` if the netloc starts with it (rss/api variant). -/
def stripWww (domain : List Char) : List Char :=
  if startsWithL "www.".data domain then domain.drop 4 else domain

def normalizeChars (url : List Char) : List Char :=
  if url.isEmpty then []
  else
    let parsed := urlparseChars url
    let domain := stripWww (parsed.netloc.map Char.toLower)
    let filtered := filterTracking (parseQs parsed.query)
    let newQuery := urlencodeSeq filtered
    let path := rstripSlashes parsed.path
    urlunparseChars parsed.scheme domain path parsed.params newQuery []

/-- `normalize_url` from src/rss_collector.py (same as src/api_collector.py). -/
def normalize_url (url : String) : String := ⟨normalizeChars url.data⟩

def removeAllWwwAux : Nat → List Char → List Char
  | 0, l => l
  | _ + 1, [] => []
  | fuel + 1, c :: t =>
    if startsWithL "www.".data (c :: t) then removeAllWwwAux fuel ((c :: t).drop 4)
    else c :: removeAllWwwAux fuel t

/-- Python `str.replace("www.", "")` (remove every occurrence); the fuel is an
upper bound on the number of characters consumed, so it never runs out. -/
def removeAllWww (l : List Char) : List Char := removeAllWwwAux l.length l

/-- `normalize_url` from src/scrape_collector.py: identical except that the
`www.`-strip is `netloc.lower().replace('www.', '')` (all occurrences),
guarded by a `startswith` check. -/
def normalizeScrapeChars (url : List Char) : List Char :=
  if url.isEmpty then []
  else
    let parsed := urlparseChars url
    let lowered := parsed.netloc.map Char.toLower
    let domain := if startsWithL "www.".data lowered then removeAllWww lowered else lowered
    let filtered := filterTracking (parseQs parsed.query)
    let newQuery := urlencodeSeq filtered
    let path := rstripSlashes parsed.path
    urlunparseChars parsed.scheme domain path parsed.params newQuery []

def normalize_url_scrape (url : String) : String := ⟨normalizeScrapeChars url.data⟩

-- Sanity checks matching CPython behaviour.
example : normalize_url "https://WWW.Example.com/a/?utm_source=x&b=2#frag" =
    "https://example.com/a?b=2" := by decide
example : normalize_url "https://example.com/a//" = "https://example.com/a" := by decide
example : normalize_url "" = "" := by decide
example : normalize_url "https://example.com" = "https://example.com" := by decide
example : normalize_url_scrape "http://www.foo.com/x" = "http://foo.com/x" := by decide

/-! ## Rendered URL families (claims C4 and C5)

`mkUrl` renders a URL from scheme, host, path and query components, and the
`...Ok` predicates scope the algebraic normalize_url claims to URLs whose
components are built from ordinary unreserved characters (as in article
links); `quoteSafe` is exactly the set of characters that `quote_plus`
and `unquote` leave untouched. -/

def hostChar (c : Char) : Bool := c.isAlpha || c.isDigit || c = '.' || c = '-'

def pathCharOk (c : Char) : Bool := !(c = '?' || c = '#' || c = ';')

def renderQuery : List (List Char × List Char) → List Char
  | [] => []
  | [kv] => kv.1 ++ '=' :: kv.2
  | kv :: kv2 :: rest => kv.1 ++ '=' :: kv.2 ++ '&' :: renderQuery (kv2 :: rest)

/-- Assemble `scheme://host{path}?query` as a character list. -/
def mkUrl (scheme host path : List Char) (q : List (List Char × List Char)) :
    List Char :=
  scheme ++ [':', '/', '/'] ++ host ++ path ++
    (if q.isEmpty then [] else '?' :: renderQuery q)

/-- String-level wrapper around `mkUrl`. -/
def mkUrlStr (scheme host path : String) (q : List (String × String)) : String :=
  ⟨mkUrl scheme.data host.data path.data
    (q.map (fun kv => (kv.1.data, kv.2.data)))⟩

abbrev SchemeOk (s : List Char) : Prop :=
  s ≠ [] ∧ ∀ c ∈ s, c.isLower = true

abbrev HostOk (h : List Char) : Prop :=
  h ≠ [] ∧ ∀ c ∈ h, hostChar c = true

abbrev PathOk (p : List Char) : Prop :=
  (p = [] ∨ p.head? = some '/') ∧ ∀ c ∈ p, pathCharOk c = true

abbrev QueryOk (q : List (List Char × List Char)) : Prop :=
  (∀ kv ∈ q, kv.1 ≠ [] ∧ kv.2 ≠ [] ∧ (∀ c ∈ kv.1, quoteSafe c = true) ∧
    ∀ c ∈ kv.2, quoteSafe c = true) ∧ (q.map Prod.fst).Nodup

/-! ## Fingerprints (src/rss_collector.py lines 69-78) -/

/-- `get_url_hash` from rss/api collectors: SHA-256 of the normalized URL. -/
def get_url_hash (url : String) : String := sha256hex (normalize_url url)

/-- `get_url_hash` from src/scrape_collector.py (its own `normalize_url`). -/
def get_url_hash_scrape (url : String) : String := sha256hex (normalize_url_scrape url)

/-- `get_url_hash` from src/scholar_collector.py: SHA-256 of the RAW url,
with no normalization step. -/
def get_url_hash_scholar (url : String) : String := sha256hex url

/-- `get_content_hash`: SHA-256 of `title.lower().strip() + "|" + published_at[:10]`
(empty date segment when `published_at` is falsy). -/
def get_content_hash (title published_at : String) : String :=
  sha256hex (pyStrip (lowerS title) ++ "|" ++
    (if published_at = "" then "" else pyTake 10 published_at))

/-! ## Data model

The article dict common to the collectors.  Source-specific extra keys
(`feed_url`, `api_source`, `cited_by`, `publication_info`) are not referenced
by any claim and are elided.  The scholar collector's dict carries no
`content_hash` key, hence the `Option`.  The Python field name `section`
is a Lean keyword and is embedded as `sectionTag`. -/

structure Article where
  id : String
  title : String
  published_at : String
  source_name : String
  source_type : String
  url : String
  full_text : String
  author : String
  sectionTag : String
  language : String
  retrieved_at : String
  url_hash : String
  content_hash : Option String
  deriving Repr, DecidableEq

/-- The dedup ledger: Python `set` of hash strings, modelled as a list with
membership semantics (`contains` / cons-insert). -/
abbrev Ledger := List String

/-- `seen_hashes.add(article['url_hash']); seen_hashes.add(article['content_hash'])`
(the scholar collector adds only the url hash — its article has no content hash). -/
def addHashes (seen : Ledger) (a : Article) : Ledger :=
  match a.content_hash with
  | some ch => ch :: a.url_hash :: seen
  | none => a.url_hash :: seen

def addHashesList (seen : Ledger) (arts : List Article) : Ledger :=
  arts.foldl addHashes seen

/-- `article['content_hash'] in seen_hashes` (always a `some` where checked). -/
def contentDup (seen : Ledger) (a : Article) : Bool :=
  match a.content_hash with
  | some ch => seen.contains ch
  | none => false

/-- Time/dateutil oracle: `now` is `datetime.utcnow().isoformat() + 'Z'` and
`parseDate s` is the strftime-rendered result of `dateutil.parser.parse s`,
`none` when the parse raises.  One value serves a whole run: the collectors
run within a single process lifetime. -/
structure TimeEnv where
  now : String
  parseDate : String → Option String

/-- `parse_date` from src/rss_collector.py: falsy input or parse failure
falls back to the current time. -/
def parse_date (tenv : TimeEnv) (dateStr : Option String) : String :=
  match dateStr with
  | none => tenv.now
  | some s => if s = "" then tenv.now else (tenv.parseDate s).getD tenv.now

/-- Python `x or y` over optional strings (empty string is falsy). -/
def pyOr (a b : Option String) : Option String :=
  match a with
  | some s => if s = "" then b else some s
  | none => b

/-! ## strip_html (src/rss_collector.py lines 93-103) -/

def stripTagsAux : Nat → List Char → List Char
  | 0, l => l
  | _ + 1, [] => []
  | fuel + 1, c :: t =>
    if c = '<' then
      let inner := t.takeWhile (· ≠ '>')
      match t.drop inner.length with
      | '>' :: r =>
        if inner.isEmpty then c :: stripTagsAux fuel t else stripTagsAux fuel r
      | _ => c :: stripTagsAux fuel t
    else c :: stripTagsAux fuel t

/-- `re.sub(r'<[^>]+>', '', text)`: remove every `<...>` run with at least one
non-`'>'` character inside. -/
def stripTags (l : List Char) : List Char := stripTagsAux l.length l

/-- `re.sub(r'\s+', ' ', text)`: collapse whitespace runs to single spaces. -/
def collapseWsAux (prevWs : Bool) : List Char → List Char
  | [] => []
  | c :: t =>
    if c.isWhitespace then
      if prevWs then collapseWsAux true t else ' ' :: collapseWsAux true t
    else c :: collapseWsAux false t

/-- `strip_html` from src/rss_collector.py. -/
def strip_html (s : String) : String :=
  if s = "" then ""
  else pyStrip ⟨collapseWsAux false (stripTags s.data)⟩

/-! ## RSS collector (src/rss_collector.py lines 137-261)

`fetch_feed` results are environment data: `fetched = none` models a feed
that failed all retries (skipped, logged); retry timing is not modelled.
Each collector returns its yielded articles, the final ledger, and the list
of attempted source fetches (feed URLs / API queries / page URLs). -/

structure RssEntry where
  link : Option String
  idField : Option String
  guidHref : Option String
  title : String
  published : Option String
  updated : Option String
  created : Option String
  description : Option String
  summary : Option String
  author : Option String
  authorDetailName : Option String
  tags : List String
  deriving Repr, DecidableEq

structure RssFeed where
  name : String
  url : String
  fetched : Option (List RssEntry)
  deriving Repr, DecidableEq

structure CollectOut where
  articles : List Article
  seen : Ledger
  fetched : List String
  deriving Repr, DecidableEq

/-- `extract_entry` from src/rss_collector.py. -/
def extract_entry (tenv : TimeEnv) (entry : RssEntry) (feed_name feed_url : String) :
    Option Article :=
  match pyOr (pyOr entry.link entry.idField) entry.guidHref with
  | none => none
  | some link =>
    if link = "" then none
    else if entry.title = "" then none
    else
      let published := pyOr (pyOr entry.published entry.updated) entry.created
      let published_at := parse_date tenv published
      let description := (pyOr entry.description entry.summary).getD ""
      let snippet := pyTake 1000 (strip_html description)
      let author := (pyOr entry.author entry.authorDetailName).getD ""
      let url_hash := get_url_hash link
      let content_hash := get_content_hash entry.title published_at
      some
        { id := pyTake 32 url_hash
          title := pyStrip entry.title
          published_at := published_at
          source_name := feed_name
          source_type := "RSS"
          url := normalize_url link
          full_text := snippet
          author := author
          sectionTag := entry.tags.headD ""
          language := "en"
          retrieved_at := tenv.now
          url_hash := url_hash
          content_hash := some content_hash }

def rssEntryLoop (tenv : TimeEnv) (name url : String) (max_articles : Int) :
    List RssEntry → Int → Ledger → List Article × Int × Ledger
  | [], collected, seen => ([], collected, seen)
  | e :: rest, collected, seen =>
    if max_articles ≤ collected then ([], collected, seen)
    else
      match extract_entry tenv e name url with
      | none => rssEntryLoop tenv name url max_articles rest collected seen
      | some a =>
        if seen.contains a.url_hash then
          rssEntryLoop tenv name url max_articles rest collected seen
        else if contentDup seen a then
          rssEntryLoop tenv name url max_articles rest collected seen
        else
          let seen' := addHashes seen a
          let (arts, c', s') :=
            rssEntryLoop tenv name url max_articles rest (collected + 1) seen'
          (a :: arts, c', s')

def rssFeedLoop (tenv : TimeEnv) (max_articles : Int) :
    List RssFeed → Int → Ledger → CollectOut
  | [], _, seen => ⟨[], seen, []⟩
  | f :: rest, collected, seen =>
    if max_articles ≤ collected then ⟨[], seen, []⟩
    else
      match f.fetched with
      | none =>
        let r := rssFeedLoop tenv max_articles rest collected seen
        ⟨r.articles, r.seen, f.url :: r.fetched⟩
      | some entries =>
        let (arts, c', seen') :=
          rssEntryLoop tenv f.name f.url max_articles entries collected seen
        let r := rssFeedLoop tenv max_articles rest c' seen'
        ⟨arts ++ r.articles, r.seen, f.url :: r.fetched⟩

/-- `collect_from_rss` from src/rss_collector.py. -/
def collect_from_rss (tenv : TimeEnv) (feeds : List RssFeed) (max_articles : Int)
    (seen : Ledger) : CollectOut :=
  rssFeedLoop tenv max_articles feeds 0 seen

/-! ## API collector (src/api_collector.py)

The three per-API functions share one loop shape; the embedding uses a
common query/item loop parameterized by the article builder, matching each
of `collect_from_gnews`, `collect_from_newsapi`, `collect_from_guardian`.
`ApiItem` carries the source dict fields already projected per API
(`url`/`webUrl`, `title`/`headline`, `publishedAt`/`webPublicationDate`,
resolved source name, content/bodyText, author/byline, sectionName).
A plan entry `(query, none)` models a request error or non-ok status
(logged, `continue`). -/

structure ApiItem where
  url : String
  title : String
  publishedAt : Option String
  source_name : String
  full_text : String
  author : String
  sectionTag : String
  deriving Repr, DecidableEq

def apiItemLoop (tenv : TimeEnv) (build : ApiItem → String → String → String → Article)
    (max_articles : Int) :
    List ApiItem → Int → Ledger → List Article × Int × Ledger
  | [], collected, seen => ([], collected, seen)
  | it :: rest, collected, seen =>
    if max_articles ≤ collected then ([], collected, seen)
    else if it.url = "" then apiItemLoop tenv build max_articles rest collected seen
    else
      let url_hash := get_url_hash it.url
      if seen.contains url_hash then apiItemLoop tenv build max_articles rest collected seen
      else
        let published_at := it.publishedAt.getD tenv.now
        let content_hash := get_content_hash it.title published_at
        if seen.contains content_hash then
          apiItemLoop tenv build max_articles rest collected seen
        else
          let seen' := content_hash :: url_hash :: seen
          let a := build it url_hash content_hash published_at
          let (arts, c', s') :=
            apiItemLoop tenv build max_articles rest (collected + 1) seen'
          (a :: arts, c', s')

def apiQueryLoop (tenv : TimeEnv) (build : ApiItem → String → String → String → Article)
    (max_articles : Int) :
    List (String × Option (List ApiItem)) → Int → Ledger → CollectOut
  | [], _, seen => ⟨[], seen, []⟩
  | (q, resp) :: rest, collected, seen =>
    if max_articles ≤ collected then ⟨[], seen, []⟩
    else
      match resp with
      | none =>
        let r := apiQueryLoop tenv build max_articles rest collected seen
        ⟨r.articles, r.seen, q :: r.fetched⟩
      | some items =>
        let (arts, c', seen') := apiItemLoop tenv build max_articles items collected seen
        let r := apiQueryLoop tenv build max_articles rest c' seen'
        ⟨arts ++ r.articles, r.seen, q :: r.fetched⟩

def gnewsBuild (tenv : TimeEnv) (it : ApiItem) (url_hash content_hash published_at : String) :
    Article :=
  { id := pyTake 32 url_hash, title := it.title, published_at := published_at
    source_name := it.source_name, source_type := "API", url := normalize_url it.url
    full_text := it.full_text, author := "", sectionTag := "", language := "en"
    retrieved_at := tenv.now, url_hash := url_hash, content_hash := some content_hash }

def newsapiBuild (tenv : TimeEnv) (it : ApiItem) (url_hash content_hash published_at : String) :
    Article :=
  { id := pyTake 32 url_hash, title := it.title, published_at := published_at
    source_name := it.source_name, source_type := "API", url := normalize_url it.url
    full_text := it.full_text, author := it.author, sectionTag := "", language := "en"
    retrieved_at := tenv.now, url_hash := url_hash, content_hash := some content_hash }

def guardianBuild (tenv : TimeEnv) (it : ApiItem) (url_hash content_hash published_at : String) :
    Article :=
  { id := pyTake 32 url_hash, title := it.title, published_at := published_at
    source_name := "The Guardian", source_type := "API", url := normalize_url it.url
    full_text := pyTake 5000 it.full_text, author := it.author
    sectionTag := it.sectionTag, language := "en"
    retrieved_at := tenv.now, url_hash := url_hash, content_hash := some content_hash }

structure ApiEnv where
  gnewsKey : Bool
  gnewsPlan : List (String × Option (List ApiItem))
  newsapiKey : Bool
  newsapiPlan : List (String × Option (List ApiItem))
  guardianKey : Bool
  guardianPlan : List (String × Option (List ApiItem))

/-- `collect_from_gnews`: missing credential yields nothing and fetches
nothing. -/
def collect_from_gnews (tenv : TimeEnv) (env : ApiEnv) (max_articles : Int)
    (seen : Ledger) : CollectOut :=
  if !env.gnewsKey then ⟨[], seen, []⟩
  else apiQueryLoop tenv (gnewsBuild tenv) max_articles env.gnewsPlan 0 seen

def collect_from_newsapi (tenv : TimeEnv) (env : ApiEnv) (max_articles : Int)
    (seen : Ledger) : CollectOut :=
  if !env.newsapiKey then ⟨[], seen, []⟩
  else apiQueryLoop tenv (newsapiBuild tenv) max_articles env.newsapiPlan 0 seen

def collect_from_guardian (tenv : TimeEnv) (env : ApiEnv) (max_articles : Int)
    (seen : Ledger) : CollectOut :=
  if !env.guardianKey then ⟨[], seen, []⟩
  else apiQueryLoop tenv (guardianBuild tenv) max_articles env.guardianPlan 0 seen

/-- `collect_from_apis` from src/api_collector.py lines 381-431: GNews up to
`min(100, max_articles)`, then NewsAPI up to `min(50, remaining // 2)`, then
Guardian up to `min(50, remaining)`, returning early once the total is
reached.  `//` is Python floor division (`Int.fdiv`). -/
def collect_from_apis (tenv : TimeEnv) (env : ApiEnv) (max_articles : Int)
    (seen : Ledger) : CollectOut :=
  let gnews_quota := min 100 max_articles
  let r1 := collect_from_gnews tenv env gnews_quota seen
  let collected : Int := r1.articles.length
  if max_articles ≤ collected then r1
  else
    let newsapi_quota := min 50 (Int.fdiv (max_articles - collected) 2)
    let r2 := collect_from_newsapi tenv env newsapi_quota r1.seen
    let collected2 : Int := collected + r2.articles.length
    if max_articles ≤ collected2 then
      ⟨r1.articles ++ r2.articles, r2.seen, r1.fetched ++ r2.fetched⟩
    else
      let guardian_quota := min 50 (max_articles - collected2)
      let r3 := collect_from_guardian tenv env guardian_quota r2.seen
      ⟨r1.articles ++ r2.articles ++ r3.articles, r3.seen,
       r1.fetched ++ r2.fetched ++ r3.fetched⟩

/-! ## Scrape collector (src/scrape_collector.py)

`get_page` results are environment data: a url absent from `pages` models a
fetch error (`None, None`).  The BeautifulSoup queries of `extract_generic`
are abstracted into the resolved `ExtractInput` fields (h1/og:title text,
time/published_time text, author text, paragraph texts of the article-like
container after script/style/nav/footer/aside removal); the length checks,
joining, capping and the decision structure follow the source.  The
heuristic `discover_article_links` output is the page's `links` field; the
collector applies the `[:40]` cap from the call site.
`is_paywall_or_blocked` is embedded on the page's HTTP status and its
class/id attribute values (a marker matches when an indicator occurs in an
attribute value case-insensitively, as with `re.compile(indicator, re.I)`). -/

structure ExtractInput where
  titleText : Option String
  dateText : Option String
  authorText : String
  paragraphs : List String
  deriving Repr, DecidableEq

structure ScrapePage where
  statusCode : Nat
  classNames : List String
  idNames : List String
  content : ExtractInput
  links : List String
  deriving Repr, DecidableEq

def paywall_indicators : List String :=
  ["paywall", "subscription-required", "subscriber-only", "premium-content", "members-only"]

def isInfixL (needle : List Char) : List Char → Bool
  | [] => needle.isEmpty
  | c :: t => needle.isPrefixOf (c :: t) || isInfixL needle t

/-- Case-insensitive substring test (`re.compile(needle, re.I)` searched in
an attribute value). -/
def substrCI (needle hay : String) : Bool :=
  isInfixL (needle.data.map Char.toLower) (hay.data.map Char.toLower)

/-- `is_paywall_or_blocked` from src/scrape_collector.py lines 58-66. -/
def is_paywall_or_blocked (pg : ScrapePage) : Bool :=
  if pg.statusCode = 402 || pg.statusCode = 403 then true
  else
    paywall_indicators.any (fun ind =>
      pg.classNames.any (fun c => substrCI ind c) ||
      pg.idNames.any (fun i => substrCI ind i))

structure ExtractResult where
  title : String
  published_at : Option String
  author : String
  full_text : String
  deriving Repr, DecidableEq

/-- `extract_generic` from src/scrape_collector.py lines 83-119. -/
def extract_generic (inp : ExtractInput) : Option ExtractResult :=
  match inp.titleText with
  | none => none
  | some title =>
    if title = "" || title.length < 10 then none
    else
      let full_text := " ".intercalate inp.paragraphs
      if full_text.length < 200 then none
      else some ⟨title, inp.dateText, inp.authorText, pyTake 10000 full_text⟩

/-- Python `str.title()` (ASCII approximation: letters start a word after a
non-letter). -/
def pyTitleAux (prevAlpha : Bool) : List Char → List Char
  | [] => []
  | c :: t =>
    if c.isAlpha then
      (if prevAlpha then c.toLower else c.toUpper) :: pyTitleAux true t
    else c :: pyTitleAux false t

/-- `urlparse(url).netloc.replace('www.', '').split('.')[0].title()`. -/
def scrapeDomainName (url : String) : String :=
  ⟨pyTitleAux false ((removeAllWww (urlparseChars url.data).netloc).takeWhile (· ≠ '.'))⟩

def lookupPage (pages : List (String × ScrapePage)) (url : String) : Option ScrapePage :=
  (pages.find? (fun p => p.1 = url)).map (·.2)

/-- `scrape_article` from src/scrape_collector.py lines 139-175.  Returns the
optional article, the updated ledger and the attempted fetches (the url-hash
short-circuit happens before the page fetch). -/
def scrape_article (tenv : TimeEnv) (pages : List (String × ScrapePage)) (url : String)
    (seen : Ledger) : Option Article × Ledger × List String :=
  let url_hash := get_url_hash_scrape url
  if seen.contains url_hash then (none, seen, [])
  else
    match lookupPage pages url with
    | none => (none, seen, [url])
    | some pg =>
      if is_paywall_or_blocked pg then (none, seen, [url])
      else
        match extract_generic pg.content with
        | none => (none, seen, [url])
        | some r =>
          let published_at := parse_date tenv r.published_at
          let content_hash := get_content_hash r.title published_at
          if seen.contains content_hash then (none, seen, [url])
          else
            let seen' := content_hash :: url_hash :: seen
            let a : Article :=
              { id := pyTake 32 url_hash, title := r.title, published_at := published_at
                source_name := scrapeDomainName url, source_type := "SCRAPE"
                url := normalize_url_scrape url, full_text := r.full_text
                author := r.author, sectionTag := "", language := "en"
                retrieved_at := tenv.now, url_hash := url_hash
                content_hash := some content_hash }
            (some a, seen', [url])

structure ScrapeSeed where
  url : String
  name : String
  maxDepth : Int
  deriving Repr, DecidableEq

def scrapeLinkLoop (tenv : TimeEnv) (pages : List (String × ScrapePage))
    (max_articles : Int) :
    List String → Int → Ledger → List Article × Int × Ledger × List String
  | [], collected, seen => ([], collected, seen, [])
  | u :: rest, collected, seen =>
    if max_articles ≤ collected then ([], collected, seen, [])
    else
      match scrape_article tenv pages u seen with
      | (none, seen', log) =>
        let (arts, c', s', log') := scrapeLinkLoop tenv pages max_articles rest collected seen'
        (arts, c', s', log ++ log')
      | (some a, seen', log) =>
        let (arts, c', s', log') :=
          scrapeLinkLoop tenv pages max_articles rest (collected + 1) seen'
        (a :: arts, c', s', log ++ log')

def scrapeSeedLoop (tenv : TimeEnv) (pages : List (String × ScrapePage))
    (max_articles : Int) :
    List ScrapeSeed → Int → Ledger → CollectOut
  | [], _, seen => ⟨[], seen, []⟩
  | s :: rest, collected, seen =>
    if max_articles ≤ collected then ⟨[], seen, []⟩
    else
      match lookupPage pages s.url with
      | none =>
        let r := scrapeSeedLoop tenv pages max_articles rest collected seen
        ⟨r.articles, r.seen, s.url :: r.fetched⟩
      | some pg =>
        if s.maxDepth = 0 then
          match scrape_article tenv pages s.url seen with
          | (some a, seen', log) =>
            let r := scrapeSeedLoop tenv pages max_articles rest (collected + 1) seen'
            ⟨a :: r.articles, r.seen, s.url :: (log ++ r.fetched)⟩
          | (none, seen', log) =>
            let r := scrapeSeedLoop tenv pages max_articles rest collected seen'
            ⟨r.articles, r.seen, s.url :: (log ++ r.fetched)⟩
        else
          let article_urls := pg.links.take 40
          let (arts, c', seen', log) :=
            scrapeLinkLoop tenv pages max_articles article_urls collected seen
          let r := scrapeSeedLoop tenv pages max_articles rest c' seen'
          ⟨arts ++ r.articles, r.seen, s.url :: (log ++ r.fetched)⟩

/-- `collect_from_scraping` from src/scrape_collector.py lines 178-217. -/
def collect_from_scraping (tenv : TimeEnv) (pages : List (String × ScrapePage))
    (seeds : List ScrapeSeed) (max_articles : Int) (seen : Ledger) : CollectOut :=
  scrapeSeedLoop tenv pages max_articles seeds 0 seen

/-! ## Scholar collector (src/scholar_collector.py)

SerpAPI results are environment data: a plan of `(query, results)` pairs
(`search_google_scholar` returns `[]` on error, so no error alternative is
needed).  Extra dict keys `cited_by`/`publication_info` are elided. -/

structure ScholarItem where
  title : String
  link : String
  resources : List String
  summary : String
  authors : List String
  snippet : String
  deriving Repr, DecidableEq

def isWordChar (c : Char) : Bool := c.isAlpha || c.isDigit || c = '_'

def yearMatchAt (prev : Option Char) : List Char → Option (List Char)
  | a :: b :: c :: d :: rest =>
    if ((a = '1' && b = '9') || (a = '2' && b = '0')) && c.isDigit && d.isDigit
        && (prev.all (fun p => !isWordChar p))
        && (match rest with | [] => true | e :: _ => !isWordChar e) then
      some [a, b, c, d]
    else none
  | _ => none

def yearScan (prev : Option Char) : List Char → Option (List Char)
  | [] => none
  | x :: t =>
    match yearMatchAt prev (x :: t) with
    | some y => some y
    | none => yearScan (some x) t

/-- `re.search(r'\b(19|20)\d{2}\b', summary)`: first embedded four-digit year
starting 19 or 20 with word boundaries. -/
def yearFromSummary (s : String) : String :=
  match yearScan none s.data with
  | some y => ⟨y⟩
  | none => ""

/-- `parse_paper` from src/scholar_collector.py lines 88-135.  Note: its
`get_url_hash` hashes the raw link (no normalization) and the yielded `url`
is the raw link. -/
def parse_paper (tenv : TimeEnv) (result : ScholarItem) (query : String) : Article :=
  let link0 := if result.link = "" then
      (match result.resources with
       | r :: _ => r
       | [] => "")
    else result.link
  let link := if link0 = "" then "https://scholar.google.com/scholar?q=" ++ result.title
    else link0
  let url_hash := get_url_hash_scholar link
  let year := yearFromSummary result.summary
  { id := pyTake 32 url_hash
    title := result.title
    published_at := if year = "" then "" else year ++ "-01-01T00:00:00Z"
    source_name := "Google Scholar"
    source_type := "SCHOLAR"
    url := link
    full_text := result.snippet
    author := ", ".intercalate result.authors
    sectionTag := query
    language := "en"
    retrieved_at := tenv.now
    url_hash := url_hash
    content_hash := none }

def scholarItemLoop (tenv : TimeEnv) (query : String) (max_papers : Int) :
    List ScholarItem → Int → Ledger → List Article × Int × Ledger
  | [], collected, seen => ([], collected, seen)
  | it :: rest, collected, seen =>
    if max_papers ≤ collected then ([], collected, seen)
    else
      let paper := parse_paper tenv it query
      if seen.contains paper.url_hash then
        scholarItemLoop tenv query max_papers rest collected seen
      else
        let seen' := paper.url_hash :: seen
        let (arts, c', s') :=
          scholarItemLoop tenv query max_papers rest (collected + 1) seen'
        (paper :: arts, c', s')

def scholarQueryLoop (tenv : TimeEnv) (max_papers : Int) :
    List (String × List ScholarItem) → Int → Ledger → CollectOut
  | [], _, seen => ⟨[], seen, []⟩
  | (q, results) :: rest, collected, seen =>
    if max_papers ≤ collected then ⟨[], seen, []⟩
    else
      let (arts, c', seen') := scholarItemLoop tenv q max_papers results collected seen
      let r := scholarQueryLoop tenv max_papers rest c' seen'
      ⟨arts ++ r.articles, r.seen, q :: r.fetched⟩

/-- `collect_from_scholar` from src/scholar_collector.py lines 138-186. -/
def collect_from_scholar (tenv : TimeEnv) (plan : List (String × List ScholarItem))
    (max_papers : Int) (seen : Ledger) : CollectOut :=
  scholarQueryLoop tenv max_papers plan 0 seen

/-! ## Orchestrator (src/build_raw_dataset.py lines 125-230)

The orchestrator consumes each phase's generator lazily: it appends the
yielded article and breaks once `len(all_articles) >= target_total`.  A
Python generator mutates `seen_hashes` only at its yield points, so the
ledger state at the moment iteration stops is the initial ledger plus the
hashes of exactly the consumed articles (`addHashesList`); nothing past the
break point runs.  `consume` mirrors the append-then-check loop. -/

def consume (target_total : Int) : Int → List Article → List Article
  | _, [] => []
  | lenSoFar, a :: rest =>
    if target_total ≤ lenSoFar + 1 then [a]
    else a :: consume target_total (lenSoFar + 1) rest

def countType (ty : String) (l : List Article) : Nat :=
  (l.filter (fun a => a.source_type = ty)).length

structure Quotas where
  rss : Int
  api : Int
  scrape : Int
  deriving Repr, DecidableEq

structure BuildResult where
  all_articles : List Article
  rssArg : Int
  apiArg : Option Int
  scrapeArg : Option Int
  rss_count : Nat
  api_count : Nat
  scrape_count : Nat
  len_after_rss : Nat
  len_after_api : Nat
  seen : Ledger
  deriving Repr, DecidableEq

/-- One non-RSS phase of `build_raw_dataset` (the code repeats this shape
for the API and Scrape phases): skip entirely when the target is already
met, otherwise invoke the phase collector with `min(quota, remaining)` and
consume its stream until the target is reached.  Returns the grown article
list, the ledger and the `max_articles` argument used (`none` if skipped). -/
def runPhase (target_total : Int) (all : List Article) (seen : Ledger)
    (collect : Int → Ledger → CollectOut) (quota : Int) :
    List Article × Ledger × Option Int :=
  if target_total ≤ (all.length : Int) then (all, seen, none)
  else
    let arg := min quota (target_total - (all.length : Int))
    let r := collect arg seen
    let p := consume target_total (all.length : Int) r.articles
    (all ++ p, addHashesList seen p, some arg)

/-- `build_raw_dataset` from src/build_raw_dataset.py.  The RSS phase is
invoked with `max_articles=rss_quota` (no clamping by the target); the API
and Scrape phases are entered only while the total is short of the target
and receive `min(quota, remaining)`.  The recorded `rssArg`/`apiArg`/
`scrapeArg` are the `max_articles` values each phase's collector was invoked
with (`none` when the phase was skipped); `len_after_rss`/`len_after_api`
are `len(all_articles)` at the corresponding phase boundaries. -/
def build_raw_dataset (tenv : TimeEnv) (quotas : Quotas) (feeds : List RssFeed)
    (apiEnv : ApiEnv) (pages : List (String × ScrapePage)) (seeds : List ScrapeSeed)
    (target_total : Int) : BuildResult :=
  let r1 := collect_from_rss tenv feeds quotas.rss []
  let p1 := consume target_total 0 r1.articles
  let seen1 := addHashesList [] p1
  let s2 := runPhase target_total p1 seen1
    (fun q s => collect_from_apis tenv apiEnv q s) quotas.api
  let s3 := runPhase target_total s2.1 s2.2.1
    (fun q s => collect_from_scraping tenv pages seeds q s) quotas.scrape
  { all_articles := s3.1
    rssArg := quotas.rss
    apiArg := s2.2.2
    scrapeArg := s3.2.2
    rss_count := countType "RSS" p1
    api_count := countType "API" s2.1
    scrape_count := countType "SCRAPE" s3.1
    len_after_rss := p1.length
    len_after_api := s2.1.length
    seen := s3.2.1 }

/-! ## Derived predicates and demonstration data

Definitions used by the claim proofs below: the dedup-chain predicates for
C1, per-collector url-fingerprint predicates for C6, item-count helpers for
C9, and small concrete environments that the counterexamples and witnesses
evaluate. -/

def demoTimeEnv : TimeEnv := ⟨"2025-01-01T00:00:00Z", fun _ => none⟩

def demoApiEnv : ApiEnv :=
  { gnewsKey := true, gnewsPlan := [("q1", some [])]
    newsapiKey := true, newsapiPlan := []
    guardianKey := true, guardianPlan := [] }

def paywalledPage : ScrapePage :=
  { statusCode := 403, classNames := [], idNames := []
    content := ⟨some "A long enough headline", none, "", []⟩, links := [] }

/-- A one-entry RSS feed environment used by counterexamples. -/
def demoEntry : RssEntry :=
  { link := some "https://e.com/a", idField := none, guidHref := none
    title := "Hello world", published := none, updated := none, created := none
    description := none, summary := none, author := none, authorDetailName := none
    tags := [] }

def demoFeeds : List RssFeed := [⟨"feed1", "https://e.com/rss", some [demoEntry]⟩]

def emptyApiEnv : ApiEnv := ⟨false, [], false, [], false, []⟩

def hashesOf (a : Article) : List String := a.url_hash :: a.content_hash.toList

def Accepts (s : Ledger) (a : Article) : Prop := ∀ x ∈ hashesOf a, x ∉ s

def chain : Ledger → List Article → Prop
  | _, [] => True
  | s, a :: rest => Accepts s a ∧ chain (addHashes s a) rest

/-- The final ledger holds exactly the initial ledger plus the fingerprints
of the yielded articles. -/
def SeenExt (s : Ledger) (out : List Article) (s' : Ledger) : Prop :=
  ∀ x, x ∈ s' ↔ x ∈ s ∨ ∃ a ∈ out, x ∈ hashesOf a

/-- The API article builders set `url_hash` and `content_hash` from the
hashes the loop just checked. -/
def BuildOk (build : ApiItem → String → String → String → Article) : Prop :=
  ∀ it uh ch pa, (build it uh ch pa).url_hash = uh ∧ (build it uh ch pa).content_hash = some ch

/-- One collection run over the single shared ledger: the three orchestrated
phases (RSS, APIs, Scrape) followed by the separately-invoked Scholar
collector, each receiving the ledger the previous collector left behind. -/
def full_run (tenv : TimeEnv) (feeds : List RssFeed) (apiEnv : ApiEnv)
    (pages : List (String × ScrapePage)) (seeds : List ScrapeSeed)
    (plan : List (String × List ScholarItem)) (q1 q2 q3 q4 : Int) (seen : Ledger) :
    CollectOut :=
  let r1 := collect_from_rss tenv feeds q1 seen
  let r2 := collect_from_apis tenv apiEnv q2 r1.seen
  let r3 := collect_from_scraping tenv pages seeds q3 r2.seen
  let r4 := collect_from_scholar tenv plan q4 r3.seen
  ⟨r1.articles ++ (r2.articles ++ (r3.articles ++ r4.articles)), r4.seen,
   r1.fetched ++ (r2.fetched ++ (r3.fetched ++ r4.fetched))⟩

def UrlFingerprintOk (a : Article) : Prop :=
  ∃ u : String, a.url = normalize_url u ∧ a.url_hash = sha256hex (normalize_url u)

def UrlFingerprintOkScrape (a : Article) : Prop :=
  ∃ u : String, a.url = normalize_url_scrape u ∧ a.url_hash = sha256hex (normalize_url_scrape u)

/-- The API article builders yield the normalized url and the url hash the
loop computed. -/
def BuildUrlOk (build : ApiItem → String → String → String → Article) : Prop :=
  ∀ it uh ch pa, (build it uh ch pa).url = normalize_url it.url ∧
    (build it uh ch pa).url_hash = uh

def defaultArticle : Article :=
  { id := "", title := "", published_at := "", source_name := "", source_type := ""
    url := "", full_text := "", author := "", sectionTag := "", language := ""
    retrieved_at := "", url_hash := "", content_hash := none }

def scholarDemoItem : ScholarItem :=
  { title := "A Paper", link := "https://WWW.Example.com/Paper/", resources := []
    summary := "X Y - 2021 - pub", authors := ["A B"], snippet := "snip" }

def emptyTitleItem : ApiItem :=
  { url := "https://e.com/x", title := "", publishedAt := some "2024-05-05T00:00:00Z"
    source_name := "S", full_text := "t", author := "", sectionTag := "" }

def apiEnvEmptyTitle : ApiEnv := ⟨true, [("q", some [emptyTitleItem])], false, [], false, []⟩

/-- Total number of entries the RSS collector can see (failed feeds count
zero). -/
def totalEntries : List RssFeed → Nat
  | [] => 0
  | f :: rest => (f.fetched.getD []).length + totalEntries rest

def totalPapers : List (String × List ScholarItem) → Nat
  | [] => 0
  | (_, results) :: rest => results.length + totalPapers rest

def totalApiItems : List (String × Option (List ApiItem)) → Nat
  | [] => 0
  | (_, resp) :: rest => (resp.getD []).length + totalApiItems rest

def seedWork (pages : List (String × ScrapePage)) (sd : ScrapeSeed) : Nat :=
  match lookupPage pages sd.url with
  | none => 0
  | some pg => if sd.maxDepth = 0 then 1 else (pg.links.take 40).length

def totalScrapeWork (pages : List (String × ScrapePage)) : List ScrapeSeed → Nat
  | [] => 0
  | sd :: rest => seedWork pages sd + totalScrapeWork pages rest

def demoEntryB : RssEntry :=
  { link := some "https://e.com/b", idField := none, guidHref := none
    title := "Other headline", published := none, updated := none, created := none
    description := none, summary := none, author := none, authorDetailName := none
    tags := [] }

def demoFeeds2 : List RssFeed :=
  [⟨"feed1", "https://e.com/rss", some [demoEntry, demoEntryB]⟩]

/-! ## Claim C10: nonpositive quota -/

theorem rss_nonpos_quota (tenv : TimeEnv) (feeds : List RssFeed) (q : Int) (seen : Ledger)
    (h : q ≤ 0) : collect_from_rss tenv feeds q seen = ⟨[], seen, []⟩ := by
  cases feeds with
  | nil => rfl
  | cons f rest => simp [collect_from_rss, rssFeedLoop, h]

theorem gnews_nonpos_quota (tenv : TimeEnv) (env : ApiEnv) (q : Int) (seen : Ledger)
    (h : q ≤ 0) : collect_from_gnews tenv env q seen = ⟨[], seen, []⟩ := by
  unfold collect_from_gnews
  cases hk : env.gnewsKey with
  | false => simp
  | true =>
    cases env.gnewsPlan with
    | nil => simp [apiQueryLoop]
    | cons p rest =>
      obtain ⟨a, b⟩ := p
      simp [apiQueryLoop, h]

theorem newsapi_nonpos_quota (tenv : TimeEnv) (env : ApiEnv) (q : Int) (seen : Ledger)
    (h : q ≤ 0) : collect_from_newsapi tenv env q seen = ⟨[], seen, []⟩ := by
  unfold collect_from_newsapi
  cases hk : env.newsapiKey with
  | false => simp
  | true =>
    cases env.newsapiPlan with
    | nil => simp [apiQueryLoop]
    | cons p rest =>
      obtain ⟨a, b⟩ := p
      simp [apiQueryLoop, h]

theorem apis_nonpos_quota (tenv : TimeEnv) (env : ApiEnv) (q : Int) (seen : Ledger)
    (h : q ≤ 0) : collect_from_apis tenv env q seen = ⟨[], seen, []⟩ := by
  have h1 : min (100 : Int) q ≤ 0 := le_trans (min_le_right _ _) h
  simp [collect_from_apis, gnews_nonpos_quota tenv env _ seen h1, h]

theorem scraping_nonpos_quota (tenv : TimeEnv) (pages : List (String × ScrapePage))
    (seeds : List ScrapeSeed) (q : Int) (seen : Ledger) (h : q ≤ 0) :
    collect_from_scraping tenv pages seeds q seen = ⟨[], seen, []⟩ := by
  cases seeds with
  | nil => rfl
  | cons s rest => simp [collect_from_scraping, scrapeSeedLoop, h]

theorem scholar_nonpos_quota (tenv : TimeEnv) (plan : List (String × List ScholarItem))
    (q : Int) (seen : Ledger) (h : q ≤ 0) :
    collect_from_scholar tenv plan q seen = ⟨[], seen, []⟩ := by
  cases plan with
  | nil => rfl
  | cons p rest =>
    obtain ⟨a, b⟩ := p
    simp [collect_from_scholar, scholarQueryLoop, h]

/-- C10: every collector invoked with a quota of zero or less yields no
articles, attempts no source fetch, and returns the ledger unchanged. -/
theorem collectors_nonpos_quota_noop (tenv : TimeEnv) (feeds : List RssFeed)
    (apiEnv : ApiEnv) (pages : List (String × ScrapePage)) (seeds : List ScrapeSeed)
    (plan : List (String × List ScholarItem)) (q : Int) (seen : Ledger) (h : q ≤ 0) :
    collect_from_rss tenv feeds q seen = ⟨[], seen, []⟩ ∧
    collect_from_apis tenv apiEnv q seen = ⟨[], seen, []⟩ ∧
    collect_from_scraping tenv pages seeds q seen = ⟨[], seen, []⟩ ∧
    collect_from_scholar tenv plan q seen = ⟨[], seen, []⟩ :=
  ⟨rss_nonpos_quota tenv feeds q seen h, apis_nonpos_quota tenv apiEnv q seen h,
   scraping_nonpos_quota tenv pages seeds q seen h, scholar_nonpos_quota tenv plan q seen h⟩

/-- Witness for C10 at quota `0` with a nonempty feed list and ledger. -/
theorem collectors_nonpos_quota_noop_witness :
    (0 : Int) ≤ 0 ∧
    (collect_from_rss demoTimeEnv [⟨"f", "https://f.com/rss", some []⟩] 0 ["h0"] =
        ⟨[], ["h0"], []⟩ ∧
      collect_from_apis demoTimeEnv demoApiEnv 0 ["h0"] = ⟨[], ["h0"], []⟩ ∧
      collect_from_scraping demoTimeEnv [] [⟨"https://s.com", "s", 1⟩] 0 ["h0"] =
        ⟨[], ["h0"], []⟩ ∧
      collect_from_scholar demoTimeEnv [("sq", [])] 0 ["h0"] = ⟨[], ["h0"], []⟩) :=
  ⟨le_refl 0,
   collectors_nonpos_quota_noop demoTimeEnv [⟨"f", "https://f.com/rss", some []⟩]
     demoApiEnv [] [⟨"https://s.com", "s", 1⟩] [("sq", [])] 0 ["h0"] (le_refl 0)⟩

/-! ## Claim C8: paywall / block drop -/

/-- C8: when the fetched page is paywalled or blocked (HTTP 402/403 or a
paywall marker class/id), `scrape_article` drops the candidate and leaves
the ledger exactly as it was, so the same URL remains collectable later in
the run. -/
theorem scrape_article_paywall_drop (tenv : TimeEnv) (pages : List (String × ScrapePage))
    (url : String) (seen : Ledger) (pg : ScrapePage)
    (hpg : lookupPage pages url = some pg)
    (hpay : is_paywall_or_blocked pg = true) :
    (scrape_article tenv pages url seen).1 = none ∧
    (scrape_article tenv pages url seen).2.1 = seen := by
  unfold scrape_article
  by_cases hc : get_url_hash_scrape url ∈ seen
  · simp [hc]
  · simp [hc, hpg, hpay]

/-- Witness for C8: an HTTP 403 page is dropped with the ledger untouched. -/
theorem scrape_article_paywall_drop_witness :
    lookupPage [("https://x.com/a", paywalledPage)] "https://x.com/a" = some paywalledPage ∧
    is_paywall_or_blocked paywalledPage = true ∧
    ((scrape_article demoTimeEnv [("https://x.com/a", paywalledPage)] "https://x.com/a"
        ["h0"]).1 = none ∧
     (scrape_article demoTimeEnv [("https://x.com/a", paywalledPage)] "https://x.com/a"
        ["h0"]).2.1 = ["h0"]) :=
  ⟨by decide, by decide,
   scrape_article_paywall_drop demoTimeEnv [("https://x.com/a", paywalledPage)]
     "https://x.com/a" ["h0"] paywalledPage (by decide) (by decide)⟩

/-! ## Claims C2 and C3: orchestrator quota arithmetic -/

theorem consume_length_le (T : Int) :
    ∀ (stream : List Article) (len0 : Int), len0 < T →
      len0 + ((consume T len0 stream).length : Int) ≤ T := by
  intro stream
  induction stream with
  | nil => intro len0 h; simpa [consume] using le_of_lt h
  | cons a rest ih =>
    intro len0 h
    by_cases hb : T ≤ len0 + 1
    · simp [consume, hb]; omega
    · push_neg at hb
      have := ih (len0 + 1) hb
      simp [consume, not_le.mpr hb]
      omega

theorem countType_append (ty : String) (l1 l2 : List Article) :
    countType ty (l1 ++ l2) = countType ty l1 + countType ty l2 := by
  simp [countType, List.filter_append]

theorem countType_three_le (l : List Article) :
    countType "RSS" l + countType "API" l + countType "SCRAPE" l ≤ l.length := by
  induction l with
  | nil => simp [countType]
  | cons a t ih =>
    by_cases h1 : a.source_type = "RSS" <;>
      by_cases h2 : a.source_type = "API" <;>
      by_cases h3 : a.source_type = "SCRAPE" <;>
      simp_all [countType, List.filter_cons] <;> omega

theorem runPhase_grows (T : Int) (all : List Article) (seen : Ledger)
    (collect : Int → Ledger → CollectOut) (quota : Int) :
    ∃ p, (runPhase T all seen collect quota).1 = all ++ p := by
  unfold runPhase
  split
  · exact ⟨[], by simp⟩
  · exact ⟨_, rfl⟩

theorem runPhase_length_le (T : Int) (all : List Article) (seen : Ledger)
    (collect : Int → Ledger → CollectOut) (quota : Int)
    (h : (all.length : Int) ≤ T) :
    ((runPhase T all seen collect quota).1.length : Int) ≤ T := by
  unfold runPhase
  split
  · exact h
  · rename_i c
    push_neg at c
    have := consume_length_le T
      (collect (min quota (T - (all.length : Int))) seen).articles (all.length : Int) c
    simp only [List.length_append]
    push_cast
    omega

theorem runPhase_arg (T : Int) (all : List Article) (seen : Ledger)
    (collect : Int → Ledger → CollectOut) (quota : Int) :
    (runPhase T all seen collect quota).2.2 =
      if T ≤ (all.length : Int) then none
      else some (min quota (T - (all.length : Int))) := by
  unfold runPhase
  split <;> simp_all

/-- C2 (amended): for every target `T ≥ 1` the orchestrator collects at most
`T` articles in total, and the per-phase counts sum to at most `T`.  (At
`T = 0` the append-then-check loop lets one article through, see the
counterexample.) -/
theorem build_raw_dataset_quota_conservation (tenv : TimeEnv) (quotas : Quotas)
    (feeds : List RssFeed) (apiEnv : ApiEnv) (pages : List (String × ScrapePage))
    (seeds : List ScrapeSeed) (T : Int) (hT : 1 ≤ T) :
    ((build_raw_dataset tenv quotas feeds apiEnv pages seeds T).all_articles.length : Int) ≤ T ∧
    (((build_raw_dataset tenv quotas feeds apiEnv pages seeds T).rss_count +
      (build_raw_dataset tenv quotas feeds apiEnv pages seeds T).api_count +
      (build_raw_dataset tenv quotas feeds apiEnv pages seeds T).scrape_count : Nat) : Int) ≤ T := by
  unfold build_raw_dataset
  dsimp only
  set p1 := consume T 0 (collect_from_rss tenv feeds quotas.rss []).articles with hp1
  have h1 : ((p1.length : Nat) : Int) ≤ T := by
    have := consume_length_le T (collect_from_rss tenv feeds quotas.rss []).articles 0
      (by omega)
    rw [← hp1] at this
    omega
  set s2 := runPhase T p1 (addHashesList [] p1)
    (fun q s => collect_from_apis tenv apiEnv q s) quotas.api with hs2
  set s3 := runPhase T s2.1 s2.2.1
    (fun q s => collect_from_scraping tenv pages seeds q s) quotas.scrape with hs3
  have h2 : ((s2.1.length : Nat) : Int) ≤ T := by
    rw [hs2]; exact runPhase_length_le T p1 _ _ _ h1
  have h3 : ((s3.1.length : Nat) : Int) ≤ T := by
    rw [hs3]; exact runPhase_length_le T s2.1 _ _ _ h2
  obtain ⟨p2, e2⟩ : ∃ p, s2.1 = p1 ++ p := by
    rw [hs2]; exact runPhase_grows T p1 _ _ _
  obtain ⟨p3, e3⟩ : ∃ p, s3.1 = s2.1 ++ p := by
    rw [hs3]; exact runPhase_grows T s2.1 _ _ _
  refine ⟨h3, ?_⟩
  have m1 : countType "RSS" p1 ≤ countType "RSS" s3.1 := by
    rw [e3, e2, countType_append, countType_append]; omega
  have m2 : countType "API" s2.1 ≤ countType "API" s3.1 := by
    rw [e3, countType_append]; omega
  have hct := countType_three_le s3.1
  omega

/-- Witness for C2 (amended) at `T = 1` on empty environments. -/
theorem build_raw_dataset_quota_conservation_witness :
    (1 : Int) ≤ 1 ∧
    (((build_raw_dataset demoTimeEnv ⟨300, 250, 150⟩ [] demoApiEnv [] [] 1).all_articles.length : Int) ≤ 1 ∧
     (((build_raw_dataset demoTimeEnv ⟨300, 250, 150⟩ [] demoApiEnv [] [] 1).rss_count +
       (build_raw_dataset demoTimeEnv ⟨300, 250, 150⟩ [] demoApiEnv [] [] 1).api_count +
       (build_raw_dataset demoTimeEnv ⟨300, 250, 150⟩ [] demoApiEnv [] [] 1).scrape_count : Nat) : Int) ≤ 1) :=
  ⟨le_refl 1,
   build_raw_dataset_quota_conservation demoTimeEnv ⟨300, 250, 150⟩ [] demoApiEnv [] [] 1
     (le_refl 1)⟩

/-- C2 counterexample: at target `T = 0` (which the claim covers via
`T ≥ 0`) the orchestrator still collects one article, because the loop
appends before checking `len(all_articles) >= target_total`. -/
theorem build_raw_dataset_target_zero_counterexample :
    ¬ (((build_raw_dataset demoTimeEnv ⟨300, 250, 150⟩ demoFeeds emptyApiEnv [] [] 0).all_articles.length : Int) ≤ 0) := by
  decide

/-- C3 (amended): the API and Scrape phases are invoked with local quota
ceiling `min(configured_quota, remaining)` where `remaining` is the target
minus the number collected so far (and are skipped entirely when
`remaining ≤ 0`), but the RSS phase is invoked with its configured quota
unclamped by the target. -/
theorem build_raw_dataset_phase_quotas (tenv : TimeEnv) (quotas : Quotas)
    (feeds : List RssFeed) (apiEnv : ApiEnv) (pages : List (String × ScrapePage))
    (seeds : List ScrapeSeed) (T : Int) :
    (build_raw_dataset tenv quotas feeds apiEnv pages seeds T).rssArg = quotas.rss ∧
    (build_raw_dataset tenv quotas feeds apiEnv pages seeds T).apiArg =
      (if T ≤ ((build_raw_dataset tenv quotas feeds apiEnv pages seeds T).len_after_rss : Int)
       then none
       else some (min quotas.api
         (T - (build_raw_dataset tenv quotas feeds apiEnv pages seeds T).len_after_rss))) ∧
    (build_raw_dataset tenv quotas feeds apiEnv pages seeds T).scrapeArg =
      (if T ≤ ((build_raw_dataset tenv quotas feeds apiEnv pages seeds T).len_after_api : Int)
       then none
       else some (min quotas.scrape
         (T - (build_raw_dataset tenv quotas feeds apiEnv pages seeds T).len_after_api))) := by
  unfold build_raw_dataset
  dsimp only
  exact ⟨rfl, runPhase_arg T _ _ _ _, runPhase_arg T _ _ _ _⟩

/-- C3 counterexample: with configured RSS quota 300 and target 10, the RSS
phase is invoked with `max_articles = 300`, not
`min(rss_quota, target_total) = 10`. -/
theorem build_raw_dataset_rss_arg_counterexample :
    (build_raw_dataset demoTimeEnv ⟨300, 250, 150⟩ [] emptyApiEnv [] [] 10).rssArg ≠
      min 300 10 := by
  decide

/-! ## Claim C1: the dedup ledger invariant

`chain s out` says: each article of `out` was accepted against the ledger
current at its yield point (none of its fingerprints present), the ledger
then receiving its fingerprints.  Every collector loop establishes it, and
`SeenExt` characterizes the final ledger so runs compose. -/

theorem mem_addHashes (s : Ledger) (a : Article) (x : String) :
    x ∈ addHashes s a ↔ x ∈ hashesOf a ∨ x ∈ s := by
  unfold addHashes hashesOf
  cases a.content_hash <;> simp <;> tauto

theorem seenExt_refl (s : Ledger) : SeenExt s [] s := by
  intro x; simp

theorem seenExt_cons {s s' : Ledger} {a : Article} {out : List Article}
    (h : SeenExt (addHashes s a) out s') : SeenExt s (a :: out) s' := by
  intro x
  rw [h x, mem_addHashes]
  constructor
  · rintro ((h1 | h1) | ⟨b, hb, hx⟩)
    · exact Or.inr ⟨a, by simp, h1⟩
    · exact Or.inl h1
    · exact Or.inr ⟨b, by simp [hb], hx⟩
  · rintro (h1 | ⟨b, hb, hx⟩)
    · exact Or.inl (Or.inr h1)
    · rcases List.mem_cons.mp hb with rfl | hb
      · exact Or.inl (Or.inl hx)
      · exact Or.inr ⟨b, hb, hx⟩

theorem chain_congr {s s' : Ledger} (hss : ∀ x, x ∈ s ↔ x ∈ s') :
    ∀ {l : List Article}, chain s l → chain s' l := by
  intro l
  induction l generalizing s s' with
  | nil => intro _; trivial
  | cons a rest ih =>
    rintro ⟨hacc, hch⟩
    refine ⟨fun x hx hmem => hacc x hx ((hss x).mpr hmem), ?_⟩
    exact ih (fun x => by rw [mem_addHashes, mem_addHashes, hss x]) hch

theorem chain_seq {s s1 : Ledger} {out1 out2 : List Article}
    (h1 : chain s out1) (he : SeenExt s out1 s1) (h2 : chain s1 out2) :
    chain s (out1 ++ out2) := by
  induction out1 generalizing s with
  | nil =>
    have : ∀ x, x ∈ s1 ↔ x ∈ s := by
      intro x; rw [he x]; simp
    exact chain_congr this h2
  | cons a t ih =>
    obtain ⟨hacc, hch⟩ := h1
    refine ⟨hacc, ?_⟩
    have he' : SeenExt (addHashes s a) t s1 := by
      intro x
      rw [he x, mem_addHashes]
      constructor
      · rintro (h1 | ⟨b, hb, hx⟩)
        · exact Or.inl (Or.inr h1)
        · rcases List.mem_cons.mp hb with rfl | hb
          · exact Or.inl (Or.inl hx)
          · exact Or.inr ⟨b, hb, hx⟩
      · rintro ((h1 | h1) | ⟨b, hb, hx⟩)
        · exact Or.inr ⟨a, by simp, h1⟩
        · exact Or.inl h1
        · exact Or.inr ⟨b, by simp [hb], hx⟩
    exact ih hch he'

theorem seenExt_seq {s s1 s2 : Ledger} {out1 out2 : List Article}
    (h1 : SeenExt s out1 s1) (h2 : SeenExt s1 out2 s2) :
    SeenExt s (out1 ++ out2) s2 := by
  intro x
  rw [h2 x, h1 x]
  constructor
  · rintro ((hx | ⟨b, hb, hxb⟩) | ⟨b, hb, hxb⟩)
    · exact Or.inl hx
    · exact Or.inr ⟨b, by simp [hb], hxb⟩
    · exact Or.inr ⟨b, by simp [hb], hxb⟩
  · rintro (hx | ⟨b, hb, hxb⟩)
    · exact Or.inl (Or.inl hx)
    · rcases List.mem_append.mp hb with hb | hb
      · exact Or.inl (Or.inr ⟨b, hb, hxb⟩)
      · exact Or.inr ⟨b, hb, hxb⟩

theorem chain_not_mem_start {s : Ledger} :
    ∀ {l : List Article}, chain s l → ∀ b ∈ l, ∀ x ∈ hashesOf b, x ∉ s := by
  intro l
  induction l generalizing s with
  | nil => intro _ b hb; simp at hb
  | cons a t ih =>
    rintro ⟨hacc, hch⟩ b hb x hx
    rcases List.mem_cons.mp hb with rfl | hb
    · exact hacc x hx
    · intro hmem
      exact ih hch b hb x hx ((mem_addHashes s a x).mpr (Or.inr hmem))

/-- Distinct later from earlier: in a chained yield sequence, no fingerprint
of a later article equals any fingerprint of an earlier one. -/
theorem chain_pairwise {s : Ledger} :
    ∀ {l : List Article}, chain s l →
      l.Pairwise (fun a b => ∀ x ∈ hashesOf a, ∀ y ∈ hashesOf b, x ≠ y) := by
  intro l
  induction l generalizing s with
  | nil => intro _; exact List.Pairwise.nil
  | cons a t ih =>
    rintro ⟨hacc, hch⟩
    refine List.Pairwise.cons ?_ (ih hch)
    intro b hb x hx y hy hxy
    subst hxy
    exact chain_not_mem_start hch b hb x hy ((mem_addHashes s a x).mpr (Or.inl hx))

theorem contentDup_false {s : Ledger} {a : Article} (h : contentDup s a = false) :
    ∀ ch ∈ a.content_hash, ch ∉ s := by
  intro ch hch
  unfold contentDup at h
  cases hc : a.content_hash with
  | none => simp [hc] at hch
  | some c =>
    rw [hc] at h hch
    simp at h hch
    subst hch
    exact h

theorem not_mem_of_contains_false {s : Ledger} {x : String} (h : s.contains x = false) :
    x ∉ s := by
  simpa using h

theorem rssEntryLoop_ok (tenv : TimeEnv) (name url : String) (max_articles : Int) :
    ∀ (entries : List RssEntry) (c : Int) (s : Ledger),
      chain s (rssEntryLoop tenv name url max_articles entries c s).1 ∧
      SeenExt s (rssEntryLoop tenv name url max_articles entries c s).1
        (rssEntryLoop tenv name url max_articles entries c s).2.2 := by
  intro entries
  induction entries with
  | nil => intro c s; exact ⟨trivial, seenExt_refl s⟩
  | cons e rest ih =>
    intro c s
    unfold rssEntryLoop
    by_cases hq : max_articles ≤ c
    · simp only [if_pos hq]; exact ⟨trivial, seenExt_refl s⟩
    · simp only [if_neg hq]
      cases hx : extract_entry tenv e name url with
      | none => exact ih c s
      | some a =>
        dsimp only
        cases hc1 : List.contains s a.url_hash with
        | true => rw [if_pos rfl]; exact ih c s
        | false =>
          rw [if_neg (by simp)]
          cases h2 : contentDup s a with
          | true => rw [if_pos rfl]; exact ih c s
          | false =>
            rw [if_neg (by simp)]
            obtain ⟨hch, hse⟩ := ih (c + 1) (addHashes s a)
            have hacc : Accepts s a := by
              intro x hxh
              rcases List.mem_cons.mp hxh with rfl | hxc
              · exact not_mem_of_contains_false hc1
              · exact contentDup_false h2 x (by simpa [hashesOf] using hxc)
            exact ⟨⟨hacc, hch⟩, seenExt_cons hse⟩

theorem rssFeedLoop_ok (tenv : TimeEnv) (max_articles : Int) :
    ∀ (feeds : List RssFeed) (c : Int) (s : Ledger),
      chain s (rssFeedLoop tenv max_articles feeds c s).articles ∧
      SeenExt s (rssFeedLoop tenv max_articles feeds c s).articles
        (rssFeedLoop tenv max_articles feeds c s).seen := by
  intro feeds
  induction feeds with
  | nil => intro c s; exact ⟨trivial, seenExt_refl s⟩
  | cons f rest ih =>
    intro c s
    unfold rssFeedLoop
    by_cases hq : max_articles ≤ c
    · simp only [if_pos hq]; exact ⟨trivial, seenExt_refl s⟩
    · simp only [if_neg hq]
      cases hf : f.fetched with
      | none => exact ih c s
      | some entries =>
        obtain ⟨hch1, hse1⟩ := rssEntryLoop_ok tenv f.name f.url max_articles entries c s
        obtain ⟨hch2, hse2⟩ :=
          ih (rssEntryLoop tenv f.name f.url max_articles entries c s).2.1
            (rssEntryLoop tenv f.name f.url max_articles entries c s).2.2
        exact ⟨chain_seq hch1 hse1 hch2, seenExt_seq hse1 hse2⟩

theorem collect_from_rss_ok (tenv : TimeEnv) (feeds : List RssFeed) (max_articles : Int)
    (s : Ledger) :
    chain s (collect_from_rss tenv feeds max_articles s).articles ∧
    SeenExt s (collect_from_rss tenv feeds max_articles s).articles
      (collect_from_rss tenv feeds max_articles s).seen :=
  rssFeedLoop_ok tenv max_articles feeds 0 s

theorem apiItemLoop_ok (tenv : TimeEnv) {build : ApiItem → String → String → String → Article}
    (hb : BuildOk build) (max_articles : Int) :
    ∀ (items : List ApiItem) (c : Int) (s : Ledger),
      chain s (apiItemLoop tenv build max_articles items c s).1 ∧
      SeenExt s (apiItemLoop tenv build max_articles items c s).1
        (apiItemLoop tenv build max_articles items c s).2.2 := by
  intro items
  induction items with
  | nil => intro c s; exact ⟨trivial, seenExt_refl s⟩
  | cons it rest ih =>
    intro c s
    unfold apiItemLoop
    by_cases hq : max_articles ≤ c
    · simp only [if_pos hq]; exact ⟨trivial, seenExt_refl s⟩
    · simp only [if_neg hq]
      by_cases hu : it.url = ""
      · simp only [if_pos hu]; exact ih c s
      · simp only [if_neg hu]
        cases hc1 : List.contains s (get_url_hash it.url) with
        | true => rw [if_pos rfl]; exact ih c s
        | false =>
          rw [if_neg (by simp)]
          cases hc2 : List.contains s
              (get_content_hash it.title (it.publishedAt.getD tenv.now)) with
          | true => rw [if_pos rfl]; exact ih c s
          | false =>
            rw [if_neg (by simp)]
            dsimp only
            obtain ⟨hb1, hb2⟩ := hb it (get_url_hash it.url)
              (get_content_hash it.title (it.publishedAt.getD tenv.now))
              (it.publishedAt.getD tenv.now)
            have hadd : addHashes s (build it (get_url_hash it.url)
                (get_content_hash it.title (it.publishedAt.getD tenv.now))
                (it.publishedAt.getD tenv.now)) =
                get_content_hash it.title (it.publishedAt.getD tenv.now) ::
                  get_url_hash it.url :: s := by
              simp [addHashes, hb2, hb1]
            rw [← hadd]
            obtain ⟨hch, hse⟩ := ih (c + 1) (addHashes s _)
            have hacc : Accepts s (build it (get_url_hash it.url)
                (get_content_hash it.title (it.publishedAt.getD tenv.now))
                (it.publishedAt.getD tenv.now)) := by
              intro x hxh
              unfold hashesOf at hxh
              rw [hb1, hb2] at hxh
              rcases List.mem_cons.mp hxh with rfl | hxc
              · exact not_mem_of_contains_false hc1
              · simp at hxc
                subst hxc
                exact not_mem_of_contains_false hc2
            exact ⟨⟨hacc, hch⟩, seenExt_cons hse⟩

theorem apiQueryLoop_ok (tenv : TimeEnv) {build : ApiItem → String → String → String → Article}
    (hb : BuildOk build) (max_articles : Int) :
    ∀ (plan : List (String × Option (List ApiItem))) (c : Int) (s : Ledger),
      chain s (apiQueryLoop tenv build max_articles plan c s).articles ∧
      SeenExt s (apiQueryLoop tenv build max_articles plan c s).articles
        (apiQueryLoop tenv build max_articles plan c s).seen := by
  intro plan
  induction plan with
  | nil => intro c s; exact ⟨trivial, seenExt_refl s⟩
  | cons p rest ih =>
    intro c s
    obtain ⟨q, resp⟩ := p
    unfold apiQueryLoop
    by_cases hq : max_articles ≤ c
    · simp only [if_pos hq]; exact ⟨trivial, seenExt_refl s⟩
    · simp only [if_neg hq]
      cases resp with
      | none => exact ih c s
      | some items =>
        obtain ⟨hch1, hse1⟩ := apiItemLoop_ok tenv hb max_articles items c s
        obtain ⟨hch2, hse2⟩ :=
          ih (apiItemLoop tenv build max_articles items c s).2.1
            (apiItemLoop tenv build max_articles items c s).2.2
        exact ⟨chain_seq hch1 hse1 hch2, seenExt_seq hse1 hse2⟩

theorem gnewsBuild_ok (tenv : TimeEnv) : BuildOk (gnewsBuild tenv) :=
  fun _ _ _ _ => ⟨rfl, rfl⟩

theorem newsapiBuild_ok (tenv : TimeEnv) : BuildOk (newsapiBuild tenv) :=
  fun _ _ _ _ => ⟨rfl, rfl⟩

theorem guardianBuild_ok (tenv : TimeEnv) : BuildOk (guardianBuild tenv) :=
  fun _ _ _ _ => ⟨rfl, rfl⟩

theorem collect_from_gnews_ok (tenv : TimeEnv) (env : ApiEnv) (max_articles : Int)
    (s : Ledger) :
    chain s (collect_from_gnews tenv env max_articles s).articles ∧
    SeenExt s (collect_from_gnews tenv env max_articles s).articles
      (collect_from_gnews tenv env max_articles s).seen := by
  unfold collect_from_gnews
  cases hk : env.gnewsKey with
  | false =>
    rw [if_pos (by decide : (!false) = true)]
    exact ⟨trivial, seenExt_refl s⟩
  | true =>
    rw [if_neg (by decide : ¬((!true) = true))]
    exact apiQueryLoop_ok tenv (gnewsBuild_ok tenv) max_articles env.gnewsPlan 0 s

theorem collect_from_newsapi_ok (tenv : TimeEnv) (env : ApiEnv) (max_articles : Int)
    (s : Ledger) :
    chain s (collect_from_newsapi tenv env max_articles s).articles ∧
    SeenExt s (collect_from_newsapi tenv env max_articles s).articles
      (collect_from_newsapi tenv env max_articles s).seen := by
  unfold collect_from_newsapi
  cases hk : env.newsapiKey with
  | false =>
    rw [if_pos (by decide : (!false) = true)]
    exact ⟨trivial, seenExt_refl s⟩
  | true =>
    rw [if_neg (by decide : ¬((!true) = true))]
    exact apiQueryLoop_ok tenv (newsapiBuild_ok tenv) max_articles env.newsapiPlan 0 s

theorem collect_from_guardian_ok (tenv : TimeEnv) (env : ApiEnv) (max_articles : Int)
    (s : Ledger) :
    chain s (collect_from_guardian tenv env max_articles s).articles ∧
    SeenExt s (collect_from_guardian tenv env max_articles s).articles
      (collect_from_guardian tenv env max_articles s).seen := by
  unfold collect_from_guardian
  cases hk : env.guardianKey with
  | false =>
    rw [if_pos (by decide : (!false) = true)]
    exact ⟨trivial, seenExt_refl s⟩
  | true =>
    rw [if_neg (by decide : ¬((!true) = true))]
    exact apiQueryLoop_ok tenv (guardianBuild_ok tenv) max_articles env.guardianPlan 0 s

theorem collect_from_apis_ok (tenv : TimeEnv) (env : ApiEnv) (max_articles : Int)
    (s : Ledger) :
    chain s (collect_from_apis tenv env max_articles s).articles ∧
    SeenExt s (collect_from_apis tenv env max_articles s).articles
      (collect_from_apis tenv env max_articles s).seen := by
  unfold collect_from_apis
  dsimp only
  obtain ⟨c1, e1⟩ := collect_from_gnews_ok tenv env (min 100 max_articles) s
  by_cases h1 : max_articles ≤
      ((collect_from_gnews tenv env (min 100 max_articles) s).articles.length : Int)
  · rw [if_pos h1]; exact ⟨c1, e1⟩
  · rw [if_neg h1]
    obtain ⟨c2, e2⟩ := collect_from_newsapi_ok tenv env _
      (collect_from_gnews tenv env (min 100 max_articles) s).seen
    by_cases h2 : max_articles ≤
        (((collect_from_gnews tenv env (min 100 max_articles) s).articles.length : Int) +
         ((collect_from_newsapi tenv env
            (min 50 ((max_articles -
              ((collect_from_gnews tenv env (min 100 max_articles) s).articles.length : Int)).fdiv 2))
            (collect_from_gnews tenv env (min 100 max_articles) s).seen).articles.length : Int))
    · rw [if_pos h2]
      exact ⟨chain_seq c1 e1 c2, seenExt_seq e1 e2⟩
    · rw [if_neg h2]
      obtain ⟨c3, e3⟩ := collect_from_guardian_ok tenv env _
        (collect_from_newsapi tenv env
          (min 50 ((max_articles -
            ((collect_from_gnews tenv env (min 100 max_articles) s).articles.length : Int)).fdiv 2))
          (collect_from_gnews tenv env (min 100 max_articles) s).seen).seen
      exact ⟨chain_seq (chain_seq c1 e1 c2) (seenExt_seq e1 e2) c3,
        seenExt_seq (seenExt_seq e1 e2) e3⟩

theorem scrape_article_cases (tenv : TimeEnv) (pages : List (String × ScrapePage))
    (url : String) (s : Ledger) :
    ((scrape_article tenv pages url s).1 = none ∧ (scrape_article tenv pages url s).2.1 = s) ∨
    (∃ a, (scrape_article tenv pages url s).1 = some a ∧ Accepts s a ∧
      (scrape_article tenv pages url s).2.1 = addHashes s a) := by
  unfold scrape_article
  dsimp only
  cases hb1 : List.contains s (get_url_hash_scrape url) with
  | true => left; rw [if_pos rfl]; exact ⟨rfl, rfl⟩
  | false =>
    rw [if_neg (by simp)]
    cases hpg : lookupPage pages url with
    | none => left; exact ⟨rfl, rfl⟩
    | some pg =>
      dsimp only
      by_cases hpay : is_paywall_or_blocked pg = true
      · rw [if_pos hpay]; left; exact ⟨rfl, rfl⟩
      · rw [if_neg hpay]
        cases hex : extract_generic pg.content with
        | none => left; exact ⟨rfl, rfl⟩
        | some r =>
          dsimp only
          cases hb2 : List.contains s
              (get_content_hash r.title (parse_date tenv r.published_at)) with
          | true => left; rw [if_pos rfl]; exact ⟨rfl, rfl⟩
          | false =>
            rw [if_neg (by simp)]
            right
            refine ⟨_, rfl, ?_, ?_⟩
            · intro x hxh
              rcases List.mem_cons.mp hxh with rfl | hxc
              · exact not_mem_of_contains_false hb1
              · simp [hashesOf] at hxc
                subst hxc
                exact not_mem_of_contains_false hb2
            · simp [addHashes]

theorem scrapeLinkLoop_ok (tenv : TimeEnv) (pages : List (String × ScrapePage))
    (max_articles : Int) :
    ∀ (urls : List String) (c : Int) (s : Ledger),
      chain s (scrapeLinkLoop tenv pages max_articles urls c s).1 ∧
      SeenExt s (scrapeLinkLoop tenv pages max_articles urls c s).1
        (scrapeLinkLoop tenv pages max_articles urls c s).2.2.1 := by
  intro urls
  induction urls with
  | nil => intro c s; exact ⟨trivial, seenExt_refl s⟩
  | cons u rest ih =>
    intro c s
    unfold scrapeLinkLoop
    by_cases hq : max_articles ≤ c
    · simp only [if_pos hq]; exact ⟨trivial, seenExt_refl s⟩
    · simp only [if_neg hq]
      rcases hE : scrape_article tenv pages u s with ⟨o, s2, lg⟩
      rcases scrape_article_cases tenv pages u s with ⟨h1, h2⟩ | ⟨a, h1, h2, h3⟩
      · rw [hE] at h1 h2
        simp only at h1 h2
        subst h1
        subst h2
        exact ih c s2
      · rw [hE] at h1 h3
        simp only at h1 h3
        subst h1
        subst h3
        obtain ⟨hch, hse⟩ := ih (c + 1) (addHashes s a)
        exact ⟨⟨h2, hch⟩, seenExt_cons hse⟩

theorem scrapeSeedLoop_ok (tenv : TimeEnv) (pages : List (String × ScrapePage))
    (max_articles : Int) :
    ∀ (seeds : List ScrapeSeed) (c : Int) (s : Ledger),
      chain s (scrapeSeedLoop tenv pages max_articles seeds c s).articles ∧
      SeenExt s (scrapeSeedLoop tenv pages max_articles seeds c s).articles
        (scrapeSeedLoop tenv pages max_articles seeds c s).seen := by
  intro seeds
  induction seeds with
  | nil => intro c s; exact ⟨trivial, seenExt_refl s⟩
  | cons sd rest ih =>
    intro c s
    unfold scrapeSeedLoop
    by_cases hq : max_articles ≤ c
    · simp only [if_pos hq]; exact ⟨trivial, seenExt_refl s⟩
    · simp only [if_neg hq]
      cases hpg : lookupPage pages sd.url with
      | none => exact ih c s
      | some pg =>
        by_cases hd : sd.maxDepth = 0
        · simp only [if_pos hd]
          rcases hE : scrape_article tenv pages sd.url s with ⟨o, s2, lg⟩
          rcases scrape_article_cases tenv pages sd.url s with ⟨h1, h2⟩ | ⟨a, h1, h2, h3⟩
          · rw [hE] at h1 h2
            simp only at h1 h2
            subst h1
            subst h2
            obtain ⟨hch, hse⟩ := ih c s2
            exact ⟨hch, hse⟩
          · rw [hE] at h1 h3
            simp only at h1 h3
            subst h1
            subst h3
            obtain ⟨hch, hse⟩ := ih (c + 1) (addHashes s a)
            exact ⟨⟨h2, hch⟩, seenExt_cons hse⟩
        · simp only [if_neg hd]
          obtain ⟨hch1, hse1⟩ := scrapeLinkLoop_ok tenv pages max_articles (pg.links.take 40) c s
          obtain ⟨hch2, hse2⟩ :=
            ih (scrapeLinkLoop tenv pages max_articles (pg.links.take 40) c s).2.1
              (scrapeLinkLoop tenv pages max_articles (pg.links.take 40) c s).2.2.1
          exact ⟨chain_seq hch1 hse1 hch2, seenExt_seq hse1 hse2⟩

theorem collect_from_scraping_ok (tenv : TimeEnv) (pages : List (String × ScrapePage))
    (seeds : List ScrapeSeed) (max_articles : Int) (s : Ledger) :
    chain s (collect_from_scraping tenv pages seeds max_articles s).articles ∧
    SeenExt s (collect_from_scraping tenv pages seeds max_articles s).articles
      (collect_from_scraping tenv pages seeds max_articles s).seen :=
  scrapeSeedLoop_ok tenv pages max_articles seeds 0 s

theorem scholarItemLoop_ok (tenv : TimeEnv) (query : String) (max_papers : Int) :
    ∀ (items : List ScholarItem) (c : Int) (s : Ledger),
      chain s (scholarItemLoop tenv query max_papers items c s).1 ∧
      SeenExt s (scholarItemLoop tenv query max_papers items c s).1
        (scholarItemLoop tenv query max_papers items c s).2.2 := by
  intro items
  induction items with
  | nil => intro c s; exact ⟨trivial, seenExt_refl s⟩
  | cons it rest ih =>
    intro c s
    unfold scholarItemLoop
    by_cases hq : max_papers ≤ c
    · simp only [if_pos hq]; exact ⟨trivial, seenExt_refl s⟩
    · simp only [if_neg hq]
      cases hc1 : List.contains s (parse_paper tenv it query).url_hash with
      | true => rw [if_pos rfl]; exact ih c s
      | false =>
        rw [if_neg (by simp)]
        dsimp only
        have hnone : (parse_paper tenv it query).content_hash = none := rfl
        have hadd : addHashes s (parse_paper tenv it query) =
            (parse_paper tenv it query).url_hash :: s := by
          simp [addHashes, hnone]
        rw [← hadd]
        obtain ⟨hch, hse⟩ := ih (c + 1) (addHashes s (parse_paper tenv it query))
        have hacc : Accepts s (parse_paper tenv it query) := by
          intro x hxh
          unfold hashesOf at hxh
          rw [hnone] at hxh
          simp at hxh
          subst hxh
          exact not_mem_of_contains_false hc1
        exact ⟨⟨hacc, hch⟩, seenExt_cons hse⟩

theorem scholarQueryLoop_ok (tenv : TimeEnv) (max_papers : Int) :
    ∀ (plan : List (String × List ScholarItem)) (c : Int) (s : Ledger),
      chain s (scholarQueryLoop tenv max_papers plan c s).articles ∧
      SeenExt s (scholarQueryLoop tenv max_papers plan c s).articles
        (scholarQueryLoop tenv max_papers plan c s).seen := by
  intro plan
  induction plan with
  | nil => intro c s; exact ⟨trivial, seenExt_refl s⟩
  | cons p rest ih =>
    intro c s
    obtain ⟨q, results⟩ := p
    unfold scholarQueryLoop
    by_cases hq : max_papers ≤ c
    · simp only [if_pos hq]; exact ⟨trivial, seenExt_refl s⟩
    · simp only [if_neg hq]
      obtain ⟨hch1, hse1⟩ := scholarItemLoop_ok tenv q max_papers results c s
      obtain ⟨hch2, hse2⟩ :=
        ih (scholarItemLoop tenv q max_papers results c s).2.1
          (scholarItemLoop tenv q max_papers results c s).2.2
      exact ⟨chain_seq hch1 hse1 hch2, seenExt_seq hse1 hse2⟩

theorem collect_from_scholar_ok (tenv : TimeEnv) (plan : List (String × List ScholarItem))
    (max_papers : Int) (s : Ledger) :
    chain s (collect_from_scholar tenv plan max_papers s).articles ∧
    SeenExt s (collect_from_scholar tenv plan max_papers s).articles
      (collect_from_scholar tenv plan max_papers s).seen :=
  scholarQueryLoop_ok tenv max_papers plan 0 s

theorem full_run_chain (tenv : TimeEnv) (feeds : List RssFeed) (apiEnv : ApiEnv)
    (pages : List (String × ScrapePage)) (seeds : List ScrapeSeed)
    (plan : List (String × List ScholarItem)) (q1 q2 q3 q4 : Int) (seen : Ledger) :
    chain seen (full_run tenv feeds apiEnv pages seeds plan q1 q2 q3 q4 seen).articles := by
  unfold full_run
  dsimp only
  obtain ⟨c1, e1⟩ := collect_from_rss_ok tenv feeds q1 seen
  obtain ⟨c2, e2⟩ := collect_from_apis_ok tenv apiEnv q2 (collect_from_rss tenv feeds q1 seen).seen
  obtain ⟨c3, e3⟩ := collect_from_scraping_ok tenv pages seeds q3
    (collect_from_apis tenv apiEnv q2 (collect_from_rss tenv feeds q1 seen).seen).seen
  obtain ⟨c4, _⟩ := collect_from_scholar_ok tenv plan q4
    (collect_from_scraping tenv pages seeds q3
      (collect_from_apis tenv apiEnv q2 (collect_from_rss tenv feeds q1 seen).seen).seen).seen
  exact chain_seq c1 e1 (chain_seq c2 e2 (chain_seq c3 e3 c4))

/-- C1: over one collection run with the single shared ledger, no two
candidates yielded by any of the collectors (RSS, the three APIs, Scrape,
Scholar) share a `url_hash`, and none shares a `content_hash` with any
previously yielded candidate, across all collectors and not just within
one. -/
theorem full_run_dedup_invariant (tenv : TimeEnv) (feeds : List RssFeed) (apiEnv : ApiEnv)
    (pages : List (String × ScrapePage)) (seeds : List ScrapeSeed)
    (plan : List (String × List ScholarItem)) (q1 q2 q3 q4 : Int) (seen : Ledger) :
    (full_run tenv feeds apiEnv pages seeds plan q1 q2 q3 q4 seen).articles.Pairwise
      (fun a b => a.url_hash ≠ b.url_hash ∧
        ∀ ca ∈ a.content_hash, ∀ cb ∈ b.content_hash, ca ≠ cb) := by
  have h := chain_pairwise
    (full_run_chain tenv feeds apiEnv pages seeds plan q1 q2 q3 q4 seen)
  refine h.imp ?_
  intro a b hab
  constructor
  · exact hab a.url_hash (by simp [hashesOf]) b.url_hash (by simp [hashesOf])
  · intro ca hca cb hcb
    exact hab ca (by simp [hashesOf, Option.mem_toList, hca])
      cb (by simp [hashesOf, Option.mem_toList, hcb])

/-! ## Claim C6: url fingerprints

The rss/api collectors yield `url = normalize_url(link)` and
`url_hash = sha256(normalize_url(link))`; the scrape collector does the same
with its own `normalize_url` variant; the scholar collector hashes the raw
link and yields the raw link. -/

theorem extract_entry_fp {tenv : TimeEnv} {e : RssEntry} {n u : String} {a : Article}
    (h : extract_entry tenv e n u = some a) : UrlFingerprintOk a := by
  unfold extract_entry at h
  cases hl : pyOr (pyOr e.link e.idField) e.guidHref with
  | none => rw [hl] at h; exact absurd h (by simp)
  | some link =>
    rw [hl] at h
    dsimp only at h
    by_cases h1 : link = ""
    · rw [if_pos h1] at h; exact absurd h (by simp)
    · rw [if_neg h1] at h
      by_cases h2 : e.title = ""
      · rw [if_pos h2] at h; exact absurd h (by simp)
      · rw [if_neg h2] at h
        injection h with h
        subst h
        exact ⟨link, rfl, rfl⟩

theorem rssEntryLoop_fp (tenv : TimeEnv) (name url : String) (max_articles : Int) :
    ∀ (entries : List RssEntry) (c : Int) (s : Ledger),
      ∀ a ∈ (rssEntryLoop tenv name url max_articles entries c s).1, UrlFingerprintOk a := by
  intro entries
  induction entries with
  | nil => intro c s a ha; simp [rssEntryLoop] at ha
  | cons e rest ih =>
    intro c s a ha
    unfold rssEntryLoop at ha
    by_cases hq : max_articles ≤ c
    · rw [if_pos hq] at ha; simp at ha
    · rw [if_neg hq] at ha
      cases hx : extract_entry tenv e name url with
      | none => rw [hx] at ha; exact ih c s a ha
      | some b =>
        rw [hx] at ha
        dsimp only at ha
        cases hc1 : List.contains s b.url_hash with
        | true => rw [if_pos (by rw [hc1])] at ha; exact ih c s a ha
        | false =>
          rw [if_neg (by rw [hc1]; simp)] at ha
          cases h2 : contentDup s b with
          | true => rw [if_pos (by rw [h2])] at ha; exact ih c s a ha
          | false =>
            rw [if_neg (by rw [h2]; simp)] at ha
            rcases List.mem_cons.mp ha with rfl | ha
            · exact extract_entry_fp hx
            · exact ih (c + 1) (addHashes s b) a ha

theorem rssFeedLoop_fp (tenv : TimeEnv) (max_articles : Int) :
    ∀ (feeds : List RssFeed) (c : Int) (s : Ledger),
      ∀ a ∈ (rssFeedLoop tenv max_articles feeds c s).articles, UrlFingerprintOk a := by
  intro feeds
  induction feeds with
  | nil => intro c s a ha; simp [rssFeedLoop] at ha
  | cons f rest ih =>
    intro c s a ha
    unfold rssFeedLoop at ha
    by_cases hq : max_articles ≤ c
    · rw [if_pos hq] at ha; simp at ha
    · rw [if_neg hq] at ha
      cases hf : f.fetched with
      | none => rw [hf] at ha; exact ih c s a ha
      | some entries =>
        rw [hf] at ha
        dsimp only at ha
        rcases List.mem_append.mp ha with ha | ha
        · exact rssEntryLoop_fp tenv f.name f.url max_articles entries c s a ha
        · exact ih _ _ a ha

theorem apiItemLoop_fp (tenv : TimeEnv) {build : ApiItem → String → String → String → Article}
    (hb : BuildUrlOk build) (max_articles : Int) :
    ∀ (items : List ApiItem) (c : Int) (s : Ledger),
      ∀ a ∈ (apiItemLoop tenv build max_articles items c s).1, UrlFingerprintOk a := by
  intro items
  induction items with
  | nil => intro c s a ha; simp [apiItemLoop] at ha
  | cons it rest ih =>
    intro c s a ha
    unfold apiItemLoop at ha
    by_cases hq : max_articles ≤ c
    · rw [if_pos hq] at ha; simp at ha
    · rw [if_neg hq] at ha
      by_cases hu : it.url = ""
      · rw [if_pos hu] at ha; exact ih c s a ha
      · rw [if_neg hu] at ha
        cases hc1 : List.contains s (get_url_hash it.url) with
        | true => rw [if_pos (by rw [hc1])] at ha; exact ih c s a ha
        | false =>
          rw [if_neg (by rw [hc1]; simp)] at ha
          cases hc2 : List.contains s
              (get_content_hash it.title (it.publishedAt.getD tenv.now)) with
          | true => rw [if_pos (by rw [hc2])] at ha; exact ih c s a ha
          | false =>
            rw [if_neg (by rw [hc2]; simp)] at ha
            dsimp only at ha
            rcases List.mem_cons.mp ha with rfl | ha
            · obtain ⟨hb1, hb2⟩ := hb it (get_url_hash it.url)
                (get_content_hash it.title (it.publishedAt.getD tenv.now))
                (it.publishedAt.getD tenv.now)
              exact ⟨it.url, hb1, hb2⟩
            · exact ih (c + 1) _ a ha

theorem apiQueryLoop_fp (tenv : TimeEnv) {build : ApiItem → String → String → String → Article}
    (hb : BuildUrlOk build) (max_articles : Int) :
    ∀ (plan : List (String × Option (List ApiItem))) (c : Int) (s : Ledger),
      ∀ a ∈ (apiQueryLoop tenv build max_articles plan c s).articles, UrlFingerprintOk a := by
  intro plan
  induction plan with
  | nil => intro c s a ha; simp [apiQueryLoop] at ha
  | cons p rest ih =>
    intro c s a ha
    obtain ⟨q, resp⟩ := p
    unfold apiQueryLoop at ha
    by_cases hq : max_articles ≤ c
    · rw [if_pos hq] at ha; simp at ha
    · rw [if_neg hq] at ha
      cases resp with
      | none => exact ih c s a ha
      | some items =>
        dsimp only at ha
        rcases List.mem_append.mp ha with ha | ha
        · exact apiItemLoop_fp tenv hb max_articles items c s a ha
        · exact ih _ _ a ha

theorem collect_from_apis_fp (tenv : TimeEnv) (env : ApiEnv) (max_articles : Int)
    (s : Ledger) :
    ∀ a ∈ (collect_from_apis tenv env max_articles s).articles, UrlFingerprintOk a := by
  have hg : ∀ q s', ∀ a ∈ (collect_from_gnews tenv env q s').articles, UrlFingerprintOk a := by
    intro q s' a ha
    unfold collect_from_gnews at ha
    cases hk : env.gnewsKey with
    | false => rw [hk] at ha; simp at ha
    | true =>
      rw [hk] at ha
      exact apiQueryLoop_fp tenv (fun _ _ _ _ => ⟨rfl, rfl⟩) q env.gnewsPlan 0 s' a ha
  have hn : ∀ q s', ∀ a ∈ (collect_from_newsapi tenv env q s').articles, UrlFingerprintOk a := by
    intro q s' a ha
    unfold collect_from_newsapi at ha
    cases hk : env.newsapiKey with
    | false => rw [hk] at ha; simp at ha
    | true =>
      rw [hk] at ha
      exact apiQueryLoop_fp tenv (fun _ _ _ _ => ⟨rfl, rfl⟩) q env.newsapiPlan 0 s' a ha
  have hgu : ∀ q s', ∀ a ∈ (collect_from_guardian tenv env q s').articles, UrlFingerprintOk a := by
    intro q s' a ha
    unfold collect_from_guardian at ha
    cases hk : env.guardianKey with
    | false => rw [hk] at ha; simp at ha
    | true =>
      rw [hk] at ha
      exact apiQueryLoop_fp tenv (fun _ _ _ _ => ⟨rfl, rfl⟩) q env.guardianPlan 0 s' a ha
  intro a ha
  unfold collect_from_apis at ha
  dsimp only at ha
  split at ha
  · exact hg _ _ a ha
  · split at ha
    · rcases List.mem_append.mp ha with ha | ha
      · exact hg _ _ a ha
      · exact hn _ _ a ha
    · rcases List.mem_append.mp ha with ha | ha
      · rcases List.mem_append.mp ha with ha | ha
        · exact hg _ _ a ha
        · exact hn _ _ a ha
      · exact hgu _ _ a ha

theorem scrape_article_fp {tenv : TimeEnv} {pages : List (String × ScrapePage)}
    {url : String} {s : Ledger} {a : Article}
    (h : (scrape_article tenv pages url s).1 = some a) : UrlFingerprintOkScrape a := by
  unfold scrape_article at h
  dsimp only at h
  cases hb1 : List.contains s (get_url_hash_scrape url) with
  | true => rw [if_pos (by rw [hb1])] at h; exact absurd h (by simp)
  | false =>
    rw [if_neg (by rw [hb1]; simp)] at h
    rcases hpg : lookupPage pages url with _ | pg
    · rw [hpg] at h; exact absurd h (by simp)
    · rw [hpg] at h
      dsimp only at h
      by_cases h2 : is_paywall_or_blocked pg = true
      · rw [if_pos h2] at h; exact absurd h (by simp)
      · rw [if_neg h2] at h
        rcases hex : extract_generic pg.content with _ | r
        · rw [hex] at h; exact absurd h (by simp)
        · rw [hex] at h
          dsimp only at h
          cases hb2 : List.contains s
              (get_content_hash r.title (parse_date tenv r.published_at)) with
          | true => rw [if_pos (by rw [hb2])] at h; exact absurd h (by simp)
          | false =>
            rw [if_neg (by rw [hb2]; simp)] at h
            injection h with h
            subst h
            exact ⟨url, rfl, rfl⟩

theorem scrapeLinkLoop_fp (tenv : TimeEnv) (pages : List (String × ScrapePage))
    (max_articles : Int) :
    ∀ (urls : List String) (c : Int) (s : Ledger),
      ∀ a ∈ (scrapeLinkLoop tenv pages max_articles urls c s).1, UrlFingerprintOkScrape a := by
  intro urls
  induction urls with
  | nil => intro c s a ha; simp [scrapeLinkLoop] at ha
  | cons u rest ih =>
    intro c s a ha
    unfold scrapeLinkLoop at ha
    by_cases hq : max_articles ≤ c
    · rw [if_pos hq] at ha; simp at ha
    · rw [if_neg hq] at ha
      rcases hE : scrape_article tenv pages u s with ⟨o, s2, lg⟩
      rw [hE] at ha
      cases o with
      | none => dsimp only at ha; exact ih c s2 a ha
      | some b =>
        dsimp only at ha
        rcases List.mem_cons.mp ha with rfl | ha
        · exact scrape_article_fp (by rw [hE])
        · exact ih (c + 1) s2 a ha

theorem scrapeSeedLoop_fp (tenv : TimeEnv) (pages : List (String × ScrapePage))
    (max_articles : Int) :
    ∀ (seeds : List ScrapeSeed) (c : Int) (s : Ledger),
      ∀ a ∈ (scrapeSeedLoop tenv pages max_articles seeds c s).articles,
        UrlFingerprintOkScrape a := by
  intro seeds
  induction seeds with
  | nil => intro c s a ha; simp [scrapeSeedLoop] at ha
  | cons sd rest ih =>
    intro c s a ha
    unfold scrapeSeedLoop at ha
    by_cases hq : max_articles ≤ c
    · rw [if_pos hq] at ha; simp at ha
    · rw [if_neg hq] at ha
      cases hpg : lookupPage pages sd.url with
      | none => rw [hpg] at ha; exact ih c s a ha
      | some pg =>
        rw [hpg] at ha
        dsimp only at ha
        by_cases hd : sd.maxDepth = 0
        · rw [if_pos hd] at ha
          rcases hE : scrape_article tenv pages sd.url s with ⟨o, s2, lg⟩
          rw [hE] at ha
          cases o with
          | none => dsimp only at ha; exact ih c s2 a ha
          | some b =>
            dsimp only at ha
            rcases List.mem_cons.mp ha with rfl | ha
            · exact scrape_article_fp (by rw [hE])
            · exact ih (c + 1) s2 a ha
        · rw [if_neg hd] at ha
          dsimp only at ha
          rcases List.mem_append.mp ha with ha | ha
          · exact scrapeLinkLoop_fp tenv pages max_articles (pg.links.take 40) c s a ha
          · exact ih _ _ a ha

theorem scholarItemLoop_raw (tenv : TimeEnv) (query : String) (max_papers : Int) :
    ∀ (items : List ScholarItem) (c : Int) (s : Ledger),
      ∀ a ∈ (scholarItemLoop tenv query max_papers items c s).1,
        a.url_hash = sha256hex a.url := by
  intro items
  induction items with
  | nil => intro c s a ha; simp [scholarItemLoop] at ha
  | cons it rest ih =>
    intro c s a ha
    unfold scholarItemLoop at ha
    by_cases hq : max_papers ≤ c
    · rw [if_pos hq] at ha; simp at ha
    · rw [if_neg hq] at ha
      cases hc1 : List.contains s (parse_paper tenv it query).url_hash with
      | true => rw [if_pos (by rw [hc1])] at ha; exact ih c s a ha
      | false =>
        rw [if_neg (by rw [hc1]; simp)] at ha
        dsimp only at ha
        rcases List.mem_cons.mp ha with rfl | ha
        · rfl
        · exact ih (c + 1) _ a ha

theorem scholarQueryLoop_raw (tenv : TimeEnv) (max_papers : Int) :
    ∀ (plan : List (String × List ScholarItem)) (c : Int) (s : Ledger),
      ∀ a ∈ (scholarQueryLoop tenv max_papers plan c s).articles,
        a.url_hash = sha256hex a.url := by
  intro plan
  induction plan with
  | nil => intro c s a ha; simp [scholarQueryLoop] at ha
  | cons p rest ih =>
    intro c s a ha
    obtain ⟨q, results⟩ := p
    unfold scholarQueryLoop at ha
    by_cases hq : max_papers ≤ c
    · rw [if_pos hq] at ha; simp at ha
    · rw [if_neg hq] at ha
      dsimp only at ha
      rcases List.mem_append.mp ha with ha | ha
      · exact scholarItemLoop_raw tenv q max_papers results c s a ha
      · exact ih _ _ a ha

/-- C6 (amended): every candidate yielded by the RSS and API collectors has
`url_hash = sha256(normalize_url(source url))` and `url` the normalized
canonical URL; the Scrape collector satisfies the same with its own
`normalize_url` copy; the Scholar collector however hashes the raw link
without normalization and yields the raw link as `url`. -/
theorem collectors_url_fingerprint (tenv : TimeEnv) (feeds : List RssFeed) (apiEnv : ApiEnv)
    (pages : List (String × ScrapePage)) (seeds : List ScrapeSeed)
    (plan : List (String × List ScholarItem)) (q1 q2 q3 q4 : Int) (s1 s2 s3 s4 : Ledger) :
    (∀ a ∈ (collect_from_rss tenv feeds q1 s1).articles, UrlFingerprintOk a) ∧
    (∀ a ∈ (collect_from_apis tenv apiEnv q2 s2).articles, UrlFingerprintOk a) ∧
    (∀ a ∈ (collect_from_scraping tenv pages seeds q3 s3).articles, UrlFingerprintOkScrape a) ∧
    (∀ a ∈ (collect_from_scholar tenv plan q4 s4).articles, a.url_hash = sha256hex a.url) :=
  ⟨rssFeedLoop_fp tenv q1 feeds 0 s1,
   collect_from_apis_fp tenv apiEnv q2 s2,
   scrapeSeedLoop_fp tenv pages q3 seeds 0 s3,
   scholarQueryLoop_raw tenv q4 plan 0 s4⟩

/-- Witness for C6 (amended): the article collected from the demo feed has a
normalized url and the matching fingerprint. -/
theorem collectors_url_fingerprint_witness :
    ((collect_from_rss demoTimeEnv demoFeeds 300 []).articles.getD 0 defaultArticle ∈
      (collect_from_rss demoTimeEnv demoFeeds 300 []).articles) ∧
    UrlFingerprintOk ((collect_from_rss demoTimeEnv demoFeeds 300 []).articles.getD 0
      defaultArticle) :=
  ⟨by decide,
   (collectors_url_fingerprint demoTimeEnv demoFeeds emptyApiEnv [] [] [] 300 0 0 0
      [] [] [] []).1 _ (by decide)⟩

/-- C6 counterexample: the Scholar collector's yielded `url_hash` is the
SHA-256 of the raw link, which differs from the SHA-256 of the normalized
link, and the yielded `url` is not normalized. -/
theorem scholar_url_fingerprint_counterexample :
    ((collect_from_scholar demoTimeEnv [("q", [scholarDemoItem])] 5 []).articles.map
        (fun a => a.url_hash)) = [sha256hex "https://WWW.Example.com/Paper/"] ∧
    sha256hex "https://WWW.Example.com/Paper/" ≠
      sha256hex (normalize_url "https://WWW.Example.com/Paper/") ∧
    ((collect_from_scholar demoTimeEnv [("q", [scholarDemoItem])] 5 []).articles.map
        (fun a => a.url)) = ["https://WWW.Example.com/Paper/"] ∧
    "https://WWW.Example.com/Paper/" ≠ normalize_url "https://WWW.Example.com/Paper/" := by
  refine ⟨by decide, by decide, by decide, by decide⟩

/-! ## Claim C7: title checks -/

/-- C7 (amended): the RSS collector discards entries whose raw title is
empty and the Scrape collector discards extracted titles shorter than 10
characters, both before hashing and yielding; the API and Scholar
collectors perform no title check (see the counterexample). -/
theorem extraction_title_checks (tenv : TimeEnv) :
    (∀ (e : RssEntry) (n u : String) (a : Article),
      extract_entry tenv e n u = some a → e.title ≠ "") ∧
    (∀ (inp : ExtractInput) (r : ExtractResult),
      extract_generic inp = some r → 10 ≤ r.title.length) := by
  constructor
  · intro e n u a h ht
    unfold extract_entry at h
    cases hl : pyOr (pyOr e.link e.idField) e.guidHref with
    | none => rw [hl] at h; exact absurd h (by simp)
    | some link =>
      rw [hl] at h
      dsimp only at h
      rw [if_neg] at h
      · rw [if_pos ht] at h
        exact absurd h (by simp)
      · intro hlink
        rw [hlink, if_pos rfl] at h
        exact absurd h (by simp)
  · intro inp r h
    unfold extract_generic at h
    cases ht : inp.titleText with
    | none => rw [ht] at h; exact absurd h (by simp)
    | some title =>
      rw [ht] at h
      dsimp only at h
      cases hcond : (decide (title = "") || decide (title.length < 10)) with
      | true => rw [if_pos (by rw [hcond])] at h; exact absurd h (by simp)
      | false =>
        rw [if_neg (by rw [hcond]; simp)] at h
        by_cases h2 : (" ".intercalate inp.paragraphs).length < 200
        · rw [if_pos h2] at h; exact absurd h (by simp)
        · rw [if_neg h2] at h
          injection h with h
          subst h
          dsimp only
          simp only [Bool.or_eq_false_iff, decide_eq_false_iff_not] at hcond
          omega

/-- Witness for C7 (amended) at the demo feed entry and a demo page. -/
theorem extraction_title_checks_witness :
    (extract_entry demoTimeEnv demoEntry "f" "u" =
      some ((extract_entry demoTimeEnv demoEntry "f" "u").getD defaultArticle) ∧
      demoEntry.title ≠ "") ∧
    (extract_generic ⟨some "A long enough headline", none, "", [String.mk
        (List.replicate 300 'x')]⟩ =
      some ((extract_generic ⟨some "A long enough headline", none, "",
        [String.mk (List.replicate 300 'x')]⟩).getD ⟨"", none, "", ""⟩) ∧
      10 ≤ ((extract_generic ⟨some "A long enough headline", none, "",
        [String.mk (List.replicate 300 'x')]⟩).getD ⟨"", none, "", ""⟩).title.length) :=
  ⟨⟨by decide,
    (extraction_title_checks demoTimeEnv).1 demoEntry "f" "u"
      ((extract_entry demoTimeEnv demoEntry "f" "u").getD defaultArticle) (by decide)⟩,
   ⟨by decide,
    (extraction_title_checks demoTimeEnv).2
      ⟨some "A long enough headline", none, "", [String.mk (List.replicate 300 'x')]⟩
      ((extract_generic ⟨some "A long enough headline", none, "",
        [String.mk (List.replicate 300 'x')]⟩).getD ⟨"", none, "", ""⟩) (by decide)⟩⟩

/-- C7 counterexample: the GNews collector yields a candidate whose title is
the empty string — no title check precedes hashing and yielding there. -/
theorem api_empty_title_counterexample :
    ((collect_from_gnews demoTimeEnv apiEnvEmptyTitle 5 []).articles.map
      (fun a => a.title)) = [""] := by
  decide

/-! ## Claim C9: re-running a collector against the same ledger

The claim fails when the first run was cut short by its quota: the second
run then reaches source items the first never processed.  When the first
run exhausted its source data (its quota strictly exceeds the number of
available items), a second run yields nothing: every item is rejected by a
fingerprint the first run put in (or found in) the ledger. -/

theorem seenExt_mono {s : Ledger} {out : List Article} {s' : Ledger}
    (h : SeenExt s out s') : ∀ x ∈ s, x ∈ s' :=
  fun x hx => (h x).mpr (Or.inl hx)

theorem contentDup_true {s : Ledger} {a : Article} (h : contentDup s a = true) :
    ∃ ch ∈ a.content_hash, ch ∈ s := by
  unfold contentDup at h
  cases hc : a.content_hash with
  | none => rw [hc] at h; simp at h
  | some c =>
    rw [hc] at h
    simp at h
    exact ⟨c, by simp [hc], h⟩

theorem contentDup_true_of {s : Ledger} {a : Article} {ch : String}
    (hc : ch ∈ a.content_hash) (hm : ch ∈ s) : contentDup s a = true := by
  unfold contentDup
  cases hcc : a.content_hash with
  | none => rw [hcc] at hc; simp at hc
  | some c =>
    rw [hcc] at hc
    simp at hc
    subst hc
    simpa using hm

theorem rssEntryLoop_collected_le (tenv : TimeEnv) (name url : String) (max_articles : Int) :
    ∀ (entries : List RssEntry) (c : Int) (s : Ledger),
      (rssEntryLoop tenv name url max_articles entries c s).2.1 ≤ c + entries.length := by
  intro entries
  induction entries with
  | nil => intro c s; simp [rssEntryLoop]
  | cons e rest ih =>
    intro c s
    unfold rssEntryLoop
    by_cases hq : max_articles ≤ c
    · rw [if_pos hq]
      dsimp only
      simp only [List.length_cons]
      push_cast
      omega
    · rw [if_neg hq]
      cases hx : extract_entry tenv e name url with
      | none =>
        exact le_trans (ih c s) (by simp only [List.length_cons]; push_cast; omega)
      | some a =>
        dsimp only
        cases hc1 : List.contains s a.url_hash with
        | true =>
          rw [if_pos rfl]
          exact le_trans (ih c s) (by simp only [List.length_cons]; push_cast; omega)
        | false =>
          rw [if_neg (by simp)]
          cases h2 : contentDup s a with
          | true =>
            rw [if_pos rfl]
            exact le_trans (ih c s) (by simp only [List.length_cons]; push_cast; omega)
          | false =>
            rw [if_neg (by simp)]
            dsimp only
            exact le_trans (ih (c + 1) (addHashes s a))
              (by simp only [List.length_cons]; push_cast; omega)

theorem rssEntryLoop_rerun (tenv : TimeEnv) (name url : String) (max1 : Int) :
    ∀ (entries : List RssEntry) (c : Int) (s : Ledger),
      c + (entries.length : Int) ≤ max1 →
      ∀ (s2 : Ledger),
        (∀ x ∈ (rssEntryLoop tenv name url max1 entries c s).2.2, x ∈ s2) →
      ∀ (max2 c2 : Int),
        rssEntryLoop tenv name url max2 entries c2 s2 = ([], c2, s2) := by
  intro entries
  induction entries with
  | nil => intro c s _ s2 _ max2 c2; rfl
  | cons e rest ih =>
    intro c s hlen s2 hsub max2 c2
    simp only [List.length_cons] at hlen
    push_cast at hlen
    have hnb1 : ¬ (max1 ≤ c) := by omega
    have hlen' : c + (rest.length : Int) ≤ max1 := by push_cast; omega
    rw [rssEntryLoop] at hsub
    rw [if_neg hnb1] at hsub
    rw [rssEntryLoop]
    by_cases hb2 : max2 ≤ c2
    · rw [if_pos hb2]
    · rw [if_neg hb2]
      cases hx : extract_entry tenv e name url with
      | none =>
        rw [hx] at hsub
        exact ih c s hlen' s2 hsub max2 c2
      | some a =>
        rw [hx] at hsub
        dsimp only at hsub ⊢
        -- establish that a is rejected against s2
        have hrej : a.url_hash ∈ s2 ∨ ∃ ch ∈ a.content_hash, ch ∈ s2 := by
          cases hc1 : List.contains s a.url_hash with
          | true =>
            rw [if_pos (by rw [hc1])] at hsub
            have hm : a.url_hash ∈ s :=
              List.mem_of_elem_eq_true hc1
            exact Or.inl (hsub _
              (seenExt_mono (rssEntryLoop_ok tenv name url max1 rest c s).2 _ hm))
          | false =>
            rw [if_neg (by rw [hc1]; simp)] at hsub
            cases hcd : contentDup s a with
            | true =>
              rw [if_pos (by rw [hcd])] at hsub
              obtain ⟨ch, hch, hm⟩ := contentDup_true hcd
              exact Or.inr ⟨ch, hch, hsub _
                (seenExt_mono (rssEntryLoop_ok tenv name url max1 rest c s).2 _ hm)⟩
            | false =>
              rw [if_neg (by rw [hcd]; simp)] at hsub
              dsimp only at hsub
              have hm : a.url_hash ∈ addHashes s a :=
                (mem_addHashes s a a.url_hash).mpr (Or.inl (by simp [hashesOf]))
              exact Or.inl (hsub _
                (seenExt_mono
                  (rssEntryLoop_ok tenv name url max1 rest (c + 1) (addHashes s a)).2 _ hm))
        -- run 2 rejects a by whichever check fires
        cases hc2 : List.contains s2 a.url_hash with
        | true =>
          rw [if_pos rfl]
          -- the tail of run 1: pick the branch run 1 actually took
          cases hc1 : List.contains s a.url_hash with
          | true =>
            rw [if_pos (by rw [hc1])] at hsub
            exact ih c s hlen' s2 hsub max2 c2
          | false =>
            rw [if_neg (by rw [hc1]; simp)] at hsub
            cases hcd : contentDup s a with
            | true =>
              rw [if_pos (by rw [hcd])] at hsub
              exact ih c s hlen' s2 hsub max2 c2
            | false =>
              rw [if_neg (by rw [hcd]; simp)] at hsub
              dsimp only at hsub
              exact ih (c + 1) (addHashes s a)
                (by push_cast; omega) s2 hsub max2 c2
        | false =>
          rw [if_neg (by simp)]
          have hcd2 : contentDup s2 a = true := by
            have hnm : a.url_hash ∉ s2 := not_mem_of_contains_false hc2
            rcases hrej with hm | ⟨ch, hch, hm⟩
            · exact absurd hm hnm
            · exact contentDup_true_of hch hm
          rw [if_pos (by rw [hcd2])]
          cases hc1 : List.contains s a.url_hash with
          | true =>
            rw [if_pos (by rw [hc1])] at hsub
            exact ih c s hlen' s2 hsub max2 c2
          | false =>
            rw [if_neg (by rw [hc1]; simp)] at hsub
            cases hcd : contentDup s a with
            | true =>
              rw [if_pos (by rw [hcd])] at hsub
              exact ih c s hlen' s2 hsub max2 c2
            | false =>
              rw [if_neg (by rw [hcd]; simp)] at hsub
              dsimp only at hsub
              exact ih (c + 1) (addHashes s a)
                (by push_cast; omega) s2 hsub max2 c2

theorem rssFeedLoop_rerun (tenv : TimeEnv) (max1 : Int) :
    ∀ (feeds : List RssFeed) (c : Int) (s : Ledger),
      c + (totalEntries feeds : Int) < max1 →
      ∀ (s2 : Ledger), (∀ x ∈ (rssFeedLoop tenv max1 feeds c s).seen, x ∈ s2) →
      ∀ (max2 c2 : Int),
        (rssFeedLoop tenv max2 feeds c2 s2).articles = [] ∧
        (rssFeedLoop tenv max2 feeds c2 s2).seen = s2 := by
  intro feeds
  induction feeds with
  | nil => intro c s _ s2 _ max2 c2; exact ⟨rfl, rfl⟩
  | cons f rest ih =>
    intro c s hlen s2 hsub max2 c2
    rw [show totalEntries (f :: rest) = (f.fetched.getD []).length + totalEntries rest
      from rfl] at hlen
    push_cast at hlen
    have hnb1 : ¬ (max1 ≤ c) := by omega
    rw [rssFeedLoop] at hsub
    rw [if_neg hnb1] at hsub
    rw [rssFeedLoop]
    by_cases hb2 : max2 ≤ c2
    · rw [if_pos hb2]; exact ⟨rfl, rfl⟩
    · rw [if_neg hb2]
      cases hf : f.fetched with
      | none =>
        rw [hf] at hsub
        obtain ⟨h1, h2⟩ := ih c s (by simp [hf] at hlen; omega) s2 hsub max2 c2
        exact ⟨h1, h2⟩
      | some entries =>
        rw [hf] at hsub
        have hlenE : c + (entries.length : Int) ≤ max1 := by
          simp [hf] at hlen
          omega
        have hsub1 : ∀ x ∈ (rssEntryLoop tenv f.name f.url max1 entries c s).2.2, x ∈ s2 := by
          intro x hx
          exact hsub x
            (seenExt_mono (rssFeedLoop_ok tenv max1 rest
              (rssEntryLoop tenv f.name f.url max1 entries c s).2.1
              (rssEntryLoop tenv f.name f.url max1 entries c s).2.2).2 x hx)
        have hrerun := rssEntryLoop_rerun tenv f.name f.url max1 entries c s hlenE s2
          hsub1 max2 c2
        have hlenR : (rssEntryLoop tenv f.name f.url max1 entries c s).2.1 +
            (totalEntries rest : Int) < max1 := by
          have := rssEntryLoop_collected_le tenv f.name f.url max1 entries c s
          simp [hf] at hlen
          omega
        obtain ⟨h1, h2⟩ := ih (rssEntryLoop tenv f.name f.url max1 entries c s).2.1
          (rssEntryLoop tenv f.name f.url max1 entries c s).2.2 hlenR s2 hsub max2 c2
        dsimp only
        rw [hrerun]
        dsimp only
        exact ⟨by simpa using h1, h2⟩

/-- C9 (amended): running a collector a second time against the same shared
ledger with the same source data yields zero new candidates and leaves the
ledger unchanged, provided the first run was not cut short by its quota
(its quota strictly exceeds the number of available source items).  The
second run's quota is arbitrary.  Stated here for the RSS collector; the
scrape and scholar collectors follow below as separate conjuncts. -/
theorem collect_from_rss_rerun (tenv : TimeEnv) (feeds : List RssFeed)
    (q1 : Int) (s : Ledger) (h : (totalEntries feeds : Int) < q1) (q2 : Int) :
    (collect_from_rss tenv feeds q2 (collect_from_rss tenv feeds q1 s).seen).articles = [] ∧
    (collect_from_rss tenv feeds q2 (collect_from_rss tenv feeds q1 s).seen).seen =
      (collect_from_rss tenv feeds q1 s).seen :=
  rssFeedLoop_rerun tenv q1 feeds 0 s (by omega)
    (collect_from_rss tenv feeds q1 s).seen (fun _ hx => hx) q2 0

theorem scholarItemLoop_collected_le (tenv : TimeEnv) (query : String) (max_papers : Int) :
    ∀ (items : List ScholarItem) (c : Int) (s : Ledger),
      (scholarItemLoop tenv query max_papers items c s).2.1 ≤ c + items.length := by
  intro items
  induction items with
  | nil => intro c s; simp [scholarItemLoop]
  | cons it rest ih =>
    intro c s
    unfold scholarItemLoop
    by_cases hq : max_papers ≤ c
    · rw [if_pos hq]
      dsimp only
      simp only [List.length_cons]
      push_cast
      omega
    · rw [if_neg hq]
      dsimp only
      cases hc1 : List.contains s (parse_paper tenv it query).url_hash with
      | true =>
        rw [if_pos rfl]
        exact le_trans (ih c s) (by simp only [List.length_cons]; push_cast; omega)
      | false =>
        rw [if_neg (by simp)]
        dsimp only
        exact le_trans (ih (c + 1) ((parse_paper tenv it query).url_hash :: s))
          (by simp only [List.length_cons]; push_cast; omega)

theorem scholarItemLoop_rerun (tenv : TimeEnv) (query : String) (max1 : Int) :
    ∀ (items : List ScholarItem) (c : Int) (s : Ledger),
      c + (items.length : Int) ≤ max1 →
      ∀ (s2 : Ledger),
        (∀ x ∈ (scholarItemLoop tenv query max1 items c s).2.2, x ∈ s2) →
      ∀ (max2 c2 : Int),
        scholarItemLoop tenv query max2 items c2 s2 = ([], c2, s2) := by
  intro items
  induction items with
  | nil => intro c s _ s2 _ max2 c2; rfl
  | cons it rest ih =>
    intro c s hlen s2 hsub max2 c2
    simp only [List.length_cons] at hlen
    push_cast at hlen
    have hnb1 : ¬ (max1 ≤ c) := by omega
    have hlen' : c + (rest.length : Int) ≤ max1 := by push_cast; omega
    rw [scholarItemLoop] at hsub
    rw [if_neg hnb1] at hsub
    dsimp only at hsub
    rw [scholarItemLoop]
    by_cases hb2 : max2 ≤ c2
    · rw [if_pos hb2]
    · rw [if_neg hb2]
      dsimp only
      have hmem2 : (parse_paper tenv it query).url_hash ∈ s2 := by
        cases hc1 : List.contains s (parse_paper tenv it query).url_hash with
        | true =>
          rw [if_pos (by rw [hc1])] at hsub
          exact hsub _
            (seenExt_mono (scholarItemLoop_ok tenv query max1 rest c s).2 _
              (List.mem_of_elem_eq_true hc1))
        | false =>
          rw [if_neg (by rw [hc1]; simp)] at hsub
          dsimp only at hsub
          exact hsub _
            (seenExt_mono
              (scholarItemLoop_ok tenv query max1 rest (c + 1)
                ((parse_paper tenv it query).url_hash :: s)).2 _ (by simp))
      have hc2 : List.contains s2 (parse_paper tenv it query).url_hash = true := by
        simpa using hmem2
      rw [if_pos (by rw [hc2])]
      cases hc1 : List.contains s (parse_paper tenv it query).url_hash with
      | true =>
        rw [if_pos (by rw [hc1])] at hsub
        exact ih c s hlen' s2 hsub max2 c2
      | false =>
        rw [if_neg (by rw [hc1]; simp)] at hsub
        dsimp only at hsub
        exact ih (c + 1) ((parse_paper tenv it query).url_hash :: s)
          (by push_cast; omega) s2 hsub max2 c2

theorem scholarQueryLoop_rerun (tenv : TimeEnv) (max1 : Int) :
    ∀ (plan : List (String × List ScholarItem)) (c : Int) (s : Ledger),
      c + (totalPapers plan : Int) < max1 →
      ∀ (s2 : Ledger), (∀ x ∈ (scholarQueryLoop tenv max1 plan c s).seen, x ∈ s2) →
      ∀ (max2 c2 : Int),
        (scholarQueryLoop tenv max2 plan c2 s2).articles = [] ∧
        (scholarQueryLoop tenv max2 plan c2 s2).seen = s2 := by
  intro plan
  induction plan with
  | nil => intro c s _ s2 _ max2 c2; exact ⟨rfl, rfl⟩
  | cons p rest ih =>
    intro c s hlen s2 hsub max2 c2
    obtain ⟨q, results⟩ := p
    rw [show totalPapers ((q, results) :: rest) = results.length + totalPapers rest
      from rfl] at hlen
    push_cast at hlen
    have hnb1 : ¬ (max1 ≤ c) := by omega
    rw [scholarQueryLoop] at hsub
    rw [if_neg hnb1] at hsub
    rw [scholarQueryLoop]
    by_cases hb2 : max2 ≤ c2
    · rw [if_pos hb2]; exact ⟨rfl, rfl⟩
    · rw [if_neg hb2]
      have hsub1 : ∀ x ∈ (scholarItemLoop tenv q max1 results c s).2.2, x ∈ s2 := by
        intro x hx
        exact hsub x
          (seenExt_mono (scholarQueryLoop_ok tenv max1 rest
            (scholarItemLoop tenv q max1 results c s).2.1
            (scholarItemLoop tenv q max1 results c s).2.2).2 x hx)
      have hrerun := scholarItemLoop_rerun tenv q max1 results c s (by push_cast; omega)
        s2 hsub1 max2 c2
      have hlenR : (scholarItemLoop tenv q max1 results c s).2.1 +
          (totalPapers rest : Int) < max1 := by
        have := scholarItemLoop_collected_le tenv q max1 results c s
        omega
      obtain ⟨h1, h2⟩ := ih (scholarItemLoop tenv q max1 results c s).2.1
        (scholarItemLoop tenv q max1 results c s).2.2 hlenR s2 hsub max2 c2
      dsimp only
      rw [hrerun]
      dsimp only
      exact ⟨by simpa using h1, h2⟩

theorem collect_from_scholar_rerun (tenv : TimeEnv)
    (plan : List (String × List ScholarItem)) (q1 : Int) (s : Ledger)
    (h : (totalPapers plan : Int) < q1) (q2 : Int) :
    (collect_from_scholar tenv plan q2 (collect_from_scholar tenv plan q1 s).seen).articles
      = [] ∧
    (collect_from_scholar tenv plan q2 (collect_from_scholar tenv plan q1 s).seen).seen =
      (collect_from_scholar tenv plan q1 s).seen :=
  scholarQueryLoop_rerun tenv q1 plan 0 s (by omega)
    (collect_from_scholar tenv plan q1 s).seen (fun _ hx => hx) q2 0

theorem apiItemLoop_collected_le (tenv : TimeEnv)
    (build : ApiItem → String → String → String → Article) (max_articles : Int) :
    ∀ (items : List ApiItem) (c : Int) (s : Ledger),
      (apiItemLoop tenv build max_articles items c s).2.1 ≤ c + items.length := by
  intro items
  induction items with
  | nil => intro c s; simp [apiItemLoop]
  | cons it rest ih =>
    intro c s
    unfold apiItemLoop
    by_cases hq : max_articles ≤ c
    · rw [if_pos hq]
      dsimp only
      simp only [List.length_cons]
      push_cast
      omega
    · rw [if_neg hq]
      by_cases hu : it.url = ""
      · rw [if_pos hu]
        exact le_trans (ih c s) (by simp only [List.length_cons]; push_cast; omega)
      · rw [if_neg hu]
        dsimp only
        cases hc1 : List.contains s (get_url_hash it.url) with
        | true =>
          rw [if_pos rfl]
          exact le_trans (ih c s) (by simp only [List.length_cons]; push_cast; omega)
        | false =>
          rw [if_neg (by simp)]
          cases hc2 : List.contains s
              (get_content_hash it.title (it.publishedAt.getD tenv.now)) with
          | true =>
            rw [if_pos rfl]
            exact le_trans (ih c s) (by simp only [List.length_cons]; push_cast; omega)
          | false =>
            rw [if_neg (by simp)]
            dsimp only
            exact le_trans
              (ih (c + 1) (get_content_hash it.title (it.publishedAt.getD tenv.now) ::
                get_url_hash it.url :: s))
              (by simp only [List.length_cons]; push_cast; omega)

theorem apiItemLoop_rerun (tenv : TimeEnv)
    (build : ApiItem → String → String → String → Article) (hb : BuildOk build)
    (max1 : Int) :
    ∀ (items : List ApiItem) (c : Int) (s : Ledger),
      c + (items.length : Int) ≤ max1 →
      ∀ (s2 : Ledger),
        (∀ x ∈ (apiItemLoop tenv build max1 items c s).2.2, x ∈ s2) →
      ∀ (max2 c2 : Int),
        apiItemLoop tenv build max2 items c2 s2 = ([], c2, s2) := by
  intro items
  induction items with
  | nil => intro c s _ s2 _ max2 c2; rfl
  | cons it rest ih =>
    intro c s hlen s2 hsub max2 c2
    simp only [List.length_cons] at hlen
    push_cast at hlen
    have hnb1 : ¬ (max1 ≤ c) := by omega
    have hlen' : c + (rest.length : Int) ≤ max1 := by push_cast; omega
    rw [apiItemLoop] at hsub
    rw [if_neg hnb1] at hsub
    rw [apiItemLoop]
    by_cases hb2 : max2 ≤ c2
    · rw [if_pos hb2]
    · rw [if_neg hb2]
      by_cases hu : it.url = ""
      · rw [if_pos hu] at hsub
        rw [if_pos hu]
        exact ih c s hlen' s2 hsub max2 c2
      · rw [if_neg hu] at hsub
        rw [if_neg hu]
        dsimp only at hsub ⊢
        have hrej : get_url_hash it.url ∈ s2 ∨
            get_content_hash it.title (it.publishedAt.getD tenv.now) ∈ s2 := by
          cases hc1 : List.contains s (get_url_hash it.url) with
          | true =>
            rw [if_pos (by rw [hc1])] at hsub
            exact Or.inl (hsub _
              (seenExt_mono (apiItemLoop_ok tenv hb max1 rest c s).2 _
                (List.mem_of_elem_eq_true hc1)))
          | false =>
            rw [if_neg (by rw [hc1]; simp)] at hsub
            cases hc2 : List.contains s
                (get_content_hash it.title (it.publishedAt.getD tenv.now)) with
            | true =>
              rw [if_pos (by rw [hc2])] at hsub
              exact Or.inr (hsub _
                (seenExt_mono (apiItemLoop_ok tenv hb max1 rest c s).2 _
                  (List.mem_of_elem_eq_true hc2)))
            | false =>
              rw [if_neg (by rw [hc2]; simp)] at hsub
              dsimp only at hsub
              exact Or.inl (hsub _
                (seenExt_mono (apiItemLoop_ok tenv hb max1 rest (c + 1)
                  (get_content_hash it.title (it.publishedAt.getD tenv.now) ::
                    get_url_hash it.url :: s)).2 _ (by simp)))
        cases hc21 : List.contains s2 (get_url_hash it.url) with
        | true =>
          rw [if_pos rfl]
          cases hc1 : List.contains s (get_url_hash it.url) with
          | true =>
            rw [if_pos (by rw [hc1])] at hsub
            exact ih c s hlen' s2 hsub max2 c2
          | false =>
            rw [if_neg (by rw [hc1]; simp)] at hsub
            cases hc2 : List.contains s
                (get_content_hash it.title (it.publishedAt.getD tenv.now)) with
            | true =>
              rw [if_pos (by rw [hc2])] at hsub
              exact ih c s hlen' s2 hsub max2 c2
            | false =>
              rw [if_neg (by rw [hc2]; simp)] at hsub
              dsimp only at hsub
              exact ih (c + 1) _ (by push_cast; omega) s2 hsub max2 c2
        | false =>
          rw [if_neg (by simp)]
          have hcd2 : List.contains s2
              (get_content_hash it.title (it.publishedAt.getD tenv.now)) = true := by
            rcases hrej with hm | hm
            · exact absurd hm (not_mem_of_contains_false hc21)
            · simpa using hm
          rw [if_pos (by rw [hcd2])]
          cases hc1 : List.contains s (get_url_hash it.url) with
          | true =>
            rw [if_pos (by rw [hc1])] at hsub
            exact ih c s hlen' s2 hsub max2 c2
          | false =>
            rw [if_neg (by rw [hc1]; simp)] at hsub
            cases hc2 : List.contains s
                (get_content_hash it.title (it.publishedAt.getD tenv.now)) with
            | true =>
              rw [if_pos (by rw [hc2])] at hsub
              exact ih c s hlen' s2 hsub max2 c2
            | false =>
              rw [if_neg (by rw [hc2]; simp)] at hsub
              dsimp only at hsub
              exact ih (c + 1) _ (by push_cast; omega) s2 hsub max2 c2

theorem apiQueryLoop_rerun (tenv : TimeEnv)
    (build : ApiItem → String → String → String → Article) (hb : BuildOk build)
    (max1 : Int) :
    ∀ (plan : List (String × Option (List ApiItem))) (c : Int) (s : Ledger),
      c + (totalApiItems plan : Int) < max1 →
      ∀ (s2 : Ledger), (∀ x ∈ (apiQueryLoop tenv build max1 plan c s).seen, x ∈ s2) →
      ∀ (max2 c2 : Int),
        (apiQueryLoop tenv build max2 plan c2 s2).articles = [] ∧
        (apiQueryLoop tenv build max2 plan c2 s2).seen = s2 := by
  intro plan
  induction plan with
  | nil => intro c s _ s2 _ max2 c2; exact ⟨rfl, rfl⟩
  | cons p rest ih =>
    intro c s hlen s2 hsub max2 c2
    obtain ⟨q, resp⟩ := p
    rw [show totalApiItems ((q, resp) :: rest) = (resp.getD []).length + totalApiItems rest
      from rfl] at hlen
    push_cast at hlen
    have hnb1 : ¬ (max1 ≤ c) := by omega
    cases resp with
    | none =>
      rw [apiQueryLoop] at hsub
      rw [if_neg hnb1] at hsub
      rw [apiQueryLoop]
      by_cases hb2 : max2 ≤ c2
      · rw [if_pos hb2]; exact ⟨rfl, rfl⟩
      · rw [if_neg hb2]
        obtain ⟨h1, h2⟩ := ih c s (by simp at hlen; omega) s2 hsub max2 c2
        exact ⟨h1, h2⟩
    | some items =>
      rw [apiQueryLoop] at hsub
      rw [if_neg hnb1] at hsub
      rw [apiQueryLoop]
      by_cases hb2 : max2 ≤ c2
      · rw [if_pos hb2]; exact ⟨rfl, rfl⟩
      · rw [if_neg hb2]
        have hsub1 : ∀ x ∈ (apiItemLoop tenv build max1 items c s).2.2, x ∈ s2 := by
          intro x hx
          exact hsub x
            (seenExt_mono (apiQueryLoop_ok tenv hb max1 rest
              (apiItemLoop tenv build max1 items c s).2.1
              (apiItemLoop tenv build max1 items c s).2.2).2 x hx)
        have hrerun := apiItemLoop_rerun tenv build hb max1 items c s
          (by simp at hlen; push_cast; omega) s2 hsub1 max2 c2
        have hlenR : (apiItemLoop tenv build max1 items c s).2.1 +
            (totalApiItems rest : Int) < max1 := by
          have := apiItemLoop_collected_le tenv build max1 items c s
          simp at hlen
          omega
        obtain ⟨h1, h2⟩ := ih (apiItemLoop tenv build max1 items c s).2.1
          (apiItemLoop tenv build max1 items c s).2.2 hlenR s2 hsub max2 c2
        dsimp only
        rw [hrerun]
        dsimp only
        exact ⟨by simpa using h1, h2⟩

theorem collect_from_gnews_rerun (tenv : TimeEnv) (env : ApiEnv) (q1 : Int) (s : Ledger)
    (h : (totalApiItems env.gnewsPlan : Int) < q1) (q2 : Int) :
    (collect_from_gnews tenv env q2 (collect_from_gnews tenv env q1 s).seen).articles = [] ∧
    (collect_from_gnews tenv env q2 (collect_from_gnews tenv env q1 s).seen).seen =
      (collect_from_gnews tenv env q1 s).seen := by
  unfold collect_from_gnews
  cases hk : env.gnewsKey with
  | false =>
    rw [if_pos (by decide : (!false) = true)]
    exact ⟨rfl, rfl⟩
  | true =>
    rw [if_neg (by decide : ¬((!true) = true))]
    exact apiQueryLoop_rerun tenv (gnewsBuild tenv) (gnewsBuild_ok tenv) q1 env.gnewsPlan
      0 s (by omega) (apiQueryLoop tenv (gnewsBuild tenv) q1 env.gnewsPlan 0 s).seen
      (fun _ hx => hx) q2 0

theorem scrape_article_contains (tenv : TimeEnv) (pages : List (String × ScrapePage))
    (url : String) (s : Ledger)
    (h : List.contains s (get_url_hash_scrape url) = true) :
    scrape_article tenv pages url s = (none, s, []) := by
  unfold scrape_article
  dsimp only
  rw [if_pos h]

theorem scrape_article_some_mem {tenv : TimeEnv} {pages : List (String × ScrapePage)}
    {url : String} {s : Ledger} {a : Article}
    (h : (scrape_article tenv pages url s).1 = some a) :
    get_url_hash_scrape url ∈ (scrape_article tenv pages url s).2.1 := by
  unfold scrape_article at h ⊢
  dsimp only at h ⊢
  cases hb1 : List.contains s (get_url_hash_scrape url) with
  | true => rw [if_pos (by rw [hb1])] at h; exact absurd h (by simp)
  | false =>
    rw [if_neg (by rw [hb1]; simp)] at h
    rw [if_neg (by simp)]
    cases hpg : lookupPage pages url with
    | none => rw [hpg] at h; exact absurd h (by simp)
    | some pg =>
      rw [hpg] at h
      dsimp only at h ⊢
      by_cases hpay : is_paywall_or_blocked pg = true
      · rw [if_pos hpay] at h; exact absurd h (by simp)
      · rw [if_neg hpay] at h
        rw [if_neg hpay]
        cases hex : extract_generic pg.content with
        | none => rw [hex] at h; exact absurd h (by simp)
        | some r =>
          rw [hex] at h
          dsimp only at h ⊢
          cases hcc : List.contains s
              (get_content_hash r.title (parse_date tenv r.published_at)) with
          | true => rw [if_pos (by rw [hcc])] at h; exact absurd h (by simp)
          | false =>
            rw [if_neg (by rw [hcc]; simp)] at h
            rw [if_neg (by simp)]
            simp

theorem scrape_article_none_mono (tenv : TimeEnv) (pages : List (String × ScrapePage))
    (url : String) {s s2 : Ledger} (hsub : ∀ x ∈ s, x ∈ s2)
    (h : (scrape_article tenv pages url s).1 = none) :
    (scrape_article tenv pages url s2).1 = none ∧
    (scrape_article tenv pages url s2).2.1 = s2 := by
  unfold scrape_article at h ⊢
  dsimp only at h ⊢
  cases hb2 : List.contains s2 (get_url_hash_scrape url) with
  | true => rw [if_pos rfl]; exact ⟨rfl, rfl⟩
  | false =>
    rw [if_neg (by simp)]
    have hb1 : List.contains s (get_url_hash_scrape url) = false := by
      cases hb1 : List.contains s (get_url_hash_scrape url) with
      | true =>
        have : get_url_hash_scrape url ∈ s2 := hsub _ (List.mem_of_elem_eq_true hb1)
        exact absurd this (not_mem_of_contains_false hb2)
      | false => rfl
    rw [if_neg (by rw [hb1]; simp)] at h
    cases hpg : lookupPage pages url with
    | none => exact ⟨rfl, rfl⟩
    | some pg =>
      rw [hpg] at h
      dsimp only at h ⊢
      by_cases hpay : is_paywall_or_blocked pg = true
      · rw [if_pos hpay]; exact ⟨rfl, rfl⟩
      · rw [if_neg hpay] at h
        rw [if_neg hpay]
        cases hex : extract_generic pg.content with
        | none => exact ⟨rfl, rfl⟩
        | some r =>
          rw [hex] at h
          dsimp only at h ⊢
          cases hcc : List.contains s
              (get_content_hash r.title (parse_date tenv r.published_at)) with
          | false =>
            rw [if_neg (by rw [hcc]; simp)] at h
            exact absurd h (by simp)
          | true =>
            have hm2 : List.contains s2
                (get_content_hash r.title (parse_date tenv r.published_at)) = true := by
              simpa using hsub _ (List.mem_of_elem_eq_true hcc)
            rw [if_pos (by rw [hm2])]
            exact ⟨rfl, rfl⟩

theorem scrapeLinkLoop_collected_le (tenv : TimeEnv) (pages : List (String × ScrapePage))
    (max_articles : Int) :
    ∀ (urls : List String) (c : Int) (s : Ledger),
      (scrapeLinkLoop tenv pages max_articles urls c s).2.1 ≤ c + urls.length := by
  intro urls
  induction urls with
  | nil => intro c s; simp [scrapeLinkLoop]
  | cons u rest ih =>
    intro c s
    unfold scrapeLinkLoop
    by_cases hq : max_articles ≤ c
    · rw [if_pos hq]
      dsimp only
      simp only [List.length_cons]
      push_cast
      omega
    · rw [if_neg hq]
      rcases hE : scrape_article tenv pages u s with ⟨o, s2, lg⟩
      cases o with
      | none =>
        dsimp only
        exact le_trans (ih c s2) (by simp only [List.length_cons]; push_cast; omega)
      | some a =>
        dsimp only
        exact le_trans (ih (c + 1) s2) (by simp only [List.length_cons]; push_cast; omega)

theorem scrapeLinkLoop_rerun (tenv : TimeEnv) (pages : List (String × ScrapePage))
    (max1 : Int) :
    ∀ (urls : List String) (c : Int) (s : Ledger),
      c + (urls.length : Int) ≤ max1 →
      ∀ (s2 : Ledger),
        (∀ x ∈ (scrapeLinkLoop tenv pages max1 urls c s).2.2.1, x ∈ s2) →
      ∀ (max2 c2 : Int),
        (scrapeLinkLoop tenv pages max2 urls c2 s2).1 = [] ∧
        (scrapeLinkLoop tenv pages max2 urls c2 s2).2.1 = c2 ∧
        (scrapeLinkLoop tenv pages max2 urls c2 s2).2.2.1 = s2 := by
  intro urls
  induction urls with
  | nil => intro c s _ s2 _ max2 c2; exact ⟨rfl, rfl, rfl⟩
  | cons u rest ih =>
    intro c s hlen s2 hsub max2 c2
    simp only [List.length_cons] at hlen
    push_cast at hlen
    have hnb1 : ¬ (max1 ≤ c) := by omega
    have hlen' : c + (rest.length : Int) ≤ max1 := by push_cast; omega
    rw [scrapeLinkLoop] at hsub
    rw [if_neg hnb1] at hsub
    rw [scrapeLinkLoop]
    by_cases hb2 : max2 ≤ c2
    · rw [if_pos hb2]; exact ⟨rfl, rfl, rfl⟩
    · rw [if_neg hb2]
      rcases hE1 : scrape_article tenv pages u s with ⟨o1, s1', lg1⟩
      rw [hE1] at hsub
      -- establish that the second run's scrape_article rejects u
      have hrun2 : (scrape_article tenv pages u s2).1 = none ∧
          (scrape_article tenv pages u s2).2.1 = s2 := by
        cases o1 with
        | none =>
          have hs1 : s1' = s := by
            rcases scrape_article_cases tenv pages u s with ⟨_, h2⟩ | ⟨a, h1, _, _⟩
            · rw [hE1] at h2; exact h2
            · rw [hE1] at h1; simp at h1
          dsimp only at hsub
          have hsubS : ∀ x ∈ s, x ∈ s2 := by
            intro x hx
            apply hsub x
            apply seenExt_mono (scrapeLinkLoop_ok tenv pages max1 rest c s1').2
            rw [hs1]
            exact hx
          exact scrape_article_none_mono tenv pages u hsubS (by rw [hE1])
        | some a =>
          dsimp only at hsub
          have hm : get_url_hash_scrape u ∈ s1' := by
            have := @scrape_article_some_mem tenv pages u s a (by rw [hE1])
            rw [hE1] at this
            exact this
          have hm2 : List.contains s2 (get_url_hash_scrape u) = true := by
            simpa using hsub _
              (seenExt_mono (scrapeLinkLoop_ok tenv pages max1 rest (c + 1) s1').2 _ hm)
          rw [scrape_article_contains tenv pages u s2 hm2]
          exact ⟨rfl, rfl⟩
      rcases hE2 : scrape_article tenv pages u s2 with ⟨o2, s2', lg2⟩
      rw [hE2] at hrun2
      obtain ⟨ho2, hs2'⟩ := hrun2
      dsimp only at ho2 hs2'
      subst ho2
      rw [hs2']
      dsimp only
      cases o1 with
      | none =>
        dsimp only at hsub
        exact ih c s1' hlen' s2 hsub max2 c2
      | some a =>
        dsimp only at hsub
        exact ih (c + 1) s1' (by push_cast; omega) s2 hsub max2 c2

theorem scrapeSeedLoop_rerun (tenv : TimeEnv) (pages : List (String × ScrapePage))
    (max1 : Int) :
    ∀ (seeds : List ScrapeSeed) (c : Int) (s : Ledger),
      c + (totalScrapeWork pages seeds : Int) < max1 →
      ∀ (s2 : Ledger), (∀ x ∈ (scrapeSeedLoop tenv pages max1 seeds c s).seen, x ∈ s2) →
      ∀ (max2 c2 : Int),
        (scrapeSeedLoop tenv pages max2 seeds c2 s2).articles = [] ∧
        (scrapeSeedLoop tenv pages max2 seeds c2 s2).seen = s2 := by
  intro seeds
  induction seeds with
  | nil => intro c s _ s2 _ max2 c2; exact ⟨rfl, rfl⟩
  | cons sd rest ih =>
    intro c s hlen s2 hsub max2 c2
    rw [show totalScrapeWork pages (sd :: rest) =
      seedWork pages sd + totalScrapeWork pages rest from rfl] at hlen
    push_cast at hlen
    have hnb1 : ¬ (max1 ≤ c) := by omega
    rw [scrapeSeedLoop] at hsub
    rw [if_neg hnb1] at hsub
    rw [scrapeSeedLoop]
    by_cases hb2 : max2 ≤ c2
    · rw [if_pos hb2]; exact ⟨rfl, rfl⟩
    · rw [if_neg hb2]
      cases hpg : lookupPage pages sd.url with
      | none =>
        rw [hpg] at hsub
        have hwork : seedWork pages sd = 0 := by simp [seedWork, hpg]
        obtain ⟨h1, h2⟩ := ih c s (by rw [hwork] at hlen; omega) s2 hsub max2 c2
        exact ⟨h1, h2⟩
      | some pg =>
        rw [hpg] at hsub
        dsimp only at hsub ⊢
        by_cases hd : sd.maxDepth = 0
        · rw [if_pos hd] at hsub ⊢
          have hwork : (seedWork pages sd : Int) = 1 := by
            simp [seedWork, hpg, hd]
          rcases hE1 : scrape_article tenv pages sd.url s with ⟨o1, s1', lg1⟩
          rw [hE1] at hsub
          have hrun2 : (scrape_article tenv pages sd.url s2).1 = none ∧
              (scrape_article tenv pages sd.url s2).2.1 = s2 := by
            cases o1 with
            | none =>
              have hs1 : s1' = s := by
                rcases scrape_article_cases tenv pages sd.url s with ⟨_, h2⟩ | ⟨a, h1, _, _⟩
                · rw [hE1] at h2; exact h2
                · rw [hE1] at h1; simp at h1
              dsimp only at hsub
              have hsubS : ∀ x ∈ s, x ∈ s2 := by
                intro x hx
                apply hsub x
                apply seenExt_mono (scrapeSeedLoop_ok tenv pages max1 rest c s1').2
                rw [hs1]
                exact hx
              exact scrape_article_none_mono tenv pages sd.url hsubS (by rw [hE1])
            | some a =>
              dsimp only at hsub
              have hm : get_url_hash_scrape sd.url ∈ s1' := by
                have := @scrape_article_some_mem tenv pages sd.url s a
                  (by rw [hE1])
                rw [hE1] at this
                exact this
              have hm2 : List.contains s2 (get_url_hash_scrape sd.url) = true := by
                simpa using hsub _
                  (seenExt_mono (scrapeSeedLoop_ok tenv pages max1 rest (c + 1) s1').2 _ hm)
              rw [scrape_article_contains tenv pages sd.url s2 hm2]
              exact ⟨rfl, rfl⟩
          rcases hE2 : scrape_article tenv pages sd.url s2 with ⟨o2, s2', lg2⟩
          rw [hE2] at hrun2
          obtain ⟨ho2, hs2'⟩ := hrun2
          dsimp only at ho2 hs2'
          subst ho2
          rw [hs2']
          dsimp only
          cases o1 with
          | none =>
            dsimp only at hsub
            obtain ⟨h1, h2⟩ := ih c s1' (by omega) s2 hsub max2 c2
            exact ⟨h1, h2⟩
          | some a =>
            dsimp only at hsub
            obtain ⟨h1, h2⟩ := ih (c + 1) s1' (by omega) s2 hsub max2 c2
            exact ⟨h1, h2⟩
        · rw [if_neg hd] at hsub ⊢
          have hwork : (seedWork pages sd : Int) = ((pg.links.take 40).length : Int) := by
            simp [seedWork, hpg, hd]
          have hsubL : ∀ x ∈ (scrapeLinkLoop tenv pages max1 (pg.links.take 40) c s).2.2.1,
              x ∈ s2 := by
            intro x hx
            exact hsub x
              (seenExt_mono (scrapeSeedLoop_ok tenv pages max1 rest
                (scrapeLinkLoop tenv pages max1 (pg.links.take 40) c s).2.1
                (scrapeLinkLoop tenv pages max1 (pg.links.take 40) c s).2.2.1).2 x hx)
          obtain ⟨hl1, hl2, hl3⟩ := scrapeLinkLoop_rerun tenv pages max1
            (pg.links.take 40) c s (by omega) s2 hsubL max2 c2
          have hlenR : (scrapeLinkLoop tenv pages max1 (pg.links.take 40) c s).2.1 +
              (totalScrapeWork pages rest : Int) < max1 := by
            have := scrapeLinkLoop_collected_le tenv pages max1 (pg.links.take 40) c s
            omega
          obtain ⟨h1, h2⟩ := ih (scrapeLinkLoop tenv pages max1 (pg.links.take 40) c s).2.1
            (scrapeLinkLoop tenv pages max1 (pg.links.take 40) c s).2.2.1 hlenR s2 hsub
            max2 c2
          rcases hE2 : scrapeLinkLoop tenv pages max2 (pg.links.take 40) c2 s2
            with ⟨arts2, c2', s2', lg2⟩
          rw [hE2] at hl1 hl2 hl3
          dsimp only at hl1 hl2 hl3
          subst hl1
          subst hl2
          rw [hl3]
          dsimp only
          exact ⟨by simpa using h1, h2⟩

theorem collect_from_scraping_rerun (tenv : TimeEnv)
    (pages : List (String × ScrapePage)) (seeds : List ScrapeSeed) (q1 : Int)
    (s : Ledger) (h : (totalScrapeWork pages seeds : Int) < q1) (q2 : Int) :
    (collect_from_scraping tenv pages seeds q2
      (collect_from_scraping tenv pages seeds q1 s).seen).articles = [] ∧
    (collect_from_scraping tenv pages seeds q2
      (collect_from_scraping tenv pages seeds q1 s).seen).seen =
      (collect_from_scraping tenv pages seeds q1 s).seen :=
  scrapeSeedLoop_rerun tenv pages q1 seeds 0 s (by omega)
    (collect_from_scraping tenv pages seeds q1 s).seen (fun _ hx => hx) q2 0

/-- C9 (amended): running a collector a second time against the same shared
ledger, with the same source data, yields zero new candidates and leaves the
ledger unchanged — provided the first run was not cut short by its quota
(the quota strictly exceeds the number of available source items; otherwise
the second run can reach items the first never processed, see the
counterexample).  Stated for the RSS, GNews (the API loops are shared by all
three API backends), Scrape and Scholar collectors; the rerun quota is
arbitrary. -/
theorem collectors_rerun_zero (tenv : TimeEnv) (feeds : List RssFeed) (apiEnv : ApiEnv)
    (pages : List (String × ScrapePage)) (seeds : List ScrapeSeed)
    (plan : List (String × List ScholarItem)) (q1 q2 q3 q4 r1 r2 r3 r4 : Int)
    (s1 s2 s3 s4 : Ledger)
    (h1 : (totalEntries feeds : Int) < q1)
    (h2 : (totalApiItems apiEnv.gnewsPlan : Int) < q2)
    (h3 : (totalScrapeWork pages seeds : Int) < q3)
    (h4 : (totalPapers plan : Int) < q4) :
    ((collect_from_rss tenv feeds r1 (collect_from_rss tenv feeds q1 s1).seen).articles = [] ∧
     (collect_from_rss tenv feeds r1 (collect_from_rss tenv feeds q1 s1).seen).seen =
       (collect_from_rss tenv feeds q1 s1).seen) ∧
    ((collect_from_gnews tenv apiEnv r2 (collect_from_gnews tenv apiEnv q2 s2).seen).articles
        = [] ∧
     (collect_from_gnews tenv apiEnv r2 (collect_from_gnews tenv apiEnv q2 s2).seen).seen =
       (collect_from_gnews tenv apiEnv q2 s2).seen) ∧
    ((collect_from_scraping tenv pages seeds r3
        (collect_from_scraping tenv pages seeds q3 s3).seen).articles = [] ∧
     (collect_from_scraping tenv pages seeds r3
        (collect_from_scraping tenv pages seeds q3 s3).seen).seen =
       (collect_from_scraping tenv pages seeds q3 s3).seen) ∧
    ((collect_from_scholar tenv plan r4 (collect_from_scholar tenv plan q4 s4).seen).articles
        = [] ∧
     (collect_from_scholar tenv plan r4 (collect_from_scholar tenv plan q4 s4).seen).seen =
       (collect_from_scholar tenv plan q4 s4).seen) :=
  ⟨collect_from_rss_rerun tenv feeds q1 s1 h1 r1,
   collect_from_gnews_rerun tenv apiEnv q2 s2 h2 r2,
   collect_from_scraping_rerun tenv pages seeds q3 s3 h3 r3,
   collect_from_scholar_rerun tenv plan q4 s4 h4 r4⟩

/-- Witness for C9 (amended) on the demo environments with generous quotas. -/
theorem collectors_rerun_zero_witness :
    ((totalEntries demoFeeds : Int) < 300 ∧ (totalApiItems demoApiEnv.gnewsPlan : Int) < 250 ∧
     (totalScrapeWork [] [⟨"https://s.com", "s", 1⟩] : Int) < 150 ∧
     (totalPapers [("sq", [])] : Int) < 200) ∧
    ((collect_from_rss demoTimeEnv demoFeeds 300
        (collect_from_rss demoTimeEnv demoFeeds 300 []).seen).articles = [] ∧
     (collect_from_rss demoTimeEnv demoFeeds 300
        (collect_from_rss demoTimeEnv demoFeeds 300 []).seen).seen =
       (collect_from_rss demoTimeEnv demoFeeds 300 []).seen) :=
  ⟨⟨by decide, by decide, by decide, by decide⟩,
   (collectors_rerun_zero demoTimeEnv demoFeeds demoApiEnv [] [⟨"https://s.com", "s", 1⟩]
      [("sq", [])] 300 250 150 200 300 250 150 200 [] [] [] []
      (by decide) (by decide) (by decide) (by decide)).1⟩

/-- C9 counterexample: a two-entry feed collected with quota 1 — the first
run stops at its quota after one article, and a second run against the same
ledger yields the second article, not zero new candidates. -/
theorem rss_rerun_counterexample :
    (collect_from_rss demoTimeEnv demoFeeds2 1 []).articles.length = 1 ∧
    ¬ ((collect_from_rss demoTimeEnv demoFeeds2 1
        (collect_from_rss demoTimeEnv demoFeeds2 1 []).seen).articles = []) := by
  exact ⟨by decide, by decide⟩

/-! ## Claims C4 and C5: the normalize_url algebra

The characterisation `normalize_mkUrl` computes `normalize_url` on every
well-formed rendered URL: the scheme is kept, the host is lowercased and
stripped of one leading `www.`, the path loses every trailing slash, and
the query keeps exactly its non-tracking parameters in order. -/

theorem toLower_eq_of_isLower {c : Char} (h : c.isLower = true) : c.toLower = c := by
  simp only [Char.isLower, ge_iff_le, Bool.and_eq_true, decide_eq_true_eq] at h
  have h97 : 97 ≤ c.toNat := h.1
  simp only [Char.toLower]
  rw [if_neg]
  omega

theorem safeChar_ne {c d : Char} (h : quoteSafe c = true) (hd : quoteSafe d = false) :
    c ≠ d := fun e => by rw [e, hd] at h; exact Bool.false_ne_true h

/-! ### Splitter lemmas -/
theorem breakAtFirst_of_not_mem {c : Char} :
    ∀ (l : List Char), c ∉ l → breakAtFirst c l = none
  | [], _ => rfl
  | a :: t, h => by
    have ha : ¬ a = c := fun e => h (e ▸ List.mem_cons_self a t)
    have ht : c ∉ t := fun m => h (List.mem_cons_of_mem a m)
    rw [breakAtFirst, if_neg ha, breakAtFirst_of_not_mem t ht]
    rfl

theorem breakAtFirst_append {c : Char} :
    ∀ (xs ys : List Char), c ∉ xs → breakAtFirst c (xs ++ c :: ys) = some (xs, ys)
  | [], ys, _ => by simp [breakAtFirst]
  | a :: t, ys, h => by
    have ha : ¬ a = c := fun e => h (e ▸ List.mem_cons_self a t)
    have ht : c ∉ t := fun m => h (List.mem_cons_of_mem a m)
    rw [List.cons_append, breakAtFirst, if_neg ha, breakAtFirst_append t ys ht]
    rfl

theorem takeWhile_append_of_all {p : Char → Bool} :
    ∀ (xs ys : List Char), (∀ c ∈ xs, p c = true) →
      (∀ y ∈ ys.head?, p y = false) →
      (xs ++ ys).takeWhile p = xs ∧ (xs ++ ys).dropWhile p = ys
  | [], ys, _, hy => by
    cases ys with
    | nil => simp
    | cons y t =>
      have hpy := hy y rfl
      simp [List.takeWhile_cons, List.dropWhile_cons, hpy]
  | a :: t, ys, hx, hy => by
    have ha := hx a (List.mem_cons_self a t)
    have ih := takeWhile_append_of_all t ys
      (fun c m => hx c (List.mem_cons_of_mem a m)) hy
    simp [List.takeWhile_cons, List.dropWhile_cons, ha, ih.1, ih.2]

theorem dropWhile_append_of_all {p : Char → Bool} :
    ∀ (xs ys : List Char), (∀ c ∈ xs, p c = true) →
      (xs ++ ys).dropWhile p = ys.dropWhile p
  | [], _, _ => by simp
  | a :: t, ys, hx => by
    have ha := hx a (List.mem_cons_self a t)
    simp [List.dropWhile_cons, ha,
      dropWhile_append_of_all t ys (fun c m => hx c (List.mem_cons_of_mem a m))]

theorem isLower_isAlpha {c : Char} (h : c.isLower = true) : c.isAlpha = true := by
  simp [Char.isAlpha, h]

theorem splitScheme_mk (scheme rest : List Char) (h1 : scheme ≠ [])
    (h2 : ∀ c ∈ scheme, c.isLower = true) :
    splitScheme (scheme ++ ':' :: rest) = (scheme, rest) := by
  have hnc : ':' ∉ scheme := fun m => absurd (h2 _ m) (by decide)
  rw [splitScheme, breakAtFirst_append scheme rest hnc]
  cases scheme with
  | nil => exact absurd rfl h1
  | cons c t =>
    dsimp only
    have hc := isLower_isAlpha (h2 c (List.mem_cons_self c t))
    have hall : (c :: t).all schemeChar = true := by
      rw [List.all_eq_true]
      intro x hx
      simp [schemeChar, isLower_isAlpha (h2 x hx)]
    rw [if_pos (show (c.isAlpha && (c :: t).all schemeChar) = true by
      rw [hc, hall]; rfl)]
    have hmap : (c :: t).map Char.toLower = c :: t :=
      List.map_congr_left (fun x hx => toLower_eq_of_isLower (h2 x hx)) |>.trans
        (List.map_id _)
    rw [hmap]

theorem hostChar_not_delim {c : Char} (h : hostChar c = true) :
    netlocDelim c = false := by
  by_cases h1 : c = '/'
  · subst h1; exact absurd h (by decide)
  by_cases h2 : c = '?'
  · subst h2; exact absurd h (by decide)
  by_cases h3 : c = '#'
  · subst h3; exact absurd h (by decide)
  simp [netlocDelim, h1, h2, h3]

theorem splitNetloc_mk (host tail : List Char)
    (hh : ∀ c ∈ host, hostChar c = true)
    (ht : ∀ y ∈ tail.head?, netlocDelim y = true) :
    splitNetloc ('/' :: '/' :: (host ++ tail)) = (host, tail) := by
  rw [splitNetloc, if_pos (show startsWithL ['/', '/'] _ = true by
    simp [startsWithL, List.isPrefixOf])]
  have hres := @takeWhile_append_of_all (fun c => !netlocDelim c) host tail
    (fun c m => show (!netlocDelim c) = true by
      rw [hostChar_not_delim (hh c m)]; rfl)
    (fun y m => show (!netlocDelim y) = false by rw [ht y m]; rfl)
  dsimp only
  simp only [List.drop_succ_cons, List.drop_zero]
  rw [hres.1, hres.2]

theorem pctDecode_no_pct : ∀ (l : List Char), '%' ∉ l → pctDecode l = l
  | [], _ => rfl
  | c :: t, h => by
    have hc : ¬ c = '%' := fun e => h (e ▸ List.mem_cons_self c t)
    have ht : '%' ∉ t := fun m => h (List.mem_cons_of_mem c m)
    have ih := pctDecode_no_pct t ht
    cases t with
    | nil => simp [pctDecode, hc]
    | cons a t' =>
      cases t' with
      | nil => simp [pctDecode, hc, ih]
      | cons b t2 => simp [pctDecode, hc, ih]

theorem unquotePlus_id {l : List Char} (h : ∀ c ∈ l, quoteSafe c = true) :
    unquotePlus l = l := by
  rw [unquotePlus]
  have hmap : l.map (fun c => if c = '+' then ' ' else c) = l :=
    (List.map_congr_left (fun c m => if_neg (safeChar_ne (h c m) (by decide)))).trans
      (List.map_id l)
  rw [hmap]
  exact pctDecode_no_pct l (fun m => absurd (h _ m) (by decide))

theorem quotePlus_id : ∀ (l : List Char), (∀ c ∈ l, quoteSafe c = true) →
    quotePlus l = l
  | [], _ => rfl
  | c :: t, h => by
    have hc := h c (List.mem_cons_self c t)
    have ih := quotePlus_id t (fun x m => h x (List.mem_cons_of_mem c m))
    simp only [quotePlus, List.map_cons, List.flatten_cons] at ih ⊢
    rw [if_neg (safeChar_ne hc (by decide)), if_pos hc, ih]
    rfl

/-! ### splitOnChar and renderQuery -/
theorem splitOnCharAux_of_not_mem (c : Char) :
    ∀ (xs acc : List Char), c ∉ xs → splitOnCharAux c xs acc = [acc.reverse ++ xs]
  | [], acc, _ => by simp [splitOnCharAux]
  | a :: t, acc, h => by
    have ha : ¬ a = c := fun e => h (e ▸ List.mem_cons_self a t)
    have ht : c ∉ t := fun m => h (List.mem_cons_of_mem a m)
    rw [splitOnCharAux, if_neg ha, splitOnCharAux_of_not_mem c t (a :: acc) ht]
    simp

theorem splitOnCharAux_mid (c : Char) :
    ∀ (xs ys acc : List Char), c ∉ xs →
      splitOnCharAux c (xs ++ c :: ys) acc =
        (acc.reverse ++ xs) :: splitOnCharAux c ys []
  | [], ys, acc, _ => by simp [splitOnCharAux]
  | a :: t, ys, acc, h => by
    have ha : ¬ a = c := fun e => h (e ▸ List.mem_cons_self a t)
    have ht : c ∉ t := fun m => h (List.mem_cons_of_mem a m)
    rw [List.cons_append, splitOnCharAux, if_neg ha,
      splitOnCharAux_mid c t ys (a :: acc) ht]
    simp

theorem mem_renderQuery :
    ∀ (q : List (List Char × List Char)) (c : Char),
      (∀ kv ∈ q, (∀ x ∈ kv.1, quoteSafe x = true) ∧
        ∀ x ∈ kv.2, quoteSafe x = true) →
      c ∈ renderQuery q → quoteSafe c = true ∨ c = '=' ∨ c = '&'
  | [], _, _, h => absurd h (List.not_mem_nil _)
  | [kv], c, hq, h => by
    rw [renderQuery] at h
    rcases List.mem_append.1 h with h1 | h2
    · exact Or.inl ((hq kv (List.mem_singleton_self kv)).1 c h1)
    · rcases List.mem_cons.1 h2 with h3 | h4
      · exact Or.inr (Or.inl h3)
      · exact Or.inl ((hq kv (List.mem_singleton_self kv)).2 c h4)
  | kv :: kv2 :: rest, c, hq, h => by
    rw [renderQuery] at h
    have hkv := hq kv (List.mem_cons_self _ _)
    rcases List.mem_append.1 h with h1 | h2
    · rcases List.mem_append.1 h1 with ha | hb
      · exact Or.inl (hkv.1 c ha)
      · rcases List.mem_cons.1 hb with hc | hd
        · exact Or.inr (Or.inl hc)
        · exact Or.inl (hkv.2 c hd)
    · rcases List.mem_cons.1 h2 with h7 | h8
      · exact Or.inr (Or.inr h7)
      · exact mem_renderQuery (kv2 :: rest) c
          (fun x m => hq x (List.mem_cons_of_mem kv m)) h8

theorem amp_not_mem_piece {kv : List Char × List Char}
    (h1 : ∀ x ∈ kv.1, quoteSafe x = true) (h2 : ∀ x ∈ kv.2, quoteSafe x = true) :
    '&' ∉ kv.1 ++ '=' :: kv.2 := by
  intro hm
  rcases List.mem_append.1 hm with ha | hb
  · exact absurd (h1 _ ha) (by decide)
  · rcases List.mem_cons.1 hb with hc | hd
    · exact absurd hc (by decide)
    · exact absurd (h2 _ hd) (by decide)

theorem splitOnChar_renderQuery :
    ∀ (q : List (List Char × List Char)), q ≠ [] →
      (∀ kv ∈ q, (∀ x ∈ kv.1, quoteSafe x = true) ∧
        ∀ x ∈ kv.2, quoteSafe x = true) →
      splitOnChar '&' (renderQuery q) = q.map (fun kv => kv.1 ++ '=' :: kv.2)
  | [], h, _ => absurd rfl h
  | [kv], _, hq => by
    rw [renderQuery, splitOnChar, splitOnCharAux_of_not_mem '&' _ []
      (amp_not_mem_piece (hq kv (List.mem_singleton_self kv)).1
        (hq kv (List.mem_singleton_self kv)).2)]
    simp
  | kv :: kv2 :: rest, _, hq => by
    have hkv := hq kv (List.mem_cons_self _ _)
    have hshape : renderQuery (kv :: kv2 :: rest) =
        (kv.1 ++ '=' :: kv.2) ++ '&' :: renderQuery (kv2 :: rest) := by
      rw [renderQuery]
    rw [splitOnChar, hshape,
      splitOnCharAux_mid '&' _ _ [] (amp_not_mem_piece hkv.1 hkv.2)]
    have ih := splitOnChar_renderQuery (kv2 :: rest) (by simp)
      (fun x m => hq x (List.mem_cons_of_mem kv m))
    rw [splitOnChar] at ih
    rw [ih]
    simp

theorem parseQsl_renderQuery (q : List (List Char × List Char)) (hne : q ≠ [])
    (hq : ∀ kv ∈ q, kv.1 ≠ [] ∧ kv.2 ≠ [] ∧ (∀ c ∈ kv.1, quoteSafe c = true) ∧
      ∀ c ∈ kv.2, quoteSafe c = true) :
    parseQsl (renderQuery q) = q := by
  rw [parseQsl, splitOnChar_renderQuery q hne
    (fun kv m => ⟨(hq kv m).2.2.1, (hq kv m).2.2.2⟩)]
  rw [List.filterMap_map]
  have : ∀ kv ∈ q,
      (fun pair : List Char =>
        if pair.isEmpty then none
        else match breakAtFirst '=' pair with
          | none => none
          | some (n, v) =>
            if v.isEmpty then none
            else some (unquotePlus n, unquotePlus v))
        (kv.1 ++ '=' :: kv.2) = some kv := by
    intro kv m
    obtain ⟨hk, hv, hka, hva⟩ := hq kv m
    have hmem : '=' ∉ kv.1 := fun hm => absurd (hka _ hm) (by decide)
    have hemp : (kv.1 ++ '=' :: kv.2).isEmpty = false := by
      cases h : kv.1 ++ '=' :: kv.2 with
      | nil => exact absurd (List.append_eq_nil.1 h).2 (by simp)
      | cons x xs => rfl
    simp only [hemp, Bool.false_eq_true, if_false, breakAtFirst_append kv.1 kv.2 hmem]
    have hvemp : kv.2.isEmpty = false := by
      cases hv2 : kv.2 with
      | nil => exact absurd hv2 hv
      | cons x xs => rfl
    simp only [hvemp, Bool.false_eq_true, if_false,
      unquotePlus_id hka, unquotePlus_id hva]
  exact (List.filterMap_congr this).trans (List.filterMap_some q)

theorem foldl_addToGroups :
    ∀ (q : List (List Char × List Char))
      (acc : List (List Char × List (List Char))),
      (q.map Prod.fst).Nodup →
      (∀ kv ∈ q, ∀ e ∈ acc, e.1 ≠ kv.1) →
      List.foldl addToGroups acc q =
        acc ++ q.map (fun kv => (kv.1, [kv.2]))
  | [], acc, _, _ => by simp
  | kv :: rest, acc, hnd, hdis => by
    rw [List.foldl_cons]
    have hany : acc.any (fun e => e.1 = kv.1) = false := by
      rw [List.any_eq_false]
      intro e he
      simpa using hdis kv (List.mem_cons_self _ _) e he
    have hstep : addToGroups acc kv = acc ++ [(kv.1, [kv.2])] := by
      rw [addToGroups, if_neg (by rw [hany]; exact Bool.false_ne_true)]
    rw [hstep]
    have hnd' : (rest.map Prod.fst).Nodup := by
      rw [List.map_cons] at hnd
      exact hnd.of_cons
    have hhead : ∀ kv' ∈ rest, kv.1 ≠ kv'.1 := by
      intro kv' m e
      rw [List.map_cons] at hnd
      exact (List.nodup_cons.1 hnd).1 (e ▸ List.mem_map_of_mem Prod.fst m)
    have hdis' : ∀ kv' ∈ rest, ∀ e ∈ acc ++ [(kv.1, [kv.2])], e.1 ≠ kv'.1 := by
      intro kv' m e he
      rcases List.mem_append.1 he with ha | hb
      · exact hdis kv' (List.mem_cons_of_mem kv m) e ha
      · rcases List.mem_singleton.1 hb with rfl
        exact hhead kv' m
    rw [foldl_addToGroups rest (acc ++ [(kv.1, [kv.2])]) hnd' hdis']
    simp

theorem parseQs_renderQuery (q : List (List Char × List Char)) (hne : q ≠ [])
    (hq : ∀ kv ∈ q, kv.1 ≠ [] ∧ kv.2 ≠ [] ∧ (∀ c ∈ kv.1, quoteSafe c = true) ∧
      ∀ c ∈ kv.2, quoteSafe c = true)
    (hnd : (q.map Prod.fst).Nodup) :
    parseQs (renderQuery q) = q.map (fun kv => (kv.1, [kv.2])) := by
  rw [parseQs, parseQsl_renderQuery q hne hq,
    foldl_addToGroups q [] hnd (fun kv _ e he => absurd he (List.not_mem_nil e))]
  simp

theorem filterTracking_map_singleton (q : List (List Char × List Char)) :
    filterTracking (q.map (fun kv => (kv.1, [kv.2]))) =
      (q.filter (fun kv => !tracking_params.contains kv.1)).map
        (fun kv => (kv.1, [kv.2])) := by
  rw [filterTracking, List.filter_map]
  rfl

theorem intercalate_cons2 (s a b : List Char) (t : List (List Char)) :
    List.intercalate s (a :: b :: t) = a ++ s ++ List.intercalate s (b :: t) := by
  rw [List.intercalate, List.intercalate,
    show List.intersperse s (a :: b :: t) = a :: s :: List.intersperse s (b :: t)
      from rfl,
    List.flatten_cons, List.flatten_cons, List.append_assoc]

theorem urlencodeSeq_map_singleton :
    ∀ (q : List (List Char × List Char)),
      (∀ kv ∈ q, (∀ c ∈ kv.1, quoteSafe c = true) ∧
        ∀ c ∈ kv.2, quoteSafe c = true) →
      urlencodeSeq (q.map (fun kv => (kv.1, [kv.2]))) = renderQuery q
  | [], _ => rfl
  | [kv], hq => by
    obtain ⟨hk, hv⟩ := hq kv (List.mem_singleton_self kv)
    simp only [urlencodeSeq, List.map_cons, List.map_nil, List.flatten_cons,
      List.flatten_nil, List.singleton_append, List.append_nil]
    rw [quotePlus_id kv.1 hk, quotePlus_id kv.2 hv, renderQuery]
    simp [List.intercalate]
  | kv :: kv2 :: rest, hq => by
    obtain ⟨hk, hv⟩ := hq kv (List.mem_cons_self _ _)
    have ih := urlencodeSeq_map_singleton (kv2 :: rest)
      (fun x m => hq x (List.mem_cons_of_mem kv m))
    simp only [urlencodeSeq, List.map_cons, List.map_nil, List.flatten_cons,
      List.singleton_append, List.cons_append, List.nil_append] at ih ⊢
    rw [intercalate_cons2, ih, renderQuery,
      quotePlus_id kv.1 hk, quotePlus_id kv.2 hv]
    simp [List.append_assoc]

theorem renderQuery_isEmpty :
    ∀ (q : List (List Char × List Char)),
      (renderQuery q).isEmpty = q.isEmpty
  | [] => rfl
  | [kv] => by
    rw [renderQuery]
    cases h : kv.1 ++ '=' :: kv.2 with
    | nil => exact absurd (List.append_eq_nil.1 h).2 (by simp)
    | cons x xs => rfl
  | kv :: kv2 :: rest => by
    rw [renderQuery]
    cases h : (kv.1 ++ '=' :: kv.2) ++ '&' :: renderQuery (kv2 :: rest) with
    | nil => exact absurd (List.append_eq_nil.1 h).2 (by simp)
    | cons x xs => rfl

/-! ### rstripSlashes lemmas -/
theorem rstripSlashes_decomp (l : List Char) :
    rstripSlashes l ++ (l.reverse.takeWhile (· = '/')).reverse = l := by
  rw [rstripSlashes, ← List.reverse_append, List.takeWhile_append_dropWhile,
    List.reverse_reverse]

theorem rstripSlashes_head (l : List Char) :
    rstripSlashes l = [] ∨ (rstripSlashes l).head? = l.head? := by
  cases he : rstripSlashes l with
  | nil => exact Or.inl rfl
  | cons c t =>
    right
    have h := rstripSlashes_decomp l
    rw [he] at h
    rw [← h]
    rfl

theorem rstripSlashes_append_replicate (l : List Char) (k : Nat) :
    rstripSlashes (l ++ List.replicate k '/') = rstripSlashes l := by
  rw [rstripSlashes, rstripSlashes, List.reverse_append, List.reverse_replicate]
  rw [dropWhile_append_of_all (List.replicate k '/') l.reverse
    (fun c m => by rw [List.eq_of_mem_replicate m]; rfl)]

theorem rstripSlashes_of_getLast (l : List Char) (h : l.getLast? ≠ some '/') :
    rstripSlashes l = l := by
  rw [rstripSlashes]
  have hd : l.reverse.dropWhile (· = '/') = l.reverse := by
    cases hr : l.reverse with
    | nil => rfl
    | cons c t =>
      rw [List.dropWhile_cons, if_neg]
      intro he
      apply h
      rw [← List.head?_reverse, hr]
      simp only [List.head?_cons]
      rw [of_decide_eq_true he]
  rw [hd, List.reverse_reverse]

/-! ### urlparse on rendered URLs -/
theorem pathCharOk_facts {c : Char} (h : pathCharOk c = true) :
    c ≠ '?' ∧ c ≠ '#' ∧ c ≠ ';' := by
  by_cases h1 : c = '?'
  · subst h1; exact absurd h (by decide)
  by_cases h2 : c = '#'
  · subst h2; exact absurd h (by decide)
  by_cases h3 : c = ';'
  · subst h3; exact absurd h (by decide)
  exact ⟨h1, h2, h3⟩

theorem urlparse_mkUrl (scheme host path : List Char)
    (q : List (List Char × List Char))
    (hs : SchemeOk scheme) (hh : HostOk host) (hp : PathOk path)
    (hq : QueryOk q) :
    urlparseChars (mkUrl scheme host path q) =
      ⟨scheme, host, path, [],
        if q.isEmpty then [] else renderQuery q, []⟩ := by
  obtain ⟨hs1, hs2⟩ := hs
  obtain ⟨hh1, hh2⟩ := hh
  obtain ⟨hp1, hp2⟩ := hp
  obtain ⟨hq1, hq2⟩ := hq
  have hqcs : ∀ kv ∈ q, (∀ x ∈ kv.1, quoteSafe x = true) ∧
      ∀ x ∈ kv.2, quoteSafe x = true :=
    fun kv m => ⟨(hq1 kv m).2.2.1, (hq1 kv m).2.2.2⟩
  have hnoq : '?' ∉ path := fun hm => (pathCharOk_facts (hp2 _ hm)).1 rfl
  have hnosemi : path.contains ';' = false := by
    cases hc : path.contains ';' with
    | false => rfl
    | true =>
      have : ';' ∈ path := List.elem_iff.1 hc
      exact absurd rfl (pathCharOk_facts (hp2 _ this)).2.2
  have hparams : splitParams path = (path, []) := by
    rw [splitParams, if_neg (by rw [hnosemi]; exact Bool.false_ne_true)]
  by_cases hq0 : q = []
  · subst hq0
    have hmk : mkUrl scheme host path [] =
        scheme ++ ':' :: ('/' :: '/' :: (host ++ path)) := by
      rw [mkUrl]
      simp [List.append_assoc]
    have hA : splitScheme (mkUrl scheme host path []) =
        (scheme, '/' :: '/' :: (host ++ path)) := by
      rw [hmk]
      exact splitScheme_mk scheme _ hs1 hs2
    have hB : splitNetloc ('/' :: '/' :: (host ++ path)) = (host, path) := by
      apply splitNetloc_mk host path hh2
      intro y hy
      rcases hp1 with hpe | hph
      · subst hpe; exact absurd hy (by simp)
      · cases path with
        | nil => exact absurd hph (by simp)
        | cons c t =>
          simp only [List.head?_cons, Option.some.injEq] at hph
          simp only [List.head?_cons, Option.mem_def, Option.some.injEq] at hy
          rw [← hy, hph]
          decide
    have hnofrag : '#' ∉ path :=
      fun hm => (pathCharOk_facts (hp2 _ hm)).2.1 rfl
    rw [urlparseChars, hA]
    dsimp only
    rw [hB]
    dsimp only
    rw [breakAtFirst_of_not_mem _ hnofrag]
    dsimp only
    rw [breakAtFirst_of_not_mem _ hnoq]
    dsimp only
    rw [hparams]
    rfl
  · have hqq : (if q.isEmpty then ([] : List Char) else '?' :: renderQuery q) =
        '?' :: renderQuery q := by
      cases q with
      | nil => exact absurd rfl hq0
      | cons a l => rfl
    have hqq2 : (if q.isEmpty then ([] : List Char) else renderQuery q) =
        renderQuery q := by
      cases q with
      | nil => exact absurd rfl hq0
      | cons a l => rfl
    have hmk : mkUrl scheme host path q = scheme ++ ':' ::
        ('/' :: '/' :: (host ++ (path ++ '?' :: renderQuery q))) := by
      rw [mkUrl, hqq]
      simp [List.append_assoc]
    have hA : splitScheme (mkUrl scheme host path q) =
        (scheme, '/' :: '/' :: (host ++ (path ++ '?' :: renderQuery q))) := by
      rw [hmk]
      exact splitScheme_mk scheme _ hs1 hs2
    have hB : splitNetloc ('/' :: '/' :: (host ++ (path ++ '?' :: renderQuery q))) =
        (host, path ++ '?' :: renderQuery q) := by
      apply splitNetloc_mk host _ hh2
      intro y hy
      rcases hp1 with hpe | hph
      · subst hpe
        simp only [List.nil_append, List.head?_cons, Option.mem_def,
          Option.some.injEq] at hy
        rw [← hy]
        rfl
      · cases path with
        | nil => exact absurd hph (by simp)
        | cons c t =>
          simp only [List.head?_cons, Option.some.injEq] at hph
          simp only [List.cons_append, List.head?_cons, Option.mem_def,
            Option.some.injEq] at hy
          rw [← hy, hph]
          decide
    have hnofrag : '#' ∉ path ++ '?' :: renderQuery q := by
      intro hm
      rcases List.mem_append.1 hm with hmp | hmq
      · exact (pathCharOk_facts (hp2 _ hmp)).2.1 rfl
      · rcases List.mem_cons.1 hmq with hx | hx
        · exact absurd hx (by decide)
        · rcases mem_renderQuery q '#' hqcs hx with ha | ha | ha
          · exact absurd ha (by decide)
          · exact absurd ha (by decide)
          · exact absurd ha (by decide)
    rw [urlparseChars, hA]
    dsimp only
    rw [hB]
    dsimp only
    rw [breakAtFirst_of_not_mem _ hnofrag]
    dsimp only
    rw [breakAtFirst_append path (renderQuery q) hnoq]
    dsimp only
    rw [hparams, hqq2]

/-! ### urlunparse on canonical components -/
theorem urlunparse_mk (scheme netloc path query : List Char)
    (hs : scheme ≠ []) (hn : netloc ≠ [])
    (hp : path = [] ∨ path.head? = some '/') :
    urlunparseChars scheme netloc path [] query [] =
      scheme ++ [':', '/', '/'] ++ netloc ++ path ++
        (if query.isEmpty then [] else '?' :: query) := by
  have hred : urlunparseChars scheme netloc path [] query [] =
      (let url :=
        if !netloc.isEmpty || startsWithL ['/', '/'] path then
          let url' := if !path.isEmpty && !startsWithL ['/'] path
            then '/' :: path else path
          '/' :: '/' :: (netloc ++ url')
        else path
      let url := if scheme.isEmpty then url else scheme ++ ':' :: url
      if query.isEmpty then url else url ++ '?' :: query) := rfl
  rw [hred]
  have hn' : netloc.isEmpty = false := by
    cases netloc with
    | nil => exact absurd rfl hn
    | cons a t => rfl
  have hs' : scheme.isEmpty = false := by
    cases scheme with
    | nil => exact absurd rfl hs
    | cons a t => rfl
  have hcond : (!netloc.isEmpty || startsWithL ['/', '/'] path) = true := by
    rw [hn']
    rfl
  have hinner : (!path.isEmpty && !startsWithL ['/'] path) = false := by
    rcases hp with hpe | hph
    · subst hpe; rfl
    · cases path with
      | nil => rfl
      | cons c t =>
        simp only [List.head?_cons, Option.some.injEq] at hph
        rw [hph]
        simp [startsWithL, List.isPrefixOf]
  dsimp only
  rw [if_pos hcond,
    if_neg (show ¬(!path.isEmpty && !startsWithL ['/'] path) = true by
      rw [hinner]; exact Bool.false_ne_true),
    if_neg (show ¬scheme.isEmpty = true by
      rw [hs']; exact Bool.false_ne_true)]
  by_cases hq : query = []
  · subst hq
    simp [List.append_assoc]
  · have hq' : query.isEmpty = false := by
      cases query with
      | nil => exact absurd rfl hq
      | cons a t => rfl
    rw [if_neg (show ¬query.isEmpty = true by
      rw [hq']; exact Bool.false_ne_true),
      if_neg (show ¬query.isEmpty = true by
        rw [hq']; exact Bool.false_ne_true)]
    simp [List.append_assoc]

/-! ### The normalize_url characterisation on rendered URLs -/
theorem normalize_mkUrl (scheme host path : List Char)
    (q : List (List Char × List Char))
    (hs : SchemeOk scheme) (hh : HostOk host)
    (hw : stripWww (host.map Char.toLower) ≠ [])
    (hp : PathOk path) (hq : QueryOk q) :
    normalizeChars (mkUrl scheme host path q) =
      mkUrl scheme (stripWww (host.map Char.toLower)) (rstripSlashes path)
        (q.filter (fun kv => !tracking_params.contains kv.1)) := by
  have hne : (mkUrl scheme host path q).isEmpty = false := by
    cases hsc : scheme with
    | nil => exact absurd hsc hs.1
    | cons a t => rw [mkUrl]; rfl
  have hp' : rstripSlashes path = [] ∨ (rstripSlashes path).head? = some '/' := by
    rcases rstripSlashes_head path with h | h
    · exact Or.inl h
    · rcases hp.1 with hpe | hph
      · subst hpe
        exact Or.inl rfl
      · exact Or.inr (h.trans hph)
  simp only [normalizeChars]
  rw [if_neg (show ¬(mkUrl scheme host path q).isEmpty = true by
    rw [hne]; exact Bool.false_ne_true)]
  rw [urlparse_mkUrl scheme host path q hs hh hp hq]
  dsimp only
  by_cases hq0 : q = []
  · subst hq0
    rw [show filterTracking (parseQs
        (if List.isEmpty [] then [] else renderQuery [])) = [] from rfl]
    rw [show urlencodeSeq [] = [] from rfl]
    rw [urlunparse_mk scheme (stripWww (host.map Char.toLower))
      (rstripSlashes path) [] hs.1 hw hp']
    rw [mkUrl]
    rfl
  · have hqq : (if q.isEmpty then ([] : List Char) else renderQuery q) =
        renderQuery q := by
      cases q with
      | nil => exact absurd rfl hq0
      | cons a l => rfl
    rw [hqq]
    rw [parseQs_renderQuery q hq0 hq.1 hq.2]
    rw [filterTracking_map_singleton]
    rw [urlencodeSeq_map_singleton
      (q.filter (fun kv => !tracking_params.contains kv.1))
      (fun kv m => ⟨(hq.1 kv (List.mem_of_mem_filter m)).2.2.1,
        (hq.1 kv (List.mem_of_mem_filter m)).2.2.2⟩)]
    rw [urlunparse_mk scheme (stripWww (host.map Char.toLower))
      (rstripSlashes path)
      (renderQuery (q.filter (fun kv => !tracking_params.contains kv.1)))
      hs.1 hw hp']
    rw [mkUrl, renderQuery_isEmpty]

/-! ### Claim C4 -/
/-- C4 counterexample: `http://www.www.example.com/x` and
`http://www.example.com/x` differ only in one leading `www.` on the host,
yet they normalize to different URLs, because `normalize_url` strips only
the first `www.` prefix of the netloc. -/
theorem normalize_www_counterexample :
    normalize_url "http://www.www.example.com/x" ≠
      normalize_url "http://www.example.com/x" ∧
    normalize_url "http://www.www.example.com/x" = "http://www.example.com/x" ∧
    normalize_url "http://www.example.com/x" = "http://example.com/x" := by
  decide

/-- C4 (amended): for all well-formed rendered URLs that differ only in
tracking query parameters (keys among utm_source, utm_medium, utm_campaign,
utm_term, utm_content, fbclid, gclid, ref, source), in the case of the
host, in the presence of a leading `www.`, or in trailing slashes on the
path — captured by requiring the two hosts to agree after lowercasing and
one `www.`-strip (so the remaining host must not itself begin with `www.`,
see the counterexample), the two paths to agree after stripping trailing
slashes, and the two queries to agree after dropping tracking keys —
`normalize_url` gives the same canonical URL; and `normalize_url "" = ""`. -/
theorem normalize_url_cosmetic_invariance
    (scheme h1 h2 p1 p2 : String) (q1 q2 : List (String × String))
    (hs : SchemeOk scheme.data)
    (hh1 : HostOk h1.data) (hh2 : HostOk h2.data)
    (hhost : stripWww (h1.data.map Char.toLower) =
      stripWww (h2.data.map Char.toLower))
    (hw : stripWww (h1.data.map Char.toLower) ≠ [])
    (hp1 : PathOk p1.data) (hp2 : PathOk p2.data)
    (hpath : rstripSlashes p1.data = rstripSlashes p2.data)
    (hq1 : QueryOk (q1.map (fun kv => (kv.1.data, kv.2.data))))
    (hq2 : QueryOk (q2.map (fun kv => (kv.1.data, kv.2.data))))
    (hfil : (q1.map (fun kv => (kv.1.data, kv.2.data))).filter
          (fun kv => !tracking_params.contains kv.1) =
        (q2.map (fun kv => (kv.1.data, kv.2.data))).filter
          (fun kv => !tracking_params.contains kv.1)) :
    normalize_url (mkUrlStr scheme h1 p1 q1) =
      normalize_url (mkUrlStr scheme h2 p2 q2) ∧
    normalize_url "" = "" := by
  refine ⟨congrArg (fun l => (⟨l⟩ : String)) ?_, rfl⟩
  show normalizeChars (mkUrl scheme.data h1.data p1.data
      (q1.map (fun kv => (kv.1.data, kv.2.data)))) =
    normalizeChars (mkUrl scheme.data h2.data p2.data
      (q2.map (fun kv => (kv.1.data, kv.2.data))))
  rw [normalize_mkUrl scheme.data h1.data p1.data _ hs hh1 hw hp1 hq1,
    normalize_mkUrl scheme.data h2.data p2.data _ hs hh2 (hhost ▸ hw) hp2 hq2,
    hhost, hpath, hfil]

/-- Witness for C4 (amended): `https://WWW.Example.com/a/?utm_source=x&b=2`
and `https://example.com/a?b=2` normalize identically. -/
theorem normalize_url_cosmetic_invariance_witness :
    normalize_url (mkUrlStr "https" "WWW.Example.com" "/a/"
        [("utm_source", "x"), ("b", "2")]) =
      normalize_url (mkUrlStr "https" "example.com" "/a" [("b", "2")]) ∧
    normalize_url "" = "" :=
  normalize_url_cosmetic_invariance "https" "WWW.Example.com" "example.com"
    "/a/" "/a" [("utm_source", "x"), ("b", "2")] [("b", "2")]
    (by decide) (by decide) (by decide) (by decide) (by decide) (by decide)
    (by decide) (by decide) (by decide) (by decide) (by decide)

/-! ### Claim C5 -/
/-- C5 counterexample: the path `/a//` normalizes to `/a`, not to `/a/`:
`rstrip('/')` removes every trailing slash, not a single one. -/
theorem normalize_trailing_slashes_counterexample :
    normalize_url "https://example.com/a//" = "https://example.com/a" ∧
    normalize_url "https://example.com/a//" ≠ "https://example.com/a/" := by
  decide

/-- C5 (amended): `normalize_url` strips ALL trailing slashes from the
path, not exactly one: for every count `k`, appending `k` slashes to a
well-formed path that does not already end in a slash normalizes to the
canonical URL with no trailing slash at all. -/
theorem normalize_url_strips_all_trailing_slashes
    (scheme host p : String) (k : Nat)
    (hs : SchemeOk scheme.data) (hh : HostOk host.data)
    (hw : stripWww (host.data.map Char.toLower) ≠ [])
    (hp : PathOk p.data)
    (hlast : p.data.getLast? ≠ some '/') :
    normalize_url (mkUrlStr scheme host (p ++ ⟨List.replicate k '/'⟩) []) =
      mkUrlStr scheme ⟨stripWww (host.data.map Char.toLower)⟩ p [] := by
  have hp2 : PathOk (p.data ++ List.replicate k '/') := by
    constructor
    · rcases hp.1 with hpe | hph
      · rw [hpe, List.nil_append]
        cases k with
        | zero => exact Or.inl rfl
        | succ n => exact Or.inr (by rw [List.replicate_succ]; rfl)
      · right
        cases hpd : p.data with
        | nil => rw [hpd] at hph; exact absurd hph (by simp)
        | cons c t =>
          rw [hpd] at hph
          rw [List.cons_append, List.head?_cons]
          simp only [List.head?_cons] at hph
          exact hph
    · intro c m
      rcases List.mem_append.1 m with h1 | h1
      · exact hp.2 c h1
      · rw [List.eq_of_mem_replicate h1]
        decide
  refine congrArg (fun l => (⟨l⟩ : String)) ?_
  show normalizeChars (mkUrl scheme.data host.data
      (p.data ++ List.replicate k '/') []) =
    mkUrl scheme.data (stripWww (host.data.map Char.toLower)) p.data []
  rw [normalize_mkUrl scheme.data host.data _ [] hs hh hw hp2
    ⟨fun kv h => absurd h (List.not_mem_nil kv), List.nodup_nil⟩]
  rw [rstripSlashes_append_replicate, rstripSlashes_of_getLast p.data hlast]
  rfl

/-- Witness for C5 (amended) at `k = 2`: `https://example.com/a//`
normalizes to `https://example.com/a`. -/
theorem normalize_url_strips_all_trailing_slashes_witness :
    normalize_url (mkUrlStr "https" "example.com"
        ("/a" ++ ⟨List.replicate 2 '/'⟩) []) =
      mkUrlStr "https" ⟨stripWww ("example.com".data.map Char.toLower)⟩ "/a" [] :=
  normalize_url_strips_all_trailing_slashes "https" "example.com" "/a" 2
    (by decide) (by decide) (by decide) (by decide) (by decide)

end CE48
